import Mathlib

/-!
# Bohrium core: view algebra, loop-nest transformations and the engines

A shallow embedding of `src/core/bh.cpp` (view algebra, dependency analysis),
`src/core/jitk/transformer.cpp` (block-tree passes), `src/ve/cpu/engine.cpp`
(`Engine::execute`, `Engine::execute_block`), `src/ve/cpu/codegen/walker.cpp`
(`Walker::generate_source`), `src/core/bh_component.cpp` (configuration lookup),
`src/ve/opencl/engine_opencl.cpp` (cache limit, `work_ranges`) and `src/ve/gpu/Reduce.cpp`
(`Reduce::bh_reduce`), with the properties of the specification stated and settled over it.

Conventions of the embedding

* `bh_index` / `bh_intp` (64-bit signed) values are `Int`.  Signed overflow is undefined
  behaviour in C++ and lies outside the model; the narrowing conversions to `int` that
  `bh_view_disjoint` performs are well defined on the supported targets (two's complement
  wrap to 32 bits) and are modelled explicitly by `toInt32`.
* The fixed-capacity arrays `shape[BH_MAXDIM]`, `stride[BH_MAXDIM]` are total maps
  `Nat → Int`; an assignment `arr[i] = v` is `upd arr i v`.
* A `base` pointer is `Option Nat`: `none` is `NULL`, `some p` is the base at address `p`.
* `uint64_t` values are `Nat` below `2^64`; the unsigned subtraction of
  `split_for_threading` is `sub_uint64`, which wraps.
* `uint32_t` arithmetic is modulo `2^32` (`to_uint32`); a `double` is the exact value
  `m * 2^e` of the structure `Dbl`, and its operations round to nearest, ties to even.
* Text is `String`; an exception is a value of `Except` or `none`, and an exception that
  leaves `execute_block` or `execute` uncaught is recorded in the field `thrown` of the run.
* The CPU engine is embedded over the structure `CpuEngine` of the collaborators whose code
  is not among the sources (code generation, compiler, storage, victim cache); what the
  engine does with them is recorded in a list of effects and a list of calls.
-/

namespace Bohrium

/-! ## Data model -/

/-- The view descriptor `bh_view`: base pointer, start offset, number of dimensions and the
per-axis shape and stride arrays. -/
structure bh_view where
  base : Option Nat
  start : Int
  ndim : Nat
  shape : Nat → Int
  stride : Nat → Int

/-- The array assignment `arr[i] = v`. -/
def upd (arr : Nat → Int) (i : Nat) (v : Int) : Nat → Int :=
  fun k => if k = i then v else arr k

/-- An array whose leading entries are those of `l` (the remaining entries read 0). -/
def arr (l : List Int) : Nat → Int :=
  fun k => l.getD k 0

/-- The function `bh_nelements(ndim, shape)`: the product of the first `ndim` shape entries. -/
def bh_nelements_shape : Nat → (Nat → Int) → Int
  | 0, _ => 1
  | n + 1, shape => bh_nelements_shape n shape * shape n

/-- The function `bh_nelements(view)`. -/
def bh_nelements (view : bh_view) : Int :=
  bh_nelements_shape view.ndim view.shape

/-- The function `bh_is_constant`: the operand has no base. -/
def bh_is_constant (o : bh_view) : Bool :=
  o.base.isNone

/-- Row-major addressing: the element offset, relative to `start`, of linear index `i` in
an array with the first `nd` axes of `shape`/`stride`.  The innermost axis `nd - 1` takes
the index `i % shape[nd-1]`, the quotient is unravelled over the outer axes. -/
def elem_offset (shape stride : Nat → Int) : Nat → Int → Int
  | 0, _ => 0
  | nd + 1, i => elem_offset shape stride nd (i / shape nd) + (i % shape nd) * stride nd

/-- The element offset (`start + Σ index[k] * stride[k]`) that a view addresses at row-major
linear index `i`. -/
def view_offset (v : bh_view) (i : Int) : Int :=
  v.start + elem_offset v.shape v.stride v.ndim i

/-- The element offset addressed by an explicit index vector: `start + Σ_k idx[k]*stride[k]`. -/
def index_offset (v : bh_view) (idx : List Int) : Int :=
  v.start + ((List.range v.ndim).map (fun k => idx.getD k 0 * v.stride k)).sum

/-- An index vector lies within the view's shape: one index per axis, `0 ≤ idx[k] < shape[k]`. -/
def index_in_shape (v : bh_view) (idx : List Int) : Prop :=
  idx.length = v.ndim ∧ ∀ k, k < v.ndim → 0 ≤ idx.getD k 0 ∧ idx.getD k 0 < v.shape k

/-! ## `gcd` (bh.cpp, lines 264-276) -/

/-- The narrowing conversion of a 64-bit value to `int` (32-bit two's complement). -/
def toInt32 (x : Int) : Int :=
  (x + 2 ^ 31) % 2 ^ 32 - 2 ^ 31

/-- The `while (c != 0)` loop of `gcd`, on the state `(b, c)` with `c = a % b`; `%` is the
truncating C remainder.  The first argument bounds the number of iterations; `gcd` passes
`|b|`, which is never exhausted because `|c|` strictly decreases (`gcd_loop_fuel`). -/
def gcd_loop : Nat → Int → Int → Int
  | 0, b, _ => b
  | fuel + 1, b, c => if c = 0 then b else gcd_loop fuel c (b.tmod c)

/-- The function `gcd(int a, int b)`. -/
def gcd (a b : Int) : Int :=
  if b = 0 then a else gcd_loop b.natAbs b (a.tmod b)

/-! ## `bh_view_simplify` (bh.cpp, lines 284-309) -/

/-- One iteration of the loop of `bh_view_simplify(view)` at axis `i`. -/
def simplify_step (view : bh_view) (res : bh_view) (i : Nat) : bh_view :=
  if view.shape i = 1 then res
  else if view.shape i * view.stride i = res.stride res.ndim then
    { res with
      shape := upd res.shape res.ndim (res.shape res.ndim * view.shape i)
      stride := upd res.stride res.ndim (view.stride i) }
  else
    { res with
      ndim := res.ndim + 1
      shape := upd res.shape (res.ndim + 1) (view.shape i)
      stride := upd res.stride (res.ndim + 1) (view.stride i) }

/-- The local `res` of `bh_view_simplify` before the loop.  Entries of the uninitialised
arrays other than index 0 are never read before they are written; they are taken as 0. -/
def simplify_init (view : bh_view) : bh_view :=
  { base := view.base
    ndim := 0
    start := view.start
    shape := upd (fun _ => 0) 0 (view.shape 0)
    stride := upd (fun _ => 0) 0 (view.stride 0) }

/-- The closing `if (res.shape[res.ndim] > 1) ++res.ndim;`. -/
def simplify_finish (res : bh_view) : bh_view :=
  if res.shape res.ndim > 1 then { res with ndim := res.ndim + 1 } else res

/-- The function `bh_view_simplify(const bh_view& view)`: the loop runs over
`i = 1, ..., view.ndim - 1`. -/
def bh_view_simplify (view : bh_view) : bh_view :=
  simplify_finish ((List.range' 1 (view.ndim - 1)).foldl (simplify_step view) (simplify_init view))

/-! ## `bh_view_simplify(view, shape)` (bh.cpp, lines 317-353) -/

/-- The ways `bh_view_simplify(view, shape)` can fail to return: the three
`throw std::invalid_argument(...)` sites, and a read `shape[k]` past the end of the
target vector (undefined behaviour of `std::vector::operator[]`). -/
inductive SimplifyFailure where
  | more_dimensions
  | lower_dimension_size
  | given_shape
  | read_past_end (k : Nat)
deriving DecidableEq, Repr

/-- The loop of `bh_view_simplify(view, shape)` over the remaining axes `is`. -/
def simplify_to_loop (view : bh_view) (shape : List Int) :
    List Nat → bh_view → Except SimplifyFailure bh_view
  | [], res => .ok res
  | i :: is, res =>
    match shape.get? res.ndim with
    | none => .error (.read_past_end res.ndim)
    | some t =>
      if view.shape (i - 1) > t then .error .lower_dimension_size
      else if view.shape (i - 1) = t then
        simplify_to_loop view shape is
          { res with
            ndim := res.ndim + 1
            shape := upd res.shape (res.ndim + 1) (view.shape i)
            stride := upd res.stride (res.ndim + 1) (view.stride i) }
      else if view.shape i = 1 then simplify_to_loop view shape is res
      else if view.shape i * view.stride i = res.stride res.ndim then
        simplify_to_loop view shape is
          { res with
            shape := upd res.shape res.ndim (res.shape res.ndim * view.shape i)
            stride := upd res.stride res.ndim (view.stride i) }
      else
        simplify_to_loop view shape is
          { res with
            ndim := res.ndim + 1
            shape := upd res.shape (res.ndim + 1) (view.shape i)
            stride := upd res.stride (res.ndim + 1) (view.stride i) }

/-- The function `bh_view_simplify(const bh_view& view, const std::vector<bh_index>& shape)`. -/
def bh_view_simplify_to (view : bh_view) (shape : List Int) : Except SimplifyFailure bh_view :=
  if view.ndim < shape.length then .error .more_dimensions
  else
    match simplify_to_loop view shape (List.range' 1 (view.ndim - 1)) (simplify_init view) with
    | .error e => .error e
    | .ok res =>
      let res := simplify_finish res
      if res.ndim ≠ shape.length then .error .given_shape else .ok res

/-! ## View comparison (bh.cpp, lines 380-401) -/

/-- Modelled from the spec: `operator==` of `bh_view` (declared in `bh.h`, which is not
part of the sources at hand).  The specification describes it as structural equality
including base identity: same base, start and ndim, and the same shape and stride on every
axis below ndim. -/
def bh_view_eq (a b : bh_view) : Bool :=
  a.base == b.base && a.start == b.start && a.ndim == b.ndim &&
    (List.range a.ndim).all (fun k => a.shape k == b.shape k && a.stride k == b.stride k)

/-- The function `bh_view_aligned`. -/
def bh_view_aligned (a b : bh_view) : Bool :=
  if bh_is_constant a || bh_is_constant b then true
  else bh_view_eq (bh_view_simplify a) (bh_view_simplify b)

/-! ## `bh_view_disjoint` (bh.cpp, lines 433-462) -/

/-- The `for` loop of `bh_view_disjoint` from axis `i` on, with `n` axes left, followed by
the closing test.  `astart`, `bstart` and `stride` are the `int` locals; the values of the
views are 64-bit and every store into an `int` narrows. -/
def disjoint_loop (a b : bh_view) : Nat → Nat → Int → Int → Int → Bool
  | 0, _, _, _, stride =>
    decide (stride > 1 ∧ a.start.tmod stride ≠ b.start.tmod stride)
  | n + 1, i, astart, bstart, _ =>
    let stride := gcd (toInt32 (a.stride i)) (toInt32 (b.stride i))
    if stride = 0 then disjoint_loop a b n (i + 1) astart bstart stride
    else
      let as := toInt32 (astart.tdiv stride)
      let bs := toInt32 (bstart.tdiv stride)
      let ae := toInt32 (as + a.shape i * (a.stride i).tdiv stride)
      let be := toInt32 (bs + b.shape i * (b.stride i).tdiv stride)
      if ae < bs ∨ be < as then true
      else disjoint_loop a b n (i + 1) (astart.tmod stride) (bstart.tmod stride) stride

/-- The function `bh_view_disjoint`. -/
def bh_view_disjoint (a b : bh_view) : Bool :=
  if bh_is_constant a || bh_is_constant b then true
  else if a.base ≠ b.base then true
  else if a.ndim ≠ b.ndim then false
  else disjoint_loop a b a.ndim 0 (toInt32 a.start) (toInt32 b.start) 1

/-! ## `bh_instr_dependency` (bh.cpp, lines 474-489) -/

/-- The instruction `bh_instruction`: opcode, operand array and the inline constant. -/
structure bh_instruction where
  opcode : Nat
  operand : Nat → bh_view
  constant : Int

/-- The body of `bh_instr_dependency` over an arbitrary disjointness test `disjoint`;
`bh_operands` is the opcode table giving the number of operands (`bh_opcode.h`, not part of
the sources at hand, hence a parameter). -/
def instr_dependency_on (disjoint : bh_view → bh_view → Bool) (bh_operands : Nat → Nat)
    (a b : bh_instruction) : Bool :=
  (List.range (bh_operands a.opcode)).any (fun i => !disjoint (b.operand 0) (a.operand i)) ||
  (List.range (bh_operands b.opcode)).any (fun i => !disjoint (a.operand 0) (b.operand i))

/-- The function `bh_instr_dependency`. -/
def bh_instr_dependency (bh_operands : Nat → Nat) (a b : bh_instruction) : Bool :=
  instr_dependency_on bh_view_disjoint bh_operands a b

/-! ## Auxiliary definitions: the state of the simplification loop, index vectors -/

/-- The loop of `bh_view_simplify` after the axes `1, ..., k` have been processed. -/
def simplify_loop (view : bh_view) (k : Nat) : bh_view :=
  (List.range' 1 k).foldl (simplify_step view) (simplify_init view)

/-- The index vector of row-major linear index `i` over the first `nd` axes of `shape`. -/
def unravel (shape : Nat → Int) : Nat → Int → List Int
  | 0, _ => []
  | nd + 1, i => unravel shape nd (i / shape nd) ++ [i % shape nd]

/-- What the loop of `bh_view_simplify` maintains: after the axes below `i` of `view` have
been processed, the axes `0..res.ndim` of `res` address the same offsets, in the same
order, as the axes `0..i-1` of `view`. -/
structure SimplifyInv (view res : bh_view) (i : Nat) : Prop where
  base : res.base = view.base
  start : res.start = view.start
  pos : 1 ≤ res.shape res.ndim
  nelem : bh_nelements_shape (res.ndim + 1) res.shape = bh_nelements_shape i view.shape
  offset : ∀ j, elem_offset res.shape res.stride (res.ndim + 1) j
      = elem_offset view.shape view.stride i j

/-- What the loop of `bh_view_simplify` establishes about its result: every shape written
so far is at least 1, and every axis after the first is neither of size 1 nor mergeable
with the axis before it. -/
structure SimplifyNormal (res : bh_view) : Prop where
  pos : ∀ k, k ≤ res.ndim → 1 ≤ res.shape k
  axes : ∀ k, 1 ≤ k → k ≤ res.ndim →
    res.shape k ≠ 1 ∧ res.shape k * res.stride k ≠ res.stride (k - 1)

/-! ## The block tree (`jitk/block.hpp`) and `collapse_redundant_axes`
(`jitk/transformer.cpp`, lines 156-235) -/

mutual
/-- A block of the loop-nest tree: an instruction leaf or a loop. -/
inductive Block where
  | instr (i : bh_instruction)
  | loop (l : LoopB)
/-- The loop `LoopB`, with the members that `transformer.cpp` reads and writes: `rank`,
`size`, `_block_list` and the set `_sweeps`. -/
inductive LoopB where
  | mk (rank : Int) (size : Int) (block_list : List Block) (sweeps : List bh_instruction)
end

/-- The member `LoopB::rank`. -/
def LoopB.rank : LoopB → Int
  | .mk r _ _ _ => r

/-- The member `LoopB::size`. -/
def LoopB.size : LoopB → Int
  | .mk _ s _ _ => s

/-- The member `LoopB::_block_list`. -/
def LoopB.block_list : LoopB → List Block
  | .mk _ _ bl _ => bl

/-- The member `LoopB::_sweeps`. -/
def LoopB.sweeps : LoopB → List bh_instruction
  | .mk _ _ _ sw => sw

/-- The method `Block::isInstr`. -/
def Block.isInstr : Block → Bool
  | .instr _ => true
  | .loop _ => false

/-- The functions that `transformer.cpp` calls but whose code is not among the sources
(`bh_opcode.h`, `bh_instruction.cpp`, `jitk/block.cpp`); the passes are embedded over
arbitrary implementations of them.  `sweeps_of rank block_list` is the set `_sweeps` that
`LoopB::metadata_update` recomputes for a loop; `metadata_update` leaves `rank`, `size` and
`_block_list` as they are. -/
structure Externals where
  bh_noperands : Nat → Nat
  bh_opcode_is_reduction : Nat → Bool
  sweep_axis : bh_instruction → Int
  remove_axis : bh_instruction → Int → bh_instruction
  sweeps_of : Int → List Block → List bh_instruction

/-- The two assignments `view.shape[_axis] *= view.shape[_axis+1];
view.stride[_axis] = view.stride[_axis+1];` of `collapse_instr_axes`.  Axis numbers are
`int`s used as array indices; a negative index is outside the arrays. -/
def merge_axes (view : bh_view) (_axis : Int) : bh_view :=
  { view with
    shape := upd view.shape _axis.toNat (view.shape _axis.toNat * view.shape (_axis + 1).toNat)
    stride := upd view.stride _axis.toNat (view.stride (_axis + 1).toNat) }

/-- The assignment to `instr.operand[i]` through the reference `view`. -/
def set_operand (instr : bh_instruction) (i : Nat) (view : bh_view) : bh_instruction :=
  { instr with operand := fun k => if k = i then view else instr.operand k }

/-- The local `_axis` of `collapse_instr_axes` for operand `i`: the output of a reduction
that sweeps an axis below `axis` is tested and merged one axis lower. -/
def operand_axis (ext : Externals) (opcode : Nat) (sa axis : Int) (i : Nat) : Int :=
  if i = 0 ∧ ext.bh_opcode_is_reduction opcode = true then
    (if sa < axis then axis - 1 else axis)
  else axis

/-- The loop over the operands `is` of one instruction in `collapse_instr_axes`; `none` is
the `return false` of a failed consistency test. -/
def collapse_operands (ext : Externals) (sa axis : Int) :
    List Nat → bh_instruction → Option bh_instruction
  | [], instr => some instr
  | i :: is, instr =>
    if bh_is_constant (instr.operand i) then collapse_operands ext sa axis is instr
    else
      let _axis := operand_axis ext instr.opcode sa axis i
      if (instr.operand i).shape (_axis + 1).toNat * (instr.operand i).stride (_axis + 1).toNat
          ≠ (instr.operand i).stride _axis.toNat then none
      else collapse_operands ext sa axis is (set_operand instr i (merge_axes (instr.operand i) _axis))

/-- The instruction branch of the loop body of `collapse_instr_axes`, on the local copy
`instr`; `none` is `return false`.  The `assert`s state what the authors expect and are
compiled out of release builds; they are not modelled as control flow. -/
def collapse_instr (ext : Externals) (instr : bh_instruction) (axis : Int) :
    Option bh_instruction :=
  let sa := ext.sweep_axis instr
  if sa = axis ∨ sa = axis + 1 then none
  else
    match collapse_operands ext sa axis (List.range (ext.bh_noperands instr.opcode)) instr with
    | none => none
    | some instr' => some (ext.remove_axis instr' (axis + 1))

mutual
/-- One iteration of the `for (Block &block: loop._block_list)` loop of
`collapse_instr_axes`: the flag is false where the code returns false, and the block is
the state of `block` at that moment. -/
def collapse_instr_axes_block (ext : Externals) (axis : Int) : Block → Bool × Block
  | .instr i =>
    match collapse_instr ext i axis with
    | none => (false, .instr i)
    | some i' => (true, .instr i')
  | .loop l =>
    let r := collapse_instr_axes_loop ext axis l
    (r.1, .loop r.2)
/-- The nested call of `collapse_instr_axes`, entered after `--block.getLoop().rank`. -/
def collapse_instr_axes_loop (ext : Externals) (axis : Int) : LoopB → Bool × LoopB
  | .mk rank size block_list sweeps =>
    let r := collapse_instr_axes_list ext axis block_list
    if r.1 then (true, .mk (rank - 1) size r.2 (ext.sweeps_of (rank - 1) r.2))
    else (false, .mk (rank - 1) size r.2 sweeps)
/-- The `for` loop of `collapse_instr_axes` over a block list, stopping at the first
`return false`. -/
def collapse_instr_axes_list (ext : Externals) (axis : Int) : List Block → Bool × List Block
  | [] => (true, [])
  | b :: bs =>
    let r := collapse_instr_axes_block ext axis b
    if r.1 then
      let rs := collapse_instr_axes_list ext axis bs
      (rs.1, r.2 :: rs.2)
    else (false, r.2 :: bs)
end

/-- The function `collapse_instr_axes(loop, axis)`: the returned flag and the state of
`loop` on return (`metadata_update` runs only when the `for` loop completes). -/
def collapse_instr_axes (ext : Externals) (loop : LoopB) (axis : Int) : Bool × LoopB :=
  let r := collapse_instr_axes_list ext axis loop.block_list
  if r.1 then (true, .mk loop.rank loop.size r.2 (ext.sweeps_of loop.rank r.2))
  else (false, .mk loop.rank loop.size r.2 loop.sweeps)

/-- The function `collapse_loop_with_child(loop)`: the returned flag and the state of
`loop` on return.  Ranks are axis numbers (below `BH_MAXDIM`), so passing `loop.rank` for
the `int` parameter `axis` loses nothing. -/
def collapse_loop_with_child (ext : Externals) (loop : LoopB) : Bool × LoopB :=
  if loop.sweeps.isEmpty ∧ loop.block_list.length = 1 then
    match loop.block_list with
    | [.loop child] =>
      if child.sweeps.isEmpty then
        collapse_instr_axes ext (.mk loop.rank (loop.size * child.size) child.block_list loop.sweeps)
          loop.rank
      else (false, loop)
    | _ => (false, loop)
  else (false, loop)

/-- One iteration of the second loop of `collapse_redundant_axes`, which pushes onto `ret`
the collapsed copy `b` of `block` or, when the collapse did not succeed, `block` itself. -/
def collapse_push (ext : Externals) (block : Block) : Block :=
  match block with
  | .loop l =>
    let r := collapse_loop_with_child ext l
    if r.1 then .loop r.2 else block
  | .instr _ => block

mutual
/-- One iteration of each of the two loops of `collapse_redundant_axes` on the same block:
the entry of `block_list2` (the copy whose loops got their block lists collapsed by the
recursive call) and the entry of `ret` (computed from the entry of the parameter
`block_list`). -/
def collapse_redundant_axes_block (ext : Externals) : Block → Block × Block
  | .instr i => (.instr i, collapse_push ext (.instr i))
  | .loop l => (.loop (collapse_redundant_axes_loop ext l), collapse_push ext (.loop l))
/-- The assignment `b.getLoop()._block_list = collapse_redundant_axes(b.getLoop()._block_list)`
of the first loop. -/
def collapse_redundant_axes_loop (ext : Externals) : LoopB → LoopB
  | .mk rank size block_list sweeps =>
    .mk rank size (collapse_redundant_axes_lists ext block_list).2 sweeps
/-- The two vectors that `collapse_redundant_axes(block_list)` builds: `block_list2` and
`ret`. -/
def collapse_redundant_axes_lists (ext : Externals) : List Block → List Block × List Block
  | [] => ([], [])
  | b :: bs =>
    let r := collapse_redundant_axes_block ext b
    let rs := collapse_redundant_axes_lists ext bs
    (r.1 :: rs.1, r.2 :: rs.2)
end

/-- The function `collapse_redundant_axes(block_list)`: it returns `ret`. -/
def collapse_redundant_axes (ext : Externals) (block_list : List Block) : List Block :=
  (collapse_redundant_axes_lists ext block_list).2

/-! ## Concrete views -/

/-- Rows 0 and 1, columns 0 and 2, of a 3×3 row-major base: `base[0:2, 0::2]`. -/
def rows01 : bh_view := ⟨some 0, 0, 2, arr [2, 2], arr [3, 2]⟩

/-- Rows 1 and 2, columns 0 and 2, of the same base: `base[1:3, 0::2]`. -/
def rows12 : bh_view := ⟨some 0, 3, 2, arr [2, 2], arr [3, 2]⟩

/-- The even elements `base[0::2]` of a length-10 base. -/
def evens : bh_view := ⟨some 0, 0, 1, arr [5], arr [2]⟩

/-- The odd elements `base[1::2]` of the same base. -/
def odds : bh_view := ⟨some 0, 1, 1, arr [5], arr [2]⟩

/-- Two elements at distance `2^32 + 1`, starting at element 0 of a large base. -/
def wide0 : bh_view := ⟨some 0, 0, 1, arr [2], arr [2 ^ 32 + 1]⟩

/-- The same pattern, starting at element 1. -/
def wide1 : bh_view := ⟨some 0, 1, 1, arr [2], arr [2 ^ 32 + 1]⟩

/-- A view of shape `[1,4,1,3]` with the given strides. -/
def view1413 (s0 s1 s2 s3 : Int) : bh_view := ⟨some 0, 0, 4, arr [1, 4, 1, 3], arr [s0, s1, s2, s3]⟩

/-- The first row, first two columns, of a row-major base with 4 columns: `base[0:1, 0:2]`. -/
def first_row : bh_view := ⟨some 0, 0, 2, arr [1, 2], arr [4, 1]⟩

/-- A contiguous 2×3 view. -/
def contiguous23 : bh_view := ⟨some 0, 0, 2, arr [2, 3], arr [3, 1]⟩

/-- A constant operand (no base). -/
def const_view : bh_view := ⟨none, 0, 0, arr [], arr []⟩

/-- An instruction with output `out` and one constant input (opcode 0, two operands). -/
def write_to (out : bh_view) : bh_instruction :=
  ⟨0, fun k => if k = 0 then out else const_view, 0⟩

/-! ## What the collapse does to a block list, and when it goes through -/

/-- The consistency test of `collapse_instr_axes` on operand `i` of `instr`: the operand is
a constant, or `shape[a+1] * stride[a+1] == stride[a]` at the axis `a` the code tests. -/
def consistent_operand (ext : Externals) (axis : Int) (instr : bh_instruction) (i : Nat) : Bool :=
  bh_is_constant (instr.operand i) ||
    decide ((instr.operand i).shape
          (operand_axis ext instr.opcode (ext.sweep_axis instr) axis i + 1).toNat *
        (instr.operand i).stride
          (operand_axis ext instr.opcode (ext.sweep_axis instr) axis i + 1).toNat
      = (instr.operand i).stride
          (operand_axis ext instr.opcode (ext.sweep_axis instr) axis i).toNat)

/-- The instruction sweeps neither `axis` nor `axis + 1`, and each of its operands passes
the consistency test. -/
def consistent_instr (ext : Externals) (axis : Int) (instr : bh_instruction) : Bool :=
  decide (ext.sweep_axis instr ≠ axis ∧ ext.sweep_axis instr ≠ axis + 1) &&
    (List.range (ext.bh_noperands instr.opcode)).all (consistent_operand ext axis instr)

mutual
/-- Every instruction under the block is consistent with merging `axis` and `axis + 1`. -/
def consistent_block (ext : Externals) (axis : Int) : Block → Bool
  | .instr i => consistent_instr ext axis i
  | .loop l => consistent_loop ext axis l
/-- Every instruction under the loop is consistent with the merge. -/
def consistent_loop (ext : Externals) (axis : Int) : LoopB → Bool
  | .mk _ _ block_list _ => consistent_list ext axis block_list
/-- Every instruction under the block list is consistent with the merge. -/
def consistent_list (ext : Externals) (axis : Int) : List Block → Bool
  | [] => true
  | b :: bs => consistent_block ext axis b && consistent_list ext axis bs
end

/-- The instruction after the collapse step, in the words of the specification: in every
non-constant operand view `shape[a]` is multiplied by `shape[a+1]` and `stride[a]` is
overwritten by `stride[a+1]`, then axis `axis + 1` is removed (`remove_axis`). -/
def merged_instr (ext : Externals) (axis : Int) (instr : bh_instruction) : bh_instruction :=
  ext.remove_axis
    { instr with
      operand := fun k =>
        if k < ext.bh_noperands instr.opcode ∧ bh_is_constant (instr.operand k) = false then
          merge_axes (instr.operand k)
            (operand_axis ext instr.opcode (ext.sweep_axis instr) axis k)
        else instr.operand k }
    (axis + 1)

mutual
/-- The block after the collapse step: every instruction merged, every nested loop one
rank lower with its metadata updated. -/
def merged_block (ext : Externals) (axis : Int) : Block → Block
  | .instr i => .instr (merged_instr ext axis i)
  | .loop l => .loop (merged_loop ext axis l)
/-- The nested loop after the collapse step. -/
def merged_loop (ext : Externals) (axis : Int) : LoopB → LoopB
  | .mk rank size block_list _ =>
    .mk (rank - 1) size (merged_list ext axis block_list)
      (ext.sweeps_of (rank - 1) (merged_list ext axis block_list))
/-- The block list after the collapse step. -/
def merged_list (ext : Externals) (axis : Int) : List Block → List Block
  | [] => []
  | b :: bs => merged_block ext axis b :: merged_list ext axis bs
end

/-- Modelled from the spec: `bh_view::remove_axis` (not among the sources), "axis `rank+1`
removed": the entries after the axis move one place down and `ndim` drops by one. -/
def remove_axis_view (view : bh_view) (axis : Nat) : bh_view :=
  { view with
    ndim := view.ndim - 1
    shape := fun k => if k < axis then view.shape k else view.shape (k + 1)
    stride := fun k => if k < axis then view.stride k else view.stride (k + 1) }

/-- Modelled from the spec: an instance of the external functions for kernels of
two-operand elementwise instructions.  No opcode is a reduction, `sweep_axis` is
`BH_MAXDIM = 16` (no sweep), `remove_axis` removes the axis from every non-constant operand
view, and no loop has sweeps. -/
def elementwise : Externals :=
  { bh_noperands := fun _ => 2
    bh_opcode_is_reduction := fun _ => false
    sweep_axis := fun _ => 16
    remove_axis := fun instr axis =>
      { instr with
        operand := fun k =>
          if bh_is_constant (instr.operand k) then instr.operand k
          else remove_axis_view (instr.operand k) axis.toNat }
    sweeps_of := fun _ _ => [] }

/-- The instruction `out = in` between two contiguous 2×3 views of different bases. -/
def copy23 : bh_instruction :=
  ⟨0, fun k => if k = 0 then ⟨some 1, 0, 2, arr [2, 3], arr [3, 1]⟩ else contiguous23, 0⟩

/-- The inner loop (rank 1, size 3) around `copy23`. -/
def inner23 : LoopB := .mk 1 3 [.instr copy23] []

/-- The outer loop (rank 0, size 2) whose only child is `inner23`. -/
def outer23 : LoopB := .mk 0 2 [.loop inner23] []

/-! ## Instructions under a block, more concrete trees -/

mutual
/-- Modelled from the spec: `Block::getAllInstr` (`jitk/block.cpp` is not among the
sources): the instruction leaves under the block, at any depth, in block-list order. -/
def Block.getAllInstr : Block → List bh_instruction
  | .instr i => [i]
  | .loop l => LoopB.getAllInstr l
/-- Modelled from the spec: `LoopB::getAllInstr`, the instruction leaves under the loop. -/
def LoopB.getAllInstr : LoopB → List bh_instruction
  | .mk _ _ block_list _ => getAllInstr_list block_list
/-- The instruction leaves under a block list. -/
def getAllInstr_list : List Block → List bh_instruction
  | [] => []
  | b :: bs => Block.getAllInstr b ++ getAllInstr_list bs
end

/-- The instruction `out = in` whose output is a 2×3 view with padded rows (row stride 4)
and whose input is contiguous. -/
def copy23_padded : bh_instruction :=
  ⟨0, fun k => if k = 0 then ⟨some 1, 0, 2, arr [2, 3], arr [4, 1]⟩ else contiguous23, 0⟩

/-- A loop of rank 0 and size 2 whose only child, of rank 1 and size 3, holds the
consistent `copy23` followed by `copy23_padded`. -/
def outer23_padded : LoopB := .mk 0 2 [.loop (.mk 1 3 [.instr copy23, .instr copy23_padded] [])] []

/-- The instruction `out = in` between two contiguous 2×3×4 views of different bases. -/
def copy234 : bh_instruction :=
  ⟨0, fun k => if k = 0 then ⟨some 1, 0, 3, arr [2, 3, 4], arr [12, 4, 1]⟩
    else ⟨some 0, 0, 3, arr [2, 3, 4], arr [12, 4, 1]⟩, 0⟩

/-- A loop of rank 1 and size 3 whose only child is the loop of rank 2 and size 4 around
`copy234`: it can be collapsed with that child. -/
def middle234 : LoopB := .mk 1 3 [.loop (.mk 2 4 [.instr copy234] [])] []

/-- A loop of rank 0 and size 2 with two children: `middle234` and the loop `inner23`.
It has more than one child, so it cannot itself be collapsed. -/
def outer_two : LoopB := .mk 0 2 [.loop middle234, .loop inner23] []

/-! ## `split_for_threading` (`jitk/transformer.cpp`, lines 95-152) -/

/-- The conversion `static_cast<uint64_t>(x)` of a 64-bit signed value. -/
def to_uint64 (x : Int) : Nat :=
  (x % 2 ^ 64).toNat

/-- The difference `a - b` of two `uint64_t` values, which wraps around below zero. -/
def sub_uint64 (a b : Nat) : Nat :=
  (a + 2 ^ 64 - b) % 2 ^ 64

/-- The test `it->isInstr() or it->getLoop()._sweeps.size() > 0`: the block cannot be made
threadable. -/
def Block.unthreadable : Block → Bool
  | .instr _ => true
  | .loop l => decide (l.sweeps.length > 0)

/-- The block list of a block that is a loop (no blocks for an instruction). -/
def Block.children : Block → List Block
  | .instr _ => []
  | .loop l => l.block_list

/-- The local `max_nelem` of `split_for_threading` after its loop over `loop.getAllInstr()`. -/
def max_nelem (ext : Externals) (loop : LoopB) : Nat :=
  (LoopB.getAllInstr loop).foldl
    (fun mx instr =>
      if ext.bh_noperands instr.opcode > 0 then
        (if to_uint64 (bh_nelements (instr.operand 0)) > mx then
          to_uint64 (bh_nelements (instr.operand 0))
        else mx)
      else mx)
    0

/-- A `newloop` of `split_for_threading` once its block list is filled and
`metadata_update` has run: rank and size of the loop being split. -/
def split_newloop (ext : Externals) (rank size : Int) (block_list : List Block) : Block :=
  .loop (.mk rank size block_list (ext.sweeps_of rank block_list))

/-- The `if (not newloop._block_list.empty())` that pushes the shared block. -/
def split_flush (ext : Externals) (rank size : Int) (newloop : List Block) : List Block :=
  if newloop.isEmpty then [] else [split_newloop ext rank size newloop]

/-- The `for (auto it = ...)` loop of `split_for_threading` from the iterator position on:
the first list is what is left of `loop._block_list`, the second the block list of the
`newloop` that the inner `while` is filling.  An unthreadable block goes into `newloop`;
a threadable one ends the `while`, the shared block is pushed if it is not empty, the
threadable block is pushed in a block of its own, and the next iteration starts with an
empty `newloop`; at the end of the list the shared block is pushed and the loop breaks. -/
def split_loop (ext : Externals) (rank size : Int) : List Block → List Block → List Block
  | [], newloop => split_flush ext rank size newloop
  | b :: rest, newloop =>
    if b.unthreadable then split_loop ext rank size rest (newloop ++ [b])
    else
      split_flush ext rank size newloop ++
        (split_newloop ext rank size [b] :: split_loop ext rank size rest [])

/-- The condition under which `split_for_threading` splits an unsweeped loop;
`threaded_size loop` is `find_threaded_blocks(loop).second`, whose code is not among the
sources (a parameter). -/
def split_wanted (ext : Externals) (threaded_size : LoopB → Nat)
    (min_threading cur_threading : Nat) (loop : LoopB) : Bool :=
  decide (loop.block_list.length > 1) && decide (max_nelem ext loop > min_threading) &&
    decide (threaded_size loop < sub_uint64 min_threading cur_threading)

/-- The function `split_for_threading(block_list, min_threading, cur_threading)`. -/
def split_for_threading (ext : Externals) (threaded_size : LoopB → Nat)
    (min_threading cur_threading : Nat) : List Block → List Block
  | [] => []
  | block :: rest =>
    (match block with
      | .instr _ => [block]
      | .loop loop =>
        if loop.sweeps.length > 0 then [block]
        else if split_wanted ext threaded_size min_threading cur_threading loop then
          split_loop ext loop.rank loop.size loop.block_list []
        else [block]) ++
      split_for_threading ext threaded_size min_threading cur_threading rest

/-- Modelled from the spec: `find_threaded_blocks(loop).second` (not among the sources),
the "existing parallel dimension" of a loop, taken as the size of the loop. -/
def loop_size_threaded (loop : LoopB) : Nat :=
  to_uint64 loop.size

/-! ## `push_reductions_inwards` (`jitk/transformer.cpp`, lines 28-93) -/

/-- The functions that `push_reductions_inwards` calls but whose code is not among the
sources: `operator==` of `bh_instruction`, `bh_instruction::transpose` and
`create_nested_block`; the pass is embedded over arbitrary implementations of them. -/
structure SwapExternals where
  instr_eq : bh_instruction → bh_instruction → Bool
  transpose : bh_instruction → Int → Int → bh_instruction
  create_nested_block : List bh_instruction → Int → Int → Block

/-- The function `swap_axis(instr_list, axis1, axis2)`. -/
def swap_axis (sx : SwapExternals) (instr_list : List bh_instruction) (axis1 axis2 : Int) :
    List bh_instruction :=
  instr_list.map (fun instr => sx.transpose instr axis1 axis2)

/-- One iteration of the loop of `swap_blocks(parent, child)`, on the block `b` at position
`j` of `parent._block_list`: the block pushed onto `ret`.  The pointer `child` points into
that block list and is represented by the position of the block it points to. -/
def swap_blocks_step (ext : Externals) (sx : SwapExternals) (parent : LoopB) (child : Nat)
    (j : Nat) (b : Block) : Block :=
  match b with
  | .instr _ =>
    Block.loop (.mk parent.rank parent.size [b] (ext.sweeps_of parent.rank [b]))
  | .loop c =>
    if j ≠ child then
      Block.loop (.mk parent.rank parent.size [b] (ext.sweeps_of parent.rank [b]))
    else
      Block.loop (.mk parent.rank c.size
        [sx.create_nested_block (swap_axis sx (LoopB.getAllInstr c) parent.rank c.rank)
          c.rank parent.size]
        (ext.sweeps_of parent.rank
          [sx.create_nested_block (swap_axis sx (LoopB.getAllInstr c) parent.rank c.rank)
            c.rank parent.size]))

/-- The loop of `swap_blocks(parent, child)` from position `j` of `parent._block_list` on. -/
def swap_blocks_loop (ext : Externals) (sx : SwapExternals) (parent : LoopB) (child : Nat) :
    Nat → List Block → List Block
  | _, [] => []
  | j, b :: rest =>
    swap_blocks_step ext sx parent child j b :: swap_blocks_loop ext sx parent child (j + 1) rest

/-- The function `swap_blocks(parent, child)`. -/
def swap_blocks (ext : Externals) (sx : SwapExternals) (parent : LoopB) (child : Nat) :
    List Block :=
  swap_blocks_loop ext sx parent child 0 parent.block_list

/-- The two inner loops of `find_swappable_sub_block` on one block `b` of the parent: `b`
is a loop and one of the blocks of its block list is an instruction equal to `sweep`. -/
def holds_sweep (sx : SwapExternals) (sweep : bh_instruction) : Block → Bool
  | .instr _ => false
  | .loop l =>
    l.block_list.any (fun instr_block =>
      match instr_block with
      | .instr i => sx.instr_eq i sweep
      | .loop _ => false)

/-- The loop `for (const Block &b: parent._block_list)` of `find_swappable_sub_block` for
one sweep, from position `j` on: the position of the first block that holds the sweep. -/
def first_holding (sx : SwapExternals) (sweep : bh_instruction) : Nat → List Block → Option Nat
  | _, [] => none
  | j, b :: rest =>
    if holds_sweep sx sweep b then some j else first_holding sx sweep (j + 1) rest

/-- The outer loop of `find_swappable_sub_block` over the sweeps (in the iteration order
of the set `_sweeps`). -/
def find_swappable_loop (sx : SwapExternals) (block_list : List Block) :
    List bh_instruction → Option Nat
  | [] => none
  | sweep :: rest =>
    match first_holding sx sweep 0 block_list with
    | some j => some j
    | none => find_swappable_loop sx block_list rest

/-- The function `find_swappable_sub_block(parent)`; `none` is `NULL`. -/
def find_swappable_sub_block (sx : SwapExternals) (parent : LoopB) : Option Nat :=
  find_swappable_loop sx parent.block_list parent.sweeps

/-- One iteration of the second loop of `push_reductions_inwards` on the block `b` of
`block_list2`: the blocks it appends to `ret`. -/
def push_swap (ext : Externals) (sx : SwapExternals) (b : Block) : List Block :=
  match b with
  | .instr _ => [b]
  | .loop l =>
    match find_swappable_sub_block sx l with
    | some child => swap_blocks ext sx l child
    | none => [b]

mutual
/-- One iteration of the first loop of `push_reductions_inwards`: the entry of
`block_list2`, a copy of the block in which a loop got its block list replaced by the
result of the recursive call. -/
def push_copy_block (ext : Externals) (sx : SwapExternals) : Block → Block
  | .instr i => .instr i
  | .loop l => .loop (push_copy_loop ext sx l)
/-- The assignment `b.getLoop()._block_list = push_reductions_inwards(b.getLoop()._block_list)`. -/
def push_copy_loop (ext : Externals) (sx : SwapExternals) : LoopB → LoopB
  | .mk rank size block_list sweeps =>
    .mk rank size (push_reductions_inwards ext sx block_list) sweeps
/-- The function `push_reductions_inwards(block_list)`: for every block, what the second
loop appends to `ret` for the entry of `block_list2` that the first loop made of it. -/
def push_reductions_inwards (ext : Externals) (sx : SwapExternals) : List Block → List Block
  | [] => []
  | b :: rest =>
    push_swap ext sx (push_copy_block ext sx b) ++ push_reductions_inwards ext sx rest
end

/-- A child block directly contains, as an instruction leaf, an instruction equal to the
sweep `s`: it is a loop, and one of the blocks of its block list is such an instruction. -/
def directly_contains (sx : SwapExternals) (c : Block) (s : bh_instruction) : Prop :=
  ∃ l, c = .loop l ∧ ∃ i, Block.instr i ∈ l.block_list ∧ sx.instr_eq i s = true

mutual
/-- No loop of the block, at any depth, has a child to be swapped with. -/
def swap_free_block (sx : SwapExternals) : Block → Bool
  | .instr _ => true
  | .loop l => swap_free_loop sx l
/-- Neither the loop nor any loop below it has a child to be swapped with. -/
def swap_free_loop (sx : SwapExternals) : LoopB → Bool
  | .mk _ _ block_list sweeps =>
    (find_swappable_loop sx block_list sweeps).isNone && swap_free_list sx block_list
/-- No loop of the block list, at any depth, has a child to be swapped with. -/
def swap_free_list (sx : SwapExternals) : List Block → Bool
  | [] => true
  | b :: rest => swap_free_block sx b && swap_free_list sx rest
end

/-! ## The CPU engine (`ve/cpu/engine.cpp`, lines 87-289) -/

/-- The type `bh_error` (`typedef int64_t bh_error`). -/
abbrev bh_error := Int

/-- The error code `BH_SUCCESS` of `bh_error.h`. -/
def BH_SUCCESS : bh_error := 0

/-- The error code `BH_ERROR`. -/
def BH_ERROR : bh_error := 1

/-- The error code `BH_TYPE_NOT_SUPPORTED`. -/
def BH_TYPE_NOT_SUPPORTED : bh_error := 2

/-- The error code `BH_OUT_OF_MEMORY`. -/
def BH_OUT_OF_MEMORY : bh_error := 3

/-- The error code `BH_INST_NOT_SUPPORTED`. -/
def BH_INST_NOT_SUPPORTED : bh_error := 4

/-- The error code `BH_EXTMETHOD_NOT_SUPPORTED`. -/
def BH_EXTMETHOD_NOT_SUPPORTED : bh_error := 5

/-- Modelled from the spec: the layout classification `LAYOUT` of an operand (`tac.h` is
not among the sources), with the eight classes the specification lists. -/
inductive LAYOUT where
  | SCALAR_CONST
  | SCALAR_TEMP
  | SCALAR
  | CONTRACTABLE
  | CONTIGUOUS
  | CONSECUTIVE
  | STRIDED
  | SPARSE
deriving DecidableEq, Repr

/-- Modelled from the spec: the values of the `LAYOUT` enumerators, which the engine
combines with `|` and tests with `&`: one bit each, in the order of the specification. -/
def LAYOUT.bits : LAYOUT → Nat
  | .SCALAR_CONST => 1
  | .SCALAR_TEMP => 2
  | .SCALAR => 4
  | .CONTRACTABLE => 8
  | .CONTIGUOUS => 16
  | .CONSECUTIVE => 32
  | .STRIDED => 64
  | .SPARSE => 128

/-- The symbol-table entry `operand_t`, with the members the engine reads: `layout` and
`base` (a base is identified by a number). -/
structure operand_t where
  layout : LAYOUT
  base : Nat
deriving DecidableEq, Repr

/-- The three-address code `tac_t`, with the members the engine reads: the operation mask
`op`, the operator `oper`, the symbol `out` of the output operand and, for an extension,
the opcode of the instruction `ext` points to. -/
structure tac_t where
  op : Nat
  oper : Nat
  out : Nat
  ext_opcode : Nat
deriving DecidableEq, Repr

/-- The kernel `bh_ir_kernel`: its instruction indexes and its list of temporary bases. -/
structure bh_ir_kernel where
  instr_indexes : List Nat
  temp_list : List Nat
deriving DecidableEq, Repr

/-- The batch `bh_ir`: the number of instructions and the kernel list. -/
structure bh_ir where
  ninstr : Nat
  kernel_list : List bh_ir_kernel
deriving DecidableEq, Repr

/-- The symbol table: the entries by symbol index. -/
abbrev Symbols := Nat → operand_t

/-! ## `Walker::generate_source` (`ve/cpu/codegen/walker.cpp`, lines 563-752) -/

/-- The operation masks and layout masks of `tac.h` (not among the sources) that
`generate_source` tests the kernel with; the function is embedded over arbitrary values
of them. -/
structure TacMasks where
  ARRAY_OPS : Nat
  EXTENSION : Nat
  ACCUMULATION : Nat
  SCAN : Nat
  REDUCE_PARTIAL : Nat
  REDUCE_COMPLETE : Nat
  REDUCTION : Nat
  EWISE : Nat
  SCALAR : Nat
  COLLAPSIBLE : Nat

/-- What `generate_source` reads of its kernel: the operation mask `omask()`, the layout
and the number of dimensions of the iteration space, and the tacs. -/
structure WalkerKernel where
  omask : Nat
  layout : Nat
  ndim : Nat
  tacs : List tac_t

/-- The text that `generate_source` puts together, by functions whose code is not among
the sources or only produces text: the template filler `plaid_.fill`, the three subjects
used by all kernels, and the groups of subjects of the accumulation, of the templates
`walker.collapsed`, `walker.inner`, `walker.axis`, `scan.1d` and of the reduction
specifics. -/
structure WalkerText where
  fill : String → List (String × String) → String
  declare_operands : WalkerKernel → String
  operations : WalkerKernel → String
  write_expanded_scalars : WalkerKernel → String
  accumulation : WalkerKernel → tac_t → List (String × String)
  collapsed : WalkerKernel → List (String × String)
  inner : WalkerKernel → List (String × String)
  axis : WalkerKernel → tac_t → List (String × String)
  scan_1d : WalkerKernel → List (String × String)
  accu_opd : WalkerKernel → tac_t → List (String × String)
  accu_writeback : WalkerKernel → tac_t → List (String × String)

/-- The ways `generate_source` can fail to return a text: a `throw runtime_error(what)`,
and the use of the pointers `tac`, `out`, `in2` while they are `NULL` (undefined
behaviour). -/
inductive WalkerFailure where
  | runtime_error (what : String)
  | null_pointer
deriving DecidableEq, Repr

/-- The loop of `generate_source` that looks for the accumulating tac: the last tac whose
operation is in `ACCUMULATION`, `none` (`NULL`) when there is none. -/
def accumulating_tac (m : TacMasks) : List tac_t → Option tac_t → Option tac_t
  | [], tac => tac
  | t :: rest, tac =>
    accumulating_tac m rest (if (t.op &&& m.ACCUMULATION) > 0 then some t else tac)

/-- The function `Walker::generate_source()`. -/
def generate_source (m : TacMasks) (w : WalkerText) (kernel : WalkerKernel) :
    Except WalkerFailure String :=
  -- There must be at lest one array operation
  if (kernel.omask &&& m.ARRAY_OPS) = 0 then .error (.runtime_error "No array operations!")
  -- Extensions are not allowed.
  else if (kernel.omask &&& m.EXTENSION) ≠ 0 then .error (.runtime_error "EXTENSION in kernel")
  else
    -- These are used by all kernels.
    let rank := kernel.ndim
    let subjects : List (String × String) :=
      [("WALKER_DECLARATION", w.declare_operands kernel),
       ("OPERATIONS", w.operations kernel),
       ("WRITE_EXPANDED_SCALARS", w.write_expanded_scalars kernel)]
    -- Kernel contains nothing but operations on SCALARs
    if (kernel.layout &&& m.SCALAR) > 0 then
      if (kernel.omask &&& m.ACCUMULATION) > 0 then
        .error (.runtime_error "Accumulation in SCALAR kernel.")
      else .ok (w.fill "walker.scalar" subjects)
    else
      let tac : Option tac_t :=
        if (kernel.omask &&& m.ACCUMULATION) > 0 then accumulating_tac m kernel.tacs none
        else none
      let subjects :=
        match tac with
        | some t => subjects ++ w.accumulation kernel t
        | none => subjects
      if (kernel.layout &&& m.COLLAPSIBLE) > 0 ∧ (kernel.omask &&& m.SCAN) = 0 ∧
          ¬ (rank > 1 ∧ (kernel.omask &&& m.REDUCE_PARTIAL) > 0) then
        -- MAP | ZIP | GENERATE | REDUCE_COMPLETE on COLLAPSIBLE LAYOUT of any RANK
        if (kernel.omask &&& m.REDUCTION) > 0 then
          match tac with
          | some t =>
            .ok (w.fill "walker.collapsed" (subjects ++ w.collapsed kernel ++ w.accu_opd kernel t))
          | none => .error .null_pointer
        else .ok (w.fill "walker.collapsed" (subjects ++ w.collapsed kernel))
      else if (kernel.omask &&& (m.EWISE ||| m.REDUCTION)) > 0 then
        if (kernel.omask &&& (m.EWISE ||| m.REDUCE_COMPLETE)) > 0 ∧
            (kernel.omask &&& m.REDUCE_PARTIAL) = 0 then
          -- MAP | ZIP | REDUCE_COMPLETE and NOT REDUCE_PARTIAL
          if (kernel.omask &&& m.REDUCE_COMPLETE) > 0 then
            match tac with
            | some t =>
              .ok (w.fill "walker.inner" (subjects ++ w.inner kernel ++ w.accu_opd kernel t))
            | none => .error .null_pointer
          else .ok (w.fill "walker.inner" (subjects ++ w.inner kernel))
        else if (kernel.omask &&& (m.EWISE ||| m.REDUCE_PARTIAL)) > 0 ∧
            (kernel.omask &&& m.REDUCE_COMPLETE) = 0 then
          -- MAP | ZIP | REDUCE_PARTIAL and NOT REDUCE_COMPLETE
          match tac with
          | some t =>
            if (kernel.omask &&& m.REDUCE_PARTIAL) > 0 then
              .ok (w.fill "walker.axis" (subjects ++ w.axis kernel t ++ w.accu_writeback kernel t))
            else .ok (w.fill "walker.axis" (subjects ++ w.axis kernel t))
          | none => .error .null_pointer
        else .error (.runtime_error "Unexpected omask.")
      else
        -- SCAN on STRIDED LAYOUT of any RANK
        match rank with
        | 1 => .ok (w.fill "scan.1d" (subjects ++ w.scan_1d kernel))
        | _ => .ok (w.fill "scan.nd" subjects)

/-- Modelled from the spec: values for the masks of `tac.h`, one bit per class of
operation: elementwise 1, extension 2, complete reduction 4, partial reduction 8, scan 16;
the layout bits are those of `LAYOUT.bits`, with `COLLAPSIBLE` for the contiguous
layouts. -/
def demo_masks : TacMasks :=
  { ARRAY_OPS := 29
    EXTENSION := 2
    ACCUMULATION := 28
    SCAN := 16
    REDUCE_PARTIAL := 8
    REDUCE_COMPLETE := 4
    REDUCTION := 12
    EWISE := 1
    SCALAR := 7
    COLLAPSIBLE := 24 }

/-- A text generator that fills a template with the names of its subjects. -/
def demo_text : WalkerText :=
  { fill := fun plaid subjects => plaid ++ ":" ++ String.intercalate "," (subjects.map Prod.fst)
    declare_operands := fun _ => ""
    operations := fun _ => ""
    write_expanded_scalars := fun _ => ""
    accumulation := fun _ _ => [("OPD_OUT", ""), ("OPD_IN1", ""), ("OPD_IN2", "")]
    collapsed := fun _ => [("WALKER_INNER_DIM", "")]
    inner := fun _ => [("WALKER_INNER_DIM", "")]
    axis := fun _ _ => [("WALKER_AXIS_DIM", "")]
    scan_1d := fun _ => [("WALKER_INNER_DIM", "")]
    accu_opd := fun _ _ => [("ACCU_OPD_INIT", ""), ("ACCU_OPD_SYNC", "")]
    accu_writeback := fun _ _ => [("ACCU_LOCAL_WRITEBACK", "")] }

/-! ## The engine and `Engine::execute_block` -/

/-- The engine: its configuration members, its extension map, the constants of `tac.h`
and the operations of the classes `Block`, `SymbolTable`, `Store`, `Compiler` and of the
victim cache, whose code is not among the sources.  The state they act on is kept in
separate parts: the composed block `β`, the symbol table, the object storage `σ` and
the memory of the bases `μ`.

* `compose` is `block.clear(); block.compose(*krnl); block.update_iterspace()`,
  `compose_instr` the same with `block.compose(idx, idx)`;
* `omask_extension` is `(block.omask() & EXTENSION) > 0` and `ext_opcode` the opcode of
  the instruction `block.tac(0).ext`;
* `generate_source` is `codegen::Kernel(plaid_, block).generate_source()`: the source
  text, or the failure of `Walker::generate_source` (embedded above), which
  `Kernel::generate_source` calls and whose exceptions nothing in the engine catches;
* `compile` is the call of the compiler on the source text (through a source file when
  `jit_dumpsrc` is set); its flag is `compile_res`;
* the flags of `symbolize` and `load` are their return values;
* `run` is the call `storage_.funcs[block.symbol()](block.operands(), &iterspace)`. -/
structure CpuEngine (β σ μ : Type) where
  jit_enabled : Bool
  jit_fusion : Bool
  jit_contraction : Bool
  extensions : Nat → Option (μ → bh_error × μ)
  ARRAY_OPS : Nat
  FREE : Nat
  instrs_to_tacs : bh_ir → Symbols
  compose : bh_ir → Symbols → bh_ir_kernel → β
  compose_instr : bh_ir → Symbols → Nat → β
  omask_extension : β → Bool
  ext_opcode : β → Nat
  narray_tacs : β → Nat
  tacs : β → List tac_t
  noperands : β → Nat
  operand_base : β → Symbols → Nat → Nat
  local_to_global : β → Nat → Nat
  turn_contractable : operand_t → operand_t
  update_iterspace : β → Symbols → β
  symbolize : β → Symbols → Bool × β
  symbol_ready : σ → β → Bool
  generate_source : β → Symbols → Except WalkerFailure String
  compile : σ → β → String → Bool × σ
  add_symbol : σ → β → σ
  load : σ → β → Bool × σ
  malloc : μ → Nat → bh_error × μ
  run : σ → β → Symbols → μ → μ
  free : μ → Nat → bh_error × μ

/-- What a call of `execute_block` does to the symbol table and to the memory of the
bases, in the order it does it. -/
inductive Effect where
  | turn_contractable (symbol : Nat)
  | malloc (base : Nat) (res : bh_error)
  | run
  | free (base : Nat) (res : bh_error)
deriving DecidableEq, Repr

/-- The state when `execute_block` is left: the returned error code, the block, the
symbol table, the storage, the memory, the effects of the call, and in `thrown` the
exception that leaves the function, if one does.  When an exception leaves the function
nothing is returned; `res` is then `BH_ERROR`, so that `res = BH_SUCCESS` holds exactly
for the calls that return `BH_SUCCESS`. -/
structure BlockRun (β σ μ : Type) where
  res : bh_error
  block : β
  symbols : Symbols
  storage : σ
  heap : μ
  effects : List Effect
  thrown : Option WalkerFailure

/-- The assignment to one entry of the symbol table. -/
def set_symbol (symbols : Symbols) (idx : Nat) (operand : operand_t) : Symbols :=
  fun k => if k = idx then operand else symbols k

/-- The inner loop of the array contraction for the temporary base `tmp`, over the
operand indices `is` of the block. -/
def contract_operands {β σ μ : Type} (e : CpuEngine β σ μ) (block : β) (tmp : Nat) :
    List Nat → Symbols → Symbols × List Effect
  | [], symbols => (symbols, [])
  | operand_idx :: is, symbols =>
    if e.operand_base block symbols operand_idx = tmp then
      let r := contract_operands e block tmp is
        (set_symbol symbols (e.local_to_global block operand_idx)
          (e.turn_contractable (symbols (e.local_to_global block operand_idx))))
      (r.1, Effect.turn_contractable (e.local_to_global block operand_idx) :: r.2)
    else contract_operands e block tmp is symbols

/-- The outer loop of the array contraction over `krnl.temp_list()`. -/
def contract_temps {β σ μ : Type} (e : CpuEngine β σ μ) (block : β) :
    List Nat → Symbols → Symbols × List Effect
  | [], symbols => (symbols, [])
  | tmp :: temps, symbols =>
    let r := contract_operands e block tmp (List.range (e.noperands block)) symbols
    let rs := contract_temps e block temps r.1
    (rs.1, r.2 ++ rs.2)

/-- The test of the allocation loop on one tac: `(tac.op & ARRAY_OPS) > 0` and
`(operand.layout & (SCALAR_CONST|SCALAR_TEMP|CONTRACTABLE)) == 0`, for the operand
`symbol_table[tac.out]`. -/
def allocates {β σ μ : Type} (e : CpuEngine β σ μ) (symbols : Symbols) (tac : tac_t) : Bool :=
  decide ((tac.op &&& e.ARRAY_OPS) > 0) &&
    decide ((symbols tac.out).layout.bits &&&
      (LAYOUT.SCALAR_CONST.bits ||| LAYOUT.SCALAR_TEMP.bits ||| LAYOUT.CONTRACTABLE.bits) = 0)

/-- The loop "Allocate memory for output operand(s)" over the tacs of the block: the
returned code (the first one that is not `BH_SUCCESS`, if any), the memory and the
allocator calls made. -/
def allocate_outputs {β σ μ : Type} (e : CpuEngine β σ μ) (symbols : Symbols) :
    List tac_t → μ → bh_error × μ × List Effect
  | [], heap => (BH_SUCCESS, heap, [])
  | tac :: rest, heap =>
    if allocates e symbols tac then
      let r := e.malloc heap (symbols tac.out).base
      if r.1 ≠ BH_SUCCESS then (r.1, r.2, [Effect.malloc (symbols tac.out).base r.1])
      else
        let rs := allocate_outputs e symbols rest r.2
        (rs.1, rs.2.1, Effect.malloc (symbols tac.out).base r.1 :: rs.2.2)
    else allocate_outputs e symbols rest heap

/-- The loop "De-Allocate memory for operand(s)" over the tacs of the block. -/
def free_outputs {β σ μ : Type} (e : CpuEngine β σ μ) (symbols : Symbols) :
    List tac_t → μ → bh_error × μ × List Effect
  | [], heap => (BH_SUCCESS, heap, [])
  | tac :: rest, heap =>
    if e.FREE = tac.oper then
      let r := e.free heap (symbols tac.out).base
      if r.1 ≠ BH_SUCCESS then (r.1, r.2, [Effect.free (symbols tac.out).base r.1])
      else
        let rs := free_outputs e symbols rest r.2
        (rs.1, rs.2.1, Effect.free (symbols tac.out).base r.1 :: rs.2.2)
    else free_outputs e symbols rest heap

/-- The last part of `Engine::execute_block`, from "Allocate memory for output
operand(s)" on: the allocation loop, the call of the compiled function and the
de-allocation loop.  `done` are the effects of the earlier parts. -/
def execute_block_finish {β σ μ : Type} (e : CpuEngine β σ μ) (block : β) (symbols : Symbols)
    (storage : σ) (heap : μ) (done : List Effect) : BlockRun β σ μ :=
  -- Allocate memory for output operand(s)
  let allocated := allocate_outputs e symbols (e.tacs block) heap
  if allocated.1 ≠ BH_SUCCESS then
    ⟨allocated.1, block, symbols, storage, allocated.2.1, done ++ allocated.2.2, none⟩
  else
    -- Execute block handling array operations.
    let ran :=
      if e.narray_tacs block > 0 then (e.run storage block symbols allocated.2.1, [Effect.run])
      else (allocated.2.1, [])
    -- De-Allocate memory for operand(s)
    let freed := free_outputs e symbols (e.tacs block) ran.1
    if freed.1 ≠ BH_SUCCESS then
      ⟨freed.1, block, symbols, storage, freed.2.1,
        done ++ allocated.2.2 ++ ran.2 ++ freed.2.2, none⟩
    else
      ⟨BH_SUCCESS, block, symbols, storage, freed.2.1,
        done ++ allocated.2.2 ++ ran.2 ++ freed.2.2, none⟩

/-- The part "Load the compiled code" of `Engine::execute_block`, followed by the last
part. -/
def execute_block_load {β σ μ : Type} (e : CpuEngine β σ μ) (block : β) (symbols : Symbols)
    (storage : σ) (heap : μ) (done : List Effect) : BlockRun β σ μ :=
  let loaded :=
    if decide (e.narray_tacs block > 0) && !e.symbol_ready storage block then
      e.load storage block
    else (true, storage)
  if !loaded.1 then ⟨BH_ERROR, block, symbols, loaded.2, heap, done, none⟩
  else execute_block_finish e block symbols loaded.2 heap done

/-- The function `Engine::execute_block(symbol_table, program, block, krnl)`.  In the part
"JIT-compile the block if enabled" the source text is generated first; an exception of
`generate_source` is not caught and leaves the function. -/
def execute_block {β σ μ : Type} (e : CpuEngine β σ μ) (block : β) (symbols : Symbols)
    (storage : σ) (heap : μ) (krnl : bh_ir_kernel) : BlockRun β σ μ :=
  let consider_jit := e.jit_enabled && decide (e.narray_tacs block > 0)
  -- Turn temps into scalars aka array-contraction
  let contraction :=
    if consider_jit && e.jit_contraction then contract_temps e block krnl.temp_list symbols
    else (symbols, [])
  let symbols1 := contraction.1
  let block1 :=
    if consider_jit && e.jit_contraction then e.update_iterspace block symbols1 else block
  let symbolized := e.symbolize block1 symbols1
  let block2 := symbolized.2
  if !symbolized.1 then ⟨BH_ERROR, block2, symbols1, storage, heap, contraction.2, none⟩
  -- JIT-compile the block if enabled
  else if consider_jit && !e.symbol_ready storage block2 then
    match e.generate_source block2 symbols1 with
    | .error failure =>
      ⟨BH_ERROR, block2, symbols1, storage, heap, contraction.2, some failure⟩
    | .ok sourcecode =>
      let compiled := e.compile storage block2 sourcecode
      if !compiled.1 then ⟨BH_ERROR, block2, symbols1, compiled.2, heap, contraction.2, none⟩
      else
        execute_block_load e block2 symbols1 (e.add_symbol compiled.2 block2) heap
          contraction.2
  else execute_block_load e block2 symbols1 storage heap contraction.2

/-- A call that `Engine::execute` makes: of an extension method or of `execute_block`, for
the kernel at position `kernel` of the kernel list (and, on the single-instruction path,
the instruction index `instr`), with the returned code and the effects of the call. -/
structure Call where
  kernel : Nat
  instr : Option Nat
  extension : Bool
  res : bh_error
  effects : List Effect
deriving DecidableEq, Repr

/-- The state of `Engine::execute` when its loop over the kernels, or the loop over the
instruction indexes of one kernel, is left: `returned` is the code of the `return res`
inside the loop when that was reached and `none` otherwise, `res` is the local of that
name, `calls` are the calls made, in the order they were made, and `thrown` is the
exception of a call of `execute_block` that leaves the loop, if one does. -/
structure BatchRun (σ μ : Type) where
  returned : Option bh_error
  res : bh_error
  symbols : Symbols
  storage : σ
  heap : μ
  calls : List Call
  thrown : Option WalkerFailure

/-- The `SIJ_MODE` loop of `Engine::execute` over the instruction indexes `idxs` of the
kernel at position `k`.  An exception of `execute_block` leaves the loop before `res` is
assigned. -/
def execute_sij {β σ μ : Type} (e : CpuEngine β σ μ) (bhir : bh_ir) (krnl : bh_ir_kernel)
    (k : Nat) : List Nat → bh_error → Symbols → σ → μ → BatchRun σ μ
  | [], res, symbols, storage, heap => ⟨none, res, symbols, storage, heap, [], none⟩
  | idx :: idxs, res, symbols, storage, heap =>
    let r := execute_block e (e.compose_instr bhir symbols idx) symbols storage heap krnl
    match r.thrown with
    | some failure =>
      ⟨none, res, r.symbols, r.storage, r.heap,
        [⟨k, some idx, false, r.res, r.effects⟩], some failure⟩
    | none =>
      if r.res ≠ BH_SUCCESS then
        ⟨some r.res, r.res, r.symbols, r.storage, r.heap,
          [⟨k, some idx, false, r.res, r.effects⟩], none⟩
      else
        let rs := execute_sij e bhir krnl k idxs r.res r.symbols r.storage r.heap
        ⟨rs.returned, rs.res, rs.symbols, rs.storage, rs.heap,
          ⟨k, some idx, false, r.res, r.effects⟩ :: rs.calls, rs.thrown⟩

/-- The loop of `Engine::execute` over the kernel list, from the kernel at position `k`
on. -/
def execute_kernels {β σ μ : Type} (e : CpuEngine β σ μ) (bhir : bh_ir) :
    Nat → List bh_ir_kernel → bh_error → Symbols → σ → μ → BatchRun σ μ
  | _, [], res, symbols, storage, heap => ⟨none, res, symbols, storage, heap, [], none⟩
  | k, krnl :: rest, res, symbols, storage, heap =>
    let block := e.compose bhir symbols krnl
    if e.omask_extension block then
      match e.extensions (e.ext_opcode block) with
      | some extmethod =>
        let r := extmethod heap
        if r.1 ≠ BH_SUCCESS then
          ⟨some r.1, r.1, symbols, storage, r.2, [⟨k, none, true, r.1, []⟩], none⟩
        else
          let rs := execute_kernels e bhir (k + 1) rest r.1 symbols storage r.2
          ⟨rs.returned, rs.res, rs.symbols, rs.storage, rs.heap,
            ⟨k, none, true, r.1, []⟩ :: rs.calls, rs.thrown⟩
      | none => execute_kernels e bhir (k + 1) rest res symbols storage heap
    else if e.jit_fusion && decide (e.narray_tacs block > 1) then
      -- FUSE_MODE
      let r := execute_block e block symbols storage heap krnl
      match r.thrown with
      | some failure =>
        ⟨none, res, r.symbols, r.storage, r.heap,
          [⟨k, none, false, r.res, r.effects⟩], some failure⟩
      | none =>
        if r.res ≠ BH_SUCCESS then
          ⟨some r.res, r.res, r.symbols, r.storage, r.heap,
            [⟨k, none, false, r.res, r.effects⟩], none⟩
        else
          let rs := execute_kernels e bhir (k + 1) rest r.res r.symbols r.storage r.heap
          ⟨rs.returned, rs.res, rs.symbols, rs.storage, rs.heap,
            ⟨k, none, false, r.res, r.effects⟩ :: rs.calls, rs.thrown⟩
    else
      -- SIJ_MODE
      let r := execute_sij e bhir krnl k krnl.instr_indexes res symbols storage heap
      match r.returned, r.thrown with
      | none, none =>
        let rs := execute_kernels e bhir (k + 1) rest r.res r.symbols r.storage r.heap
        ⟨rs.returned, rs.res, rs.symbols, rs.storage, rs.heap, r.calls ++ rs.calls, rs.thrown⟩
      | _, _ => r

/-- The run of `Engine::execute(bhir)`: the loop over `bhir->kernel_list`, entered with
`res = BH_SUCCESS` and the symbol table that `instrs_to_tacs` builds. -/
def execute_run {β σ μ : Type} (e : CpuEngine β σ μ) (bhir : bh_ir) (storage : σ) (heap : μ) :
    BatchRun σ μ :=
  execute_kernels e bhir 0 bhir.kernel_list BH_SUCCESS (e.instrs_to_tacs bhir) storage heap

/-- The function `Engine::execute(bhir)`: the code it returns, from inside the loop or by
the closing `return res`, when no exception leaves it. -/
def execute {β σ μ : Type} (e : CpuEngine β σ μ) (bhir : bh_ir) (storage : σ) (heap : μ) :
    bh_error :=
  match (execute_run e bhir storage heap).returned with
  | some res => res
  | none => (execute_run e bhir storage heap).res

/-- The way `Engine::execute(bhir)` is left: by an exception that no `catch` stops, or by
returning a code. -/
def execute_outcome {β σ μ : Type} (e : CpuEngine β σ μ) (bhir : bh_ir) (storage : σ)
    (heap : μ) : Except WalkerFailure bh_error :=
  match (execute_run e bhir storage heap).thrown with
  | some failure => .error failure
  | none => .ok (execute e bhir storage heap)

/-! ## A small engine for concrete batches -/

/-- The tac of instruction `i` in the small engine: instructions numbered 100 and above
are extension instructions (operation bit 2, opcode `i`), the others array operations
(operation bit 1) whose output is symbol `i`. -/
def demo_tac (i : Nat) : tac_t :=
  if i ≥ 100 then ⟨2, 0, i, i⟩ else ⟨1, 0, i, 0⟩

/-- Modelled from the spec: an instance of the engine operations that are not among the
sources, for evaluating the engine on concrete batches.  A block is the list of the tacs
of its instructions; symbol `i` is a contiguous operand on base `i`; contraction turns an
operand `CONTRACTABLE`; symbols are always ready and source generation never throws; the
memory is the list of the bases allocated so far; `registered` tells which extension
opcodes have an implementation and `out_of_memory` for which bases the allocator fails. -/
def demo_engine (registered out_of_memory : Nat → Bool) : CpuEngine (List tac_t) Unit (List Nat) :=
  { jit_enabled := true
    jit_fusion := true
    jit_contraction := true
    extensions := fun opcode =>
      if registered opcode then some (fun heap => (BH_SUCCESS, heap)) else none
    ARRAY_OPS := 1
    FREE := 1
    instrs_to_tacs := fun _ i => ⟨LAYOUT.CONTIGUOUS, i⟩
    compose := fun _ _ krnl => krnl.instr_indexes.map demo_tac
    compose_instr := fun _ _ idx => [demo_tac idx]
    omask_extension := fun block => block.any (fun tac => decide ((tac.op &&& 2) > 0))
    ext_opcode := fun block => (block.headD (demo_tac 0)).ext_opcode
    narray_tacs := fun block => (block.filter (fun tac => decide ((tac.op &&& 1) > 0))).length
    tacs := fun block => block
    noperands := fun block => block.length
    operand_base := fun block symbols idx => (symbols (block.getD idx (demo_tac 0)).out).base
    local_to_global := fun block idx => (block.getD idx (demo_tac 0)).out
    turn_contractable := fun operand => { operand with layout := LAYOUT.CONTRACTABLE }
    update_iterspace := fun block _ => block
    symbolize := fun block _ => (true, block)
    symbol_ready := fun _ _ => true
    generate_source := fun _ _ => .ok ""
    compile := fun storage _ _ => (true, storage)
    add_symbol := fun storage _ => storage
    load := fun storage _ => (true, storage)
    malloc := fun heap base =>
      if out_of_memory base then (BH_OUT_OF_MEMORY, heap) else (BH_SUCCESS, base :: heap)
    run := fun _ _ _ heap => heap
    free := fun heap _ => (BH_SUCCESS, heap) }

/-- The bases passed to `bh_vcache_malloc_base` among the effects of a call. -/
def malloc_bases : List Effect → List Nat
  | [] => []
  | Effect.malloc base _ :: rest => base :: malloc_bases rest
  | _ :: rest => malloc_bases rest

/-- Modelled from the spec: the small engine with a code generator.  Every instruction is
an elementwise operation with a complete reduction (operation bits 1 and 4 of
`demo_masks`) over a scalar iteration space, no symbol is ever ready, so every block is
compiled, and the source text is that of `Walker::generate_source`. -/
def scalar_engine : CpuEngine (List tac_t) Unit (List Nat) :=
  { demo_engine (fun _ => false) (fun _ => false) with
    compose := fun _ _ krnl => krnl.instr_indexes.map (fun i => ⟨5, 0, i, 0⟩)
    compose_instr := fun _ _ idx => [⟨5, 0, idx, 0⟩]
    symbol_ready := fun _ _ => false
    generate_source := fun block _ =>
      generate_source demo_masks demo_text
        ⟨block.foldl (fun omask tac => omask ||| tac.op) 0, LAYOUT.SCALAR.bits, 1, block⟩ }

/-! ## What `Engine::execute` is to do with the kernels of a batch -/

/-- A call on the single-instruction path for the instruction index `idx` of the kernel
`krnl` at position `k`: a call of `execute_block` on the block composed from that one
instruction, for that kernel, recorded with the code and the effects of the call. -/
def sij_call {β σ μ : Type} (e : CpuEngine β σ μ) (bhir : bh_ir) (k : Nat)
    (krnl : bh_ir_kernel) (idx : Nat) (c : Call) : Prop :=
  ∃ (symbols : Symbols) (storage : σ) (heap : μ),
    c = ⟨k, some idx, false,
      (execute_block e (e.compose_instr bhir symbols idx) symbols storage heap krnl).res,
      (execute_block e (e.compose_instr bhir symbols idx) symbols storage heap krnl).effects⟩

/-- The calls `seg` are those of processing the kernel `krnl` at position `k`, with the
block composed from it at some state of the symbol table:
* the mask of the block has `EXTENSION`: one call of the registered extension method, and
  no call when no method is registered for the opcode;
* else fusion is enabled and the block has more than one array operation: one call of
  `execute_block` on the block;
* else: one call of `execute_block` per instruction index of the kernel, in the order of
  the indexes, for all of them unless one of the calls fails. -/
def kernel_calls {β σ μ : Type} (e : CpuEngine β σ μ) (bhir : bh_ir) (k : Nat)
    (krnl : bh_ir_kernel) (seg : List Call) : Prop :=
  ∃ symbols : Symbols,
    (e.omask_extension (e.compose bhir symbols krnl) = true ∧
      ((e.extensions (e.ext_opcode (e.compose bhir symbols krnl)) = none ∧ seg = []) ∨
        ∃ (extmethod : μ → bh_error × μ) (heap : μ),
          e.extensions (e.ext_opcode (e.compose bhir symbols krnl)) = some extmethod ∧
          seg = [⟨k, none, true, (extmethod heap).1, []⟩])) ∨
    (e.omask_extension (e.compose bhir symbols krnl) = false ∧
      (e.jit_fusion && decide (e.narray_tacs (e.compose bhir symbols krnl) > 1)) = true ∧
      ∃ (storage : σ) (heap : μ),
        seg = [⟨k, none, false,
          (execute_block e (e.compose bhir symbols krnl) symbols storage heap krnl).res,
          (execute_block e (e.compose bhir symbols krnl) symbols storage heap krnl).effects⟩]) ∨
    (e.omask_extension (e.compose bhir symbols krnl) = false ∧
      (e.jit_fusion && decide (e.narray_tacs (e.compose bhir symbols krnl) > 1)) = false ∧
      ∃ done : List Nat, done <+: krnl.instr_indexes ∧
        List.Forall₂ (sij_call e bhir k krnl) done seg ∧
        ((∀ c, c ∈ seg → c.res = BH_SUCCESS) → done = krnl.instr_indexes))

/-- The calls of a run are those of processing the kernels `kernels` (at the positions `k`,
`k + 1`, ... of the kernel list) one after the other, up to and including the first call
that fails: `segs` holds the calls of each kernel processed.  Either every kernel has
been processed and no call failed, or the last kernel processed is the one whose last
call `c` failed, by returning a code that is not `BH_SUCCESS` (which is then returned) or
by throwing. -/
def processed_in_order {β σ μ : Type} (e : CpuEngine β σ μ) (bhir : bh_ir) (k : Nat)
    (kernels : List bh_ir_kernel) (returned : Option bh_error) (thrown : Option WalkerFailure)
    (calls : List Call) (segs : List (List Call)) : Prop :=
  calls = segs.flatten ∧ segs.length ≤ kernels.length ∧
  (∀ j seg, segs[j]? = some seg →
    ∃ krnl, kernels[j]? = some krnl ∧ kernel_calls e bhir (k + j) krnl seg) ∧
  ((returned = none ∧ thrown = none ∧ segs.length = kernels.length ∧
      ∀ c, c ∈ calls → c.res = BH_SUCCESS) ∨
    ∃ segs' init c, segs = segs' ++ [init ++ [c]] ∧
      (∀ d, d ∈ segs'.flatten ++ init → d.res = BH_SUCCESS) ∧ c.res ≠ BH_SUCCESS ∧
      ((returned = some c.res ∧ thrown = none) ∨
        (returned = none ∧ c.extension = false ∧ ∃ failure, thrown = some failure)))

/-! ## `bh_view_disjoint` over exact integers, more concrete views -/

/-- The loop of `bh_view_disjoint` as the specification mandates it, "widening to 64-bit
signed throughout": the algorithm of `disjoint_loop` with every local holding the exact
value, no store narrowing to `int`. -/
def disjoint_loop_exact (a b : bh_view) : Nat → Nat → Int → Int → Int → Bool
  | 0, _, _, _, stride =>
    decide (stride > 1 ∧ a.start.tmod stride ≠ b.start.tmod stride)
  | n + 1, i, astart, bstart, _ =>
    let stride := gcd (a.stride i) (b.stride i)
    if stride = 0 then disjoint_loop_exact a b n (i + 1) astart bstart stride
    else
      let as := astart.tdiv stride
      let bs := bstart.tdiv stride
      let ae := as + a.shape i * (a.stride i).tdiv stride
      let be := bs + b.shape i * (b.stride i).tdiv stride
      if ae < bs ∨ be < as then true
      else disjoint_loop_exact a b n (i + 1) (astart.tmod stride) (bstart.tmod stride) stride

/-- The algorithm of `bh_view_disjoint` evaluated over exact integers. -/
def bh_view_disjoint_exact (a b : bh_view) : Bool :=
  if bh_is_constant a || bh_is_constant b then true
  else if a.base ≠ b.base then true
  else if a.ndim ≠ b.ndim then false
  else disjoint_loop_exact a b a.ndim 0 a.start b.start 1

/-- The view `base[2^31 : 2^31 + 4]` of a 1-D base. -/
def high0 : bh_view := ⟨some 0, 2 ^ 31, 1, arr [4], arr [1]⟩

/-- The view `base[2^31 - 2 : 2^31 + 2]` of the same 1-D base. -/
def high1 : bh_view := ⟨some 0, 2 ^ 31 - 2, 1, arr [4], arr [1]⟩

/-- The view `base[0:3]` of a 1-D base: the elements 0, 1, 2. -/
def forward3 : bh_view := ⟨some 0, 0, 1, arr [3], arr [1]⟩

/-- The reversed view `base[2:0:-1]` of the same base: the elements 2, 1. -/
def backward2 : bh_view := ⟨some 0, 2, 1, arr [2], arr [-1]⟩

/-- The contiguous view of a 2×3×4 base. -/
def contiguous234 : bh_view := ⟨some 0, 0, 3, arr [2, 3, 4], arr [12, 4, 1]⟩

/-! ## `Reduce::bh_reduce` (`ve/gpu/Reduce.cpp`, lines 34-52) -/

/-- The state of the `while` loop of `Reduce::bh_reduce` that builds the view `inn`: the
locals `i` and `a`, the view `inn`, and the indices at which `inn.shape` and `inn.stride`
have been written, in the order of the writes. -/
structure ReduceState where
  i : Nat
  a : Nat
  inn : bh_view
  written : List Nat

/-- The loop `while (a < in->ndim)` of `Reduce::bh_reduce`.  The first argument bounds the
number of iterations; `bh_reduce_inn` passes `in->ndim`, and `none` is returned when the
bound is used up with the loop condition still true. -/
def reduce_loop (inp : bh_view) (axis : Int) : Nat → ReduceState → Option ReduceState
  | 0, s => if s.a < inp.ndim then none else some s
  | fuel + 1, s =>
    if s.a < inp.ndim then
      reduce_loop inp axis fuel
        { i := s.i + 1
          a := if ((s.i + 1 : Nat) : Int) = axis then s.a + 1 + 1 else s.a + 1
          inn :=
            { s.inn with
              shape := upd s.inn.shape s.i (inp.shape s.a)
              stride := upd s.inn.stride s.i (inp.stride s.a) }
          written := s.written ++ [s.i] }
    else some s

/-- The block of `Reduce::bh_reduce` that builds `inn` from the input view `in` and the
reduction axis: `inn` starts as a copy of `in` with `ndim` one less, `i` as 0 and `a` as
`(axis) ? 0 : 1`. -/
def bh_reduce_inn (inp : bh_view) (axis : Int) : Option ReduceState :=
  reduce_loop inp axis inp.ndim
    ⟨0, if axis ≠ 0 then 0 else 1, { inp with ndim := inp.ndim - 1 }, []⟩

/-! ## `work_ranges` (`ve/opencl/engine_opencl.cpp`, lines 181-198) -/

/-- The narrowing conversion to `uint32_t`. -/
def to_uint32 (x : Int) : Nat :=
  (x % 2 ^ 32).toNat

/-- The value `numeric_limits<uint32_t>::max()`. -/
def uint32_max : Nat := 2 ^ 32 - 1

/-- The ways `work_ranges` can fail to return: the `throw runtime_error(...)`, and the
remainder by a local size of zero (undefined behaviour). -/
inductive WorkRangesFailure where
  | sizes_cannot_fit
  | remainder_by_zero
deriving DecidableEq, Repr

/-- The function `work_ranges(work_group_size, block_size)`, returning the pair
(global work size, local work size).  `work_group_size` is a `uint64_t`, `block_size` an
`int64_t`; `lsize`, `rem` and `gsize` are `uint32_t` and their arithmetic is modulo
`2^32`. -/
def work_ranges (work_group_size : Nat) (block_size : Int) :
    Except WorkRangesFailure (Nat × Nat) :=
  if uint32_max ≤ work_group_size ∨ (uint32_max : Int) ≤ block_size ∨ block_size < 0 then
    .error .sizes_cannot_fit
  else
    let lsize := work_group_size % 2 ^ 32
    if lsize = 0 then .error .remainder_by_zero
    else
      let rem := to_uint32 block_size % lsize
      let gsize :=
        (to_uint32 block_size + (if rem = 0 then 0 else (lsize + 2 ^ 32 - rem) % 2 ^ 32))
          % 2 ^ 32
      .ok (gsize, lsize)

/-! ## Configuration lookup (`core/bh_component.cpp`, lines 464-540) -/

/-- The component `bh_component`, with the members the lookups read: the `name` and the
parsed config file `config` (a dictionary of the `iniparser` library). -/
structure bh_component (δ : Type) where
  name : String
  config : δ

/-- What the lookups call and what is not among the sources: the buffer size
`BH_COMPONENT_NAME_SIZE` (`bh_component.h`) and the accessors of the `iniparser` library
over its dictionary type `δ`; `ρ` stands for `double`.  A missing string is `none`
(`NULL`). -/
structure ConfigExternals (δ ρ : Type) where
  BH_COMPONENT_NAME_SIZE : Nat
  iniparser_getstring : δ → String → Option String → Option String
  iniparser_getboolean : δ → String → Int → Int
  iniparser_getint : δ → String → Int → Int
  iniparser_getdouble : δ → String → ρ → ρ

/-- The environment of the process: what `getenv` returns for a name. -/
abbrev Environment := String → Option String

/-- The function `boost::to_upper_copy` on a string. -/
def to_upper_copy (s : String) : String :=
  ⟨s.data.map Char.toUpper⟩

/-- The function `lookup_env(component, key)`: the value of the environment variable
`BH_<name>_<key>` in upper case. -/
def lookup_env {δ : Type} (env : Environment) (component : bh_component δ) (key : String) :
    Option String :=
  env (to_upper_copy ("BH_" ++ component.name ++ "_" ++ key))

/-- The buffer `dictkey` after `snprintf(dictkey, BH_COMPONENT_NAME_SIZE, "%s:%s", name, key)`:
the text `name:key`, cut to the size of the buffer less the terminating zero. -/
def dictkey {δ ρ : Type} (x : ConfigExternals δ ρ) (component : bh_component δ)
    (key : String) : String :=
  ⟨(component.name ++ ":" ++ key).data.take (x.BH_COMPONENT_NAME_SIZE - 1)⟩

/-- The function `bh_component_config_lookup(component, key)`. -/
def bh_component_config_lookup {δ ρ : Type} (x : ConfigExternals δ ρ) (env : Environment)
    (component : bh_component δ) (key : String) : Option String :=
  match lookup_env env component key with
  | some value => some value
  | none => x.iniparser_getstring component.config (dictkey x component key) none

/-- The function `bh_component_config_lookup_bool(component, key, notfound)`. -/
def bh_component_config_lookup_bool {δ ρ : Type} (x : ConfigExternals δ ρ)
    (_env : Environment) (component : bh_component δ) (key : String) (notfound : Int) : Int :=
  x.iniparser_getboolean component.config (dictkey x component key) notfound

/-- The function `bh_component_config_lookup_int(component, key, notfound)`. -/
def bh_component_config_lookup_int {δ ρ : Type} (x : ConfigExternals δ ρ)
    (_env : Environment) (component : bh_component δ) (key : String) (notfound : Int) : Int :=
  x.iniparser_getint component.config (dictkey x component key) notfound

/-- The function `bh_component_config_lookup_double(component, key, notfound)`. -/
def bh_component_config_lookup_double {δ ρ : Type} (x : ConfigExternals δ ρ)
    (_env : Environment) (component : bh_component δ) (key : String) (notfound : ρ) : ρ :=
  x.iniparser_getdouble component.config (dictkey x component key) notfound

/-- The decimal digits of a text read as a number (the text is taken to be all digits). -/
def digits_value (s : String) : Int :=
  s.data.foldl (fun acc c => acc * 10 + ((c.toNat - '0'.toNat : Nat) : Int)) 0

/-- Modelled from the spec: an instance of the `iniparser` accessors for evaluating the
lookups on a concrete config file.  The dictionary is the list of the `section:key`
entries with their values; a key that is absent gives the `notfound` argument; a boolean
is 1 when the value starts with one of `y`, `Y`, `t`, `T`, `1` and 0 when it starts with one
of `n`, `N`, `f`, `F`, `0`; `double` values are kept as integers. -/
def demo_ini : ConfigExternals (List (String × String)) Int :=
  { BH_COMPONENT_NAME_SIZE := 1024
    iniparser_getstring := fun d k notfound =>
      match d.lookup k with
      | some v => some v
      | none => notfound
    iniparser_getboolean := fun d k notfound =>
      match d.lookup k with
      | some v =>
        if v.data.head? ∈ [some 'y', some 'Y', some 't', some 'T', some '1'] then 1
        else if v.data.head? ∈ [some 'n', some 'N', some 'f', some 'F', some '0'] then 0
        else notfound
      | none => notfound
    iniparser_getint := fun d k notfound =>
      match d.lookup k with
      | some v => digits_value v
      | none => notfound
    iniparser_getdouble := fun d k notfound =>
      match d.lookup k with
      | some v => digits_value v
      | none => notfound }

/-- The component `cpu` with a config file that sets `cpu:jit_level` to 1 and
`cpu:jit_fusion` to `false`. -/
def demo_component : bh_component (List (String × String)) :=
  ⟨"cpu", [("cpu:jit_level", "1"), ("cpu:jit_fusion", "false")]⟩

/-- An environment in which `BH_CPU_JIT_LEVEL` is 3 and `BH_CPU_JIT_FUSION` is `true`. -/
def demo_env : Environment := fun name =>
  if name = "BH_CPU_JIT_LEVEL" then some "3"
  else if name = "BH_CPU_JIT_FUSION" then some "true"
  else none

/-! ## `double` arithmetic -/

/-- A finite non-negative `double`: the value `m * 2^e`, with `m < 2^53`.  Exponent
overflow and subnormal numbers are outside the model; the values computed with it lie
between `2^-60` and `2^64`. -/
structure Dbl where
  m : Nat
  e : Int
deriving DecidableEq, Repr

/-- The number of binary digits of `n`; the first argument bounds the recursion and is
passed as `n`. -/
def bit_length_loop : Nat → Nat → Nat
  | 0, _ => 0
  | fuel + 1, n => if n = 0 then 0 else bit_length_loop fuel (n / 2) + 1

/-- The number of binary digits of `n` (0 for 0). -/
def bit_length (n : Nat) : Nat :=
  bit_length_loop n n

/-- The quotient `n / d` rounded to an integer, to nearest and ties to even. -/
def round_half_even (n d : Nat) : Nat :=
  if 2 * (n % d) > d then n / d + 1
  else if 2 * (n % d) = d then (if (n / d) % 2 = 1 then n / d + 1 else n / d)
  else n / d

/-- The rational `n / d` (`d > 0`) rounded to a `double`: to nearest with a significand of
53 binary digits, ties to even.  The exponent `k` is chosen with
`2^52 ≤ (n / d) / 2^k < 2^53`. -/
def round_double (n d : Nat) : Dbl :=
  if n = 0 then ⟨0, 0⟩
  else
    let k0 : Int := (bit_length n : Int) - (bit_length d : Int) - 52
    let n0 := if k0 < 0 then n * 2 ^ (-k0).toNat else n
    let d0 := if k0 < 0 then d else d * 2 ^ k0.toNat
    let k : Int := if n0 < 2 ^ 52 * d0 then k0 - 1 else k0
    let n1 := if n0 < 2 ^ 52 * d0 then 2 * n0 else n0
    let m := round_half_even n1 d0
    if m = 2 ^ 53 then ⟨2 ^ 52, k + 1⟩ else ⟨m, k⟩

/-- The conversion of a `uint64_t` (or a non-negative `int64_t`) to `double`. -/
def Dbl.of_nat (n : Nat) : Dbl :=
  round_double n 1

/-- The product of two `double`s. -/
def Dbl.mul (x y : Dbl) : Dbl :=
  ⟨(round_double (x.m * y.m) 1).m, (round_double (x.m * y.m) 1).e + x.e + y.e⟩

/-- The quotient of two `double`s (the divisor is not zero). -/
def Dbl.div (x y : Dbl) : Dbl :=
  ⟨(round_double x.m y.m).m, (round_double x.m y.m).e + x.e - y.e⟩

/-- The function `std::floor` followed by the conversion to `int64_t`. -/
def Dbl.floor (x : Dbl) : Int :=
  if x.e < 0 then (x.m / 2 ^ (-x.e).toNat : Nat) else (x.m * 2 ^ x.e.toNat : Nat)

/-- The literal `0.10`: the `double` nearest to 1/10. -/
def Dbl.tenth : Dbl :=
  round_double 1 10

/-- The literal `100.0`. -/
def Dbl.hundred : Dbl :=
  Dbl.of_nat 100

/-! ## The cache limit of `EngineOpenCL::EngineOpenCL`
(`ve/opencl/engine_opencl.cpp`, lines 124-137) -/

/-- The value `std::string::npos`. -/
def npos : Nat := 2 ^ 64 - 1

/-- The search of `std::string::find` from position `k` on: the position of the first
occurrence of `pat` in the rest `s` of the text, `npos` when there is none. -/
def find_from (pat : List Char) : List Char → Nat → Nat
  | [], k => if pat = [] then k else npos
  | c :: s, k => if pat.isPrefixOf (c :: s) then k else find_from pat s (k + 1)

/-- The member function `std::string::find(pat)`. -/
def string_find (s pat : String) : Nat :=
  find_from pat.data s.data 0

/-- The "Initiate cache limits" part of the constructor of `EngineOpenCL`: the value
passed to `malloc_cache.setLimit`, or `none` for the
`throw std::runtime_error("config: malloc_cache_limit must be between 0 and 100")`.
`malloc_cache_limit` is the configured value, `none` when the key is not configured
(`defaultGet` then gives 90); `gpu_mem` is `CL_DEVICE_GLOBAL_MEM_SIZE` and `device_name`
is `CL_DEVICE_NAME`.  The condition `if (device_name.find("CPU"))` converts the position
to `bool`: it holds when the position is not 0. -/
def malloc_cache_limit_in_bytes (malloc_cache_limit : Option Int) (gpu_mem : Nat)
    (device_name : String) : Option Nat :=
  let malloc_cache_limit_in_percent : Int := malloc_cache_limit.getD 90
  if malloc_cache_limit_in_percent < 0 ∨ malloc_cache_limit_in_percent > 100 then none
  else
    let bytes : Int :=
      if string_find device_name "CPU" ≠ 0 then
        Dbl.floor (Dbl.mul (Dbl.of_nat gpu_mem) Dbl.tenth)
      else
        Dbl.floor (Dbl.mul (Dbl.of_nat gpu_mem)
          (Dbl.div (Dbl.of_nat malloc_cache_limit_in_percent.toNat) Dbl.hundred))
    some (to_uint64 bytes)

/-! ## Array contraction among the effects of a call -/

/-- Modelled from the spec: an instance of the external functions for kernels with
reductions.  Every instruction has two operands, the output and one input; opcode 1 is a
reduction along the axis held in the constant of the instruction, any other opcode is
elementwise.  `sweep_axis` is that axis for a reduction and `BH_MAXDIM = 16` otherwise;
`remove_axis` removes the axis from every non-constant operand view, one axis lower for
the output of a reduction that sweeps an axis below it; the sweeps of a loop are the
reductions under it that sweep its rank. -/
def reducing : Externals :=
  { bh_noperands := fun _ => 2
    bh_opcode_is_reduction := fun opcode => opcode == 1
    sweep_axis := fun instr => if instr.opcode = 1 then instr.constant else 16
    remove_axis := fun instr axis =>
      { instr with
        operand := fun k =>
          if bh_is_constant (instr.operand k) then instr.operand k
          else if k = 0 ∧ instr.opcode = 1 ∧ instr.constant < axis then
            remove_axis_view (instr.operand k) (axis - 1).toNat
          else remove_axis_view (instr.operand k) axis.toNat }
    sweeps_of := fun rank block_list =>
      (getAllInstr_list block_list).filter
        (fun instr => instr.opcode == 1 && instr.constant == rank) }

/-- The view with the entries of the axes `axis1` and `axis2` exchanged. -/
def transpose_view (view : bh_view) (axis1 axis2 : Nat) : bh_view :=
  { view with
    shape := fun k =>
      if k = axis1 then view.shape axis2 else if k = axis2 then view.shape axis1
      else view.shape k
    stride := fun k =>
      if k = axis1 then view.stride axis2 else if k = axis2 then view.stride axis1
      else view.stride k }

/-- Modelled from the spec: an instance of the functions that `push_reductions_inwards`
calls.  Two instructions are equal when opcode, constant and the two operand views are;
`transpose` exchanges the two axes in every non-constant operand view that has both, and
in the axis of a reduction; `create_nested_block` builds one loop of the given rank and
size around the instructions, with the reductions along that rank as its sweeps. -/
def plain_swap : SwapExternals :=
  { instr_eq := fun a b =>
      a.opcode == b.opcode && a.constant == b.constant &&
        bh_view_eq (a.operand 0) (b.operand 0) && bh_view_eq (a.operand 1) (b.operand 1)
    transpose := fun instr axis1 axis2 =>
      { instr with
        operand := fun k =>
          if bh_is_constant (instr.operand k) then instr.operand k
          else if axis1.toNat < (instr.operand k).ndim ∧ axis2.toNat < (instr.operand k).ndim then
            transpose_view (instr.operand k) axis1.toNat axis2.toNat
          else instr.operand k
        constant :=
          if instr.opcode = 1 then
            (if instr.constant = axis1 then axis2
              else if instr.constant = axis2 then axis1 else instr.constant)
          else instr.constant }
    create_nested_block := fun instr_list rank size =>
      .loop (.mk rank size (instr_list.map Block.instr)
        (instr_list.filter (fun instr => instr.opcode == 1 && instr.constant == rank))) }

/-- The reduction `out = sum(in, axis 0)` of the contiguous 2×3 view into a view of shape
`[3]` of another base. -/
def sum23 : bh_instruction :=
  ⟨1, fun k => if k = 0 then ⟨some 1, 0, 1, arr [3], arr [1]⟩ else contiguous23, 0⟩

/-- A loop of rank 0 and size 2 that sweeps `sum23` and has two children of rank 1 and
size 3: the loop around the copy `copy23` and the loop around `sum23`. -/
def sweep_two : LoopB :=
  .mk 0 2 [.loop inner23, .loop (.mk 1 3 [.instr sum23] [])] [sum23]

/-- A reduction along axis 0 of a contiguous 2×3×4×5 view; the output, of shape `[3,4,5]`,
has the strides `[40,10,1]` (rows of 5 elements, 10 apart). -/
def red2345 : bh_instruction :=
  ⟨1, fun k => if k = 0 then ⟨some 1, 0, 3, arr [3, 4, 5], arr [40, 10, 1]⟩
    else ⟨some 0, 0, 4, arr [2, 3, 4, 5], arr [60, 20, 5, 1]⟩, 0⟩

/-- A loop of rank 1 and size 3 whose only child is the loop of rank 2 and size 4 around
the loop of rank 3 and size 5 that holds `red2345`; none of them has sweeps (the
reduction sweeps axis 0). -/
def loop_red : LoopB :=
  .mk 1 3 [.loop (.mk 2 4 [.loop (.mk 3 5 [.instr red2345] [])] [])] []

/-! # Theorems -/

/-! ## Arithmetic of row-major addressing -/

theorem ediv_emod_mul (j n c : Int) (hn : 0 < n) (hc : 0 < c) :
    j / (c * n) = j / n / c ∧ j % (c * n) = (j / n % c) * n + j % n := by
  have hcn : 0 < c * n := Int.mul_pos hc hn
  apply (Int.ediv_emod_unique hcn).2
  have e1 := Int.emod_add_ediv j n
  have e2 := Int.emod_add_ediv (j / n) c
  have p1 := Int.emod_nonneg j (ne_of_gt hn)
  have p2 := Int.emod_lt_of_pos j hn
  have p3 := Int.emod_nonneg (j / n) (ne_of_gt hc)
  have p4 := Int.emod_lt_of_pos (j / n) hc
  refine ⟨?_, ?_, ?_⟩
  · linear_combination e1 + n * e2
  · exact add_nonneg (mul_nonneg p3 hn.le) p1
  · nlinarith

theorem elem_offset_congr {sh sh' st st' : Nat → Int} {nd : Nat}
    (h : ∀ k, k < nd → sh k = sh' k ∧ st k = st' k) (j : Int) :
    elem_offset sh st nd j = elem_offset sh' st' nd j := by
  induction nd generalizing j with
  | zero => rfl
  | succ n ih =>
    have hn := h n (Nat.lt_succ_self n)
    simp only [elem_offset, hn.1, hn.2]
    rw [ih (fun k hk => h k (Nat.lt_succ_of_lt hk))]

theorem nelements_shape_congr {sh sh' : Nat → Int} {nd : Nat}
    (h : ∀ k, k < nd → sh k = sh' k) :
    bh_nelements_shape nd sh = bh_nelements_shape nd sh' := by
  induction nd with
  | zero => rfl
  | succ n ih =>
    simp only [bh_nelements_shape, h n (Nat.lt_succ_self n)]
    rw [ih (fun k hk => h k (Nat.lt_succ_of_lt hk))]

theorem upd_same (f : Nat → Int) (i : Nat) (v : Int) : upd f i v i = v := by
  simp [upd]

theorem upd_other (f : Nat → Int) {i k : Nat} (v : Int) (h : k ≠ i) : upd f i v k = f k := by
  simp [upd, h]

/-! ## The loop of `bh_view_simplify` -/

theorem simplify_loop_succ (view : bh_view) (k : Nat) :
    simplify_loop view (k + 1) = simplify_step view (simplify_loop view k) (k + 1) := by
  unfold simplify_loop
  rw [List.range'_concat, List.foldl_append]
  simp [Nat.add_comm]

theorem bh_view_simplify_eq (view : bh_view) :
    bh_view_simplify view = simplify_finish (simplify_loop view (view.ndim - 1)) := rfl

theorem simplify_init_inv (view : bh_view) (h0 : 1 ≤ view.shape 0) :
    SimplifyInv view (simplify_init view) 1 := by
  refine ⟨rfl, rfl, ?_, ?_, ?_⟩
  · simpa [simplify_init, upd] using h0
  · simp [simplify_init, bh_nelements_shape, upd]
  · intro j
    simp [simplify_init, elem_offset, upd]

theorem simplify_step_inv {view res : bh_view} {i : Nat} (inv : SimplifyInv view res i)
    (hi : 1 ≤ view.shape i) : SimplifyInv view (simplify_step view res i) (i + 1) := by
  unfold simplify_step
  by_cases h1 : view.shape i = 1
  · rw [if_pos h1]
    refine ⟨inv.base, inv.start, inv.pos, ?_, ?_⟩
    · simp [bh_nelements_shape, h1, inv.nelem] at *
      exact inv.nelem
    · intro j
      rw [inv.offset j]
      simp [elem_offset, h1]
  · rw [if_neg h1]
    have hn : 0 < view.shape i := by omega
    by_cases h2 : view.shape i * view.stride i = res.stride res.ndim
    · rw [if_pos h2]
      have hc : 0 < res.shape res.ndim := by have := inv.pos; omega
      have hpre : ∀ k, k < res.ndim →
          upd res.shape res.ndim (res.shape res.ndim * view.shape i) k = res.shape k ∧
          upd res.stride res.ndim (view.stride i) k = res.stride k := by
        intro k hk
        exact ⟨upd_other _ _ (by omega), upd_other _ _ (by omega)⟩
      refine ⟨inv.base, inv.start, ?_, ?_, ?_⟩
      · show 1 ≤ upd res.shape res.ndim (res.shape res.ndim * view.shape i) res.ndim
        rw [upd_same]
        nlinarith [inv.pos]
      · show bh_nelements_shape (res.ndim + 1)
            (upd res.shape res.ndim (res.shape res.ndim * view.shape i)) = _
        have hin := inv.nelem
        simp only [bh_nelements_shape] at hin ⊢
        rw [upd_same, nelements_shape_congr (fun k hk => (hpre k hk).1), ← hin]
        ring
      · intro j
        show elem_offset (upd res.shape res.ndim (res.shape res.ndim * view.shape i))
            (upd res.stride res.ndim (view.stride i)) (res.ndim + 1) j = _
        have hio := inv.offset (j / view.shape i)
        obtain ⟨d1, d2⟩ := ediv_emod_mul j (view.shape i) (res.shape res.ndim) hn hc
        simp only [elem_offset] at hio ⊢
        rw [upd_same, upd_same, elem_offset_congr hpre, ← hio, d1, d2, ← h2]
        ring
    · rw [if_neg h2]
      have hpre : ∀ k, k < res.ndim + 1 →
          upd res.shape (res.ndim + 1) (view.shape i) k = res.shape k ∧
          upd res.stride (res.ndim + 1) (view.stride i) k = res.stride k := by
        intro k hk
        exact ⟨upd_other _ _ (by omega), upd_other _ _ (by omega)⟩
      refine ⟨inv.base, inv.start, ?_, ?_, ?_⟩
      · show 1 ≤ upd res.shape (res.ndim + 1) (view.shape i) (res.ndim + 1)
        rw [upd_same]
        exact hi
      · show bh_nelements_shape (res.ndim + 1 + 1)
            (upd res.shape (res.ndim + 1) (view.shape i)) = _
        rw [bh_nelements_shape, upd_same, nelements_shape_congr (fun k hk => (hpre k hk).1),
          inv.nelem]
        rfl
      · intro j
        show elem_offset (upd res.shape (res.ndim + 1) (view.shape i))
            (upd res.stride (res.ndim + 1) (view.stride i)) (res.ndim + 1 + 1) j = _
        rw [elem_offset, upd_same, upd_same, elem_offset_congr hpre, inv.offset]
        rfl

theorem simplify_loop_inv (view : bh_view) (n : Nat) (h : ∀ k, k ≤ n → 1 ≤ view.shape k) :
    SimplifyInv view (simplify_loop view n) (n + 1) := by
  induction n with
  | zero => exact simplify_init_inv view (h 0 (Nat.le_refl 0))
  | succ m ih =>
    rw [simplify_loop_succ]
    exact simplify_step_inv (ih (fun k hk => h k (Nat.le_succ_of_le hk))) (h (m + 1) (Nat.le_refl _))

theorem simplify_finish_sound {view res : bh_view} {i : Nat} (inv : SimplifyInv view res i) :
    (simplify_finish res).base = view.base ∧ (simplify_finish res).start = view.start ∧
    bh_nelements (simplify_finish res) = bh_nelements_shape i view.shape ∧
    ∀ j, elem_offset (simplify_finish res).shape (simplify_finish res).stride
      (simplify_finish res).ndim j = elem_offset view.shape view.stride i j := by
  unfold simplify_finish
  by_cases h : res.shape res.ndim > 1
  · rw [if_pos h]
    exact ⟨inv.base, inv.start, inv.nelem, inv.offset⟩
  · rw [if_neg h]
    have h1 : res.shape res.ndim = 1 := by have := inv.pos; omega
    refine ⟨inv.base, inv.start, ?_, ?_⟩
    · have hin := inv.nelem
      simp only [bh_nelements_shape, h1, mul_one] at hin
      exact hin
    · intro j
      have hio := inv.offset j
      simp only [elem_offset, h1, Int.ediv_one, Int.emod_one, zero_mul, add_zero] at hio
      exact hio

/-- Claim C2. For every view `v` with `ndim ≥ 1` and every `shape[i] ≥ 1`, `bh_view_simplify(v)`
has the same total element count as `v`, and at every row-major linear index `i` below the
element count the offset addressed through `bh_view_simplify(v)` equals the offset
addressed through `v`. -/
theorem bh_view_simplify_preserves_offsets (v : bh_view) (hnd : 1 ≤ v.ndim)
    (hshape : ∀ k, k < v.ndim → 1 ≤ v.shape k) :
    bh_nelements (bh_view_simplify v) = bh_nelements v ∧
    ∀ i : Int, 0 ≤ i → i < bh_nelements v →
      view_offset (bh_view_simplify v) i = view_offset v i := by
  have inv := simplify_loop_inv v (v.ndim - 1) (fun k hk => hshape k (by omega))
  have hnd1 : v.ndim - 1 + 1 = v.ndim := by omega
  rw [hnd1] at inv
  obtain ⟨_, hs, hn, ho⟩ := simplify_finish_sound inv
  rw [bh_view_simplify_eq]
  refine ⟨hn, ?_⟩
  intro i _ _
  unfold view_offset
  rw [hs, ho]

theorem bh_view_simplify_preserves_offsets_witness :
    1 ≤ (view1413 100 10 5 1).ndim ∧
    (∀ k, k < (view1413 100 10 5 1).ndim → 1 ≤ (view1413 100 10 5 1).shape k) ∧
    bh_nelements (bh_view_simplify (view1413 100 10 5 1)) = bh_nelements (view1413 100 10 5 1) ∧
    ∀ i : Int, 0 ≤ i → i < bh_nelements (view1413 100 10 5 1) →
      view_offset (bh_view_simplify (view1413 100 10 5 1)) i
        = view_offset (view1413 100 10 5 1) i :=
  ⟨by decide, by decide,
    bh_view_simplify_preserves_offsets (view1413 100 10 5 1) (by decide) (by decide)⟩

/-! ## Linear indices and index vectors -/

theorem unravel_length (shape : Nat → Int) (nd : Nat) (i : Int) :
    (unravel shape nd i).length = nd := by
  induction nd generalizing i with
  | zero => rfl
  | succ n ih => simp [unravel, ih]

/-- The recursion `elem_offset` is the sum `Σ_k index[k] * stride[k]` over the index vector
of the linear index. -/
theorem elem_offset_eq_sum (shape stride : Nat → Int) (nd : Nat) (i : Int) :
    elem_offset shape stride nd i
      = ((List.range nd).map (fun k => (unravel shape nd i).getD k 0 * stride k)).sum := by
  induction nd generalizing i with
  | zero => rfl
  | succ n ih =>
    rw [elem_offset, ih, List.range_succ, List.map_append, List.sum_append]
    have hlen := unravel_length shape n (i / shape n)
    congr 1
    · congr 1
      apply List.map_congr_left
      intro k hk
      have hk' : k < (unravel shape n (i / shape n)).length := by
        rw [hlen]; exact List.mem_range.mp hk
      simp only [unravel]
      rw [List.getD_append _ _ _ _ hk']
    · simp only [unravel, List.map_cons, List.map_nil, List.sum_cons, List.sum_nil, add_zero]
      rw [List.getD_append_right _ _ _ _ (by rw [hlen]), hlen]
      simp

/-- The offset of a view at a linear index is the offset of the index vector of that
linear index. -/
theorem view_offset_eq_index_offset (v : bh_view) (i : Int) :
    view_offset v i = index_offset v (unravel v.shape v.ndim i) := by
  unfold view_offset index_offset
  rw [elem_offset_eq_sum]

/-- With every shape entry at least 1, the index vector of a linear index lies within the
shape. -/
theorem unravel_in_shape (shape : Nat → Int) (nd : Nat) (i : Int)
    (h : ∀ k, k < nd → 1 ≤ shape k) :
    ∀ k, k < nd → 0 ≤ (unravel shape nd i).getD k 0 ∧ (unravel shape nd i).getD k 0 < shape k := by
  induction nd generalizing i with
  | zero => intro k hk; exact absurd hk (Nat.not_lt_zero k)
  | succ n ih =>
    intro k hk
    have hlen := unravel_length shape n (i / shape n)
    simp only [unravel]
    by_cases hkn : k < n
    · rw [List.getD_append _ _ _ _ (by rw [hlen]; exact hkn)]
      exact ih (i / shape n) (fun j hj => h j (Nat.lt_succ_of_lt hj)) k hkn
    · have hkeq : k = n := by omega
      subst hkeq
      rw [List.getD_append_right _ _ _ _ (by rw [hlen]), hlen]
      have hpos : 0 < shape k := by have := h k hk; omega
      simp only [Nat.sub_self, List.getD_cons_zero]
      exact ⟨Int.emod_nonneg _ (ne_of_gt hpos), Int.emod_lt_of_pos _ hpos⟩

theorem simplify_init_normal (view : bh_view) (h0 : 1 ≤ view.shape 0) :
    SimplifyNormal (simplify_init view) := by
  constructor
  · intro k hk
    have hk0 : k = 0 := Nat.le_zero.mp hk
    subst hk0
    simpa [simplify_init, upd] using h0
  · intro k h1 hk
    have hk0 : k = 0 := Nat.le_zero.mp hk
    omega

theorem simplify_step_normal {view res : bh_view} {i : Nat} (nrm : SimplifyNormal res)
    (hi : 1 ≤ view.shape i) : SimplifyNormal (simplify_step view res i) := by
  unfold simplify_step
  by_cases h1 : view.shape i = 1
  · rw [if_pos h1]; exact nrm
  · rw [if_neg h1]
    have hn : 2 ≤ view.shape i := by omega
    by_cases h2 : view.shape i * view.stride i = res.stride res.ndim
    · rw [if_pos h2]
      have hc : 1 ≤ res.shape res.ndim := nrm.pos _ (Nat.le_refl _)
      have hprod : 2 ≤ res.shape res.ndim * view.shape i := by nlinarith
      constructor
      · intro k hk
        show 1 ≤ upd res.shape res.ndim (res.shape res.ndim * view.shape i) k
        by_cases hkm : k = res.ndim
        · subst hkm; rw [upd_same]; omega
        · rw [upd_other _ _ hkm]; exact nrm.pos k hk
      · intro k hk1 hk
        show upd res.shape res.ndim (res.shape res.ndim * view.shape i) k ≠ 1 ∧
          upd res.shape res.ndim (res.shape res.ndim * view.shape i) k *
            upd res.stride res.ndim (view.stride i) k ≠
            upd res.stride res.ndim (view.stride i) (k - 1)
        have hk' : k ≤ res.ndim := hk
        have hpred : k - 1 ≠ res.ndim := by omega
        rw [upd_other _ _ hpred]
        by_cases hkm : k = res.ndim
        · subst hkm
          rw [upd_same, upd_same]
          refine ⟨by omega, ?_⟩
          have := (nrm.axes _ hk1 (Nat.le_refl _)).2
          rw [← h2] at this
          intro hEq
          apply this
          rw [← hEq]; ring
        · rw [upd_other _ _ hkm, upd_other _ _ hkm]
          exact nrm.axes k hk1 hk'
    · rw [if_neg h2]
      constructor
      · intro k hk
        show 1 ≤ upd res.shape (res.ndim + 1) (view.shape i) k
        by_cases hkm : k = res.ndim + 1
        · subst hkm; rw [upd_same]; exact hi
        · rw [upd_other _ _ hkm]
          exact nrm.pos k (by have : k ≤ res.ndim + 1 := hk; omega)
      · intro k hk1 hk
        show upd res.shape (res.ndim + 1) (view.shape i) k ≠ 1 ∧
          upd res.shape (res.ndim + 1) (view.shape i) k *
            upd res.stride (res.ndim + 1) (view.stride i) k ≠
            upd res.stride (res.ndim + 1) (view.stride i) (k - 1)
        have hk' : k ≤ res.ndim + 1 := hk
        have hpred : k - 1 ≠ res.ndim + 1 := by omega
        rw [upd_other _ _ hpred]
        by_cases hkm : k = res.ndim + 1
        · subst hkm
          rw [upd_same, upd_same]
          exact ⟨h1, by simpa using h2⟩
        · rw [upd_other _ _ hkm, upd_other _ _ hkm]
          exact nrm.axes k hk1 (by omega)

theorem simplify_loop_normal (view : bh_view) (n : Nat) (h : ∀ k, k ≤ n → 1 ≤ view.shape k) :
    SimplifyNormal (simplify_loop view n) := by
  induction n with
  | zero => exact simplify_init_normal view (h 0 (Nat.le_refl 0))
  | succ m ih =>
    rw [simplify_loop_succ]
    exact simplify_step_normal (ih (fun k hk => h k (Nat.le_succ_of_le hk)))
      (h (m + 1) (Nat.le_refl _))

/-- On a view whose axes `1..m` are neither of size 1 nor mergeable with their predecessor,
the loop of `bh_view_simplify` copies the axes `0..p` one by one, for every `p ≤ m`. -/
theorem simplify_loop_copies (r : bh_view) (m : Nat)
    (hr : ∀ k, 1 ≤ k → k ≤ m → r.shape k ≠ 1 ∧ r.shape k * r.stride k ≠ r.stride (k - 1))
    (p : Nat) (hp : p ≤ m) :
    (simplify_loop r p).ndim = p ∧ (simplify_loop r p).base = r.base ∧
    (simplify_loop r p).start = r.start ∧
    ∀ k, k ≤ p → (simplify_loop r p).shape k = r.shape k ∧
      (simplify_loop r p).stride k = r.stride k := by
  induction p with
  | zero =>
    refine ⟨rfl, rfl, rfl, ?_⟩
    intro k hk
    have hk0 : k = 0 := Nat.le_zero.mp hk
    subst hk0
    simp [simplify_loop, simplify_init, upd]
  | succ q ih =>
    obtain ⟨hnd, hb, hs, hax⟩ := ih (Nat.le_of_succ_le hp)
    obtain ⟨hne1, hnm⟩ := hr (q + 1) (by omega) hp
    have hstr : (simplify_loop r q).stride (simplify_loop r q).ndim = r.stride q := by
      rw [hnd]; exact (hax q (Nat.le_refl _)).2
    have hnm' : ¬ r.shape (q + 1) * r.stride (q + 1)
        = (simplify_loop r q).stride (simplify_loop r q).ndim := by
      rw [hstr]; simpa using hnm
    rw [simplify_loop_succ]
    unfold simplify_step
    rw [if_neg hne1, if_neg hnm']
    refine ⟨by simp [hnd], hb, hs, ?_⟩
    intro k hk
    show upd (simplify_loop r q).shape ((simplify_loop r q).ndim + 1) (r.shape (q + 1)) k
        = r.shape k ∧
      upd (simplify_loop r q).stride ((simplify_loop r q).ndim + 1) (r.stride (q + 1)) k
        = r.stride k
    rw [hnd]
    by_cases hkq : k = q + 1
    · subst hkq
      rw [upd_same, upd_same]
      exact ⟨rfl, rfl⟩
    · rw [upd_other _ _ hkq, upd_other _ _ hkq]
      exact hax k (by omega)

/-- Claim C3. For every view `v` with `ndim ≥ 1` and every `shape[i] ≥ 1`, simplifying the
simplified view changes nothing: `bh_view_simplify(bh_view_simplify(v))` has the same base,
start and ndim as `bh_view_simplify(v)` and the same shape and stride on every axis below
ndim. -/
theorem bh_view_simplify_idempotent (v : bh_view) (hnd : 1 ≤ v.ndim)
    (hshape : ∀ k, k < v.ndim → 1 ≤ v.shape k) :
    (bh_view_simplify (bh_view_simplify v)).base = (bh_view_simplify v).base ∧
    (bh_view_simplify (bh_view_simplify v)).start = (bh_view_simplify v).start ∧
    (bh_view_simplify (bh_view_simplify v)).ndim = (bh_view_simplify v).ndim ∧
    ∀ k, k < (bh_view_simplify v).ndim →
      (bh_view_simplify (bh_view_simplify v)).shape k = (bh_view_simplify v).shape k ∧
      (bh_view_simplify (bh_view_simplify v)).stride k = (bh_view_simplify v).stride k := by
  have nrm := simplify_loop_normal v (v.ndim - 1) (fun k hk => hshape k (by omega))
  rw [bh_view_simplify_eq v]
  generalize simplify_loop v (v.ndim - 1) = res at nrm
  by_cases hlast : res.shape res.ndim > 1
  · have hfin : simplify_finish res = { res with ndim := res.ndim + 1 } := by
      unfold simplify_finish; rw [if_pos hlast]
    rw [hfin, bh_view_simplify_eq]
    obtain ⟨hn, hb, hs, hax⟩ :=
      simplify_loop_copies { res with ndim := res.ndim + 1 } res.ndim nrm.axes res.ndim
        (Nat.le_refl _)
    show (simplify_finish (simplify_loop { res with ndim := res.ndim + 1 } (res.ndim + 1 - 1))).base
        = res.base ∧ _
    rw [Nat.add_sub_cancel]
    generalize simplify_loop { res with ndim := res.ndim + 1 } res.ndim = l at hn hb hs hax
    have hl : l.shape l.ndim > 1 := by
      rw [hn, (hax res.ndim (Nat.le_refl _)).1]; exact hlast
    unfold simplify_finish
    rw [if_pos hl]
    refine ⟨hb, hs, by simp [hn], ?_⟩
    intro k hk
    exact hax k (Nat.lt_succ_iff.mp hk)
  · have hfin : simplify_finish res = res := by
      unfold simplify_finish; rw [if_neg hlast]
    have hm : res.ndim = 0 := by
      by_contra hne
      have h1 := nrm.pos res.ndim (Nat.le_refl _)
      have h2 := (nrm.axes res.ndim (Nat.one_le_iff_ne_zero.mpr hne) (Nat.le_refl _)).1
      omega
    rw [hfin, bh_view_simplify_eq, hm]
    have hl : ¬ (simplify_loop res (0 - 1)).shape (simplify_loop res (0 - 1)).ndim > 1 := by
      have : (simplify_loop res (0 - 1)) = simplify_init res := rfl
      rw [this]
      simp only [simplify_init, upd, if_true]
      rw [hm] at hlast
      exact hlast
    unfold simplify_finish
    rw [if_neg hl]
    refine ⟨rfl, rfl, rfl, ?_⟩
    intro k hk
    exact absurd hk (Nat.not_lt_zero k)

theorem bh_view_simplify_idempotent_witness :
    1 ≤ (view1413 100 10 5 1).ndim ∧
    (∀ k, k < (view1413 100 10 5 1).ndim → 1 ≤ (view1413 100 10 5 1).shape k) ∧
    (bh_view_simplify (bh_view_simplify (view1413 100 10 5 1))).ndim
      = (bh_view_simplify (view1413 100 10 5 1)).ndim ∧
    ∀ k, k < (bh_view_simplify (view1413 100 10 5 1)).ndim →
      (bh_view_simplify (bh_view_simplify (view1413 100 10 5 1))).shape k
        = (bh_view_simplify (view1413 100 10 5 1)).shape k ∧
      (bh_view_simplify (bh_view_simplify (view1413 100 10 5 1))).stride k
        = (bh_view_simplify (view1413 100 10 5 1)).stride k :=
  ⟨by decide, by decide,
    (bh_view_simplify_idempotent (view1413 100 10 5 1) (by decide) (by decide)).2.2⟩

/-! ## `gcd` -/

theorem toInt32_of_range {x : Int} (h0 : 0 ≤ x) (h1 : x < 2 ^ 31) : toInt32 x = x := by
  unfold toInt32
  rw [Int.emod_eq_of_lt (by omega) (by omega)]
  omega

theorem natAbs_tmod_lt (b c : Int) (hc : c ≠ 0) : (b.tmod c).natAbs < c.natAbs := by
  rcases b with m | m <;> rcases c with n | n
  · have hn : 0 < n := Nat.pos_of_ne_zero (fun h => hc (by simp [h]))
    simpa [Int.tmod] using Nat.mod_lt m hn
  · simpa [Int.tmod] using Nat.mod_lt m (Nat.succ_pos n)
  · have hn : 0 < n := Nat.pos_of_ne_zero (fun h => hc (by simp [h]))
    simpa [Int.tmod] using Nat.mod_lt (m + 1) hn
  · simpa [Int.tmod] using Nat.mod_lt (m + 1) (Nat.succ_pos n)

/-- The iteration bound of `gcd_loop` is never the reason it stops: any two bounds above
`|c|` give the same result. -/
theorem gcd_loop_fuel (f f' : Nat) (b c : Int) (h : c.natAbs < f) (h' : c.natAbs < f') :
    gcd_loop f b c = gcd_loop f' b c := by
  induction f generalizing f' b c with
  | zero => omega
  | succ n ih =>
    cases f' with
    | zero => omega
    | succ n' =>
      simp only [gcd_loop]
      by_cases hc : c = 0
      · simp [hc]
      · rw [if_neg hc, if_neg hc]
        have hlt := natAbs_tmod_lt b c hc
        exact ih n' c (b.tmod c) (by omega) (by omega)

/-- The bound `|b|` that `gcd` passes is above `|a % b|`, so `gcd` computes the result of the
unbounded loop. -/
theorem gcd_fuel_suffices (a b : Int) (hb : b ≠ 0) : (a.tmod b).natAbs < b.natAbs :=
  natAbs_tmod_lt a b hb

theorem gcd_self {g : Int} (hg : g ≠ 0) : gcd g g = g := by
  unfold gcd
  rw [if_neg hg, Int.tmod_self]
  obtain ⟨n, hn⟩ : ∃ n, g.natAbs = n + 1 :=
    Nat.exists_eq_succ_of_ne_zero (Int.natAbs_ne_zero.mpr hg)
  rw [hn]
  simp [gcd_loop]

theorem tmod_ne_of_emod_ne {x y g : Int} (h : x % g ≠ y % g) : x.tmod g ≠ y.tmod g := by
  intro ht
  apply h
  rw [Int.tmod_def, Int.tmod_def] at ht
  have hx : x = y + g * (x.tdiv g - y.tdiv g) := by linear_combination ht
  rw [hx, Int.add_mul_emod_self_left]

/-! ## `bh_view_disjoint` and `bh_instr_dependency` -/

theorem bh_view_disjoint_constant_left (a b : bh_view) (h : bh_is_constant a = true) :
    bh_view_disjoint a b = true := by
  simp [bh_view_disjoint, h]

theorem bh_view_disjoint_constant_right (a b : bh_view) (h : bh_is_constant b = true) :
    bh_view_disjoint a b = true := by
  simp [bh_view_disjoint, h]

/-- Two 1-D views on one base with the same stride `g`, `1 < g < 2^31`, whose starts differ
modulo `g` are reported disjoint. -/
theorem bh_view_disjoint_of_start_mod (a b : bh_view) (g : Int) (hbase : a.base = b.base)
    (ha : a.ndim = 1) (hb : b.ndim = 1) (hsa : a.stride 0 = g) (hsb : b.stride 0 = g)
    (hg : 1 < g) (hg32 : g < 2 ^ 31) (hmod : a.start % g ≠ b.start % g) :
    bh_view_disjoint a b = true := by
  unfold bh_view_disjoint
  by_cases hc : (bh_is_constant a || bh_is_constant b) = true
  · rw [if_pos hc]
  · rw [if_neg hc, if_neg (by simpa using hbase), if_neg (by simp [ha, hb]), ha]
    have hg0 : g ≠ 0 := by omega
    have hgcd : gcd (toInt32 (a.stride 0)) (toInt32 (b.stride 0)) = g := by
      rw [hsa, hsb, toInt32_of_range (by omega) hg32, gcd_self hg0]
    simp only [disjoint_loop, hgcd, if_neg hg0]
    split
    · rfl
    · simp only [decide_eq_true_eq]
      exact ⟨hg, tmod_ne_of_emod_ne hmod⟩

/-- Claim C5 (as amended). For 1-D views `a` and `b` on the same base with the same stride `g`,
`1 < g < 2^31`, whose starts differ modulo `g`, `bh_view_disjoint(a, b)` returns true, and
`bh_instr_dependency` of two instructions whose outputs are `a` and `b` and whose remaining
operands are constants returns false. -/
theorem bh_view_disjoint_same_stride (a b : bh_view) (g : Int) (x y : bh_instruction)
    (bh_operands : Nat → Nat) (hbase : a.base = b.base)
    (ha : a.ndim = 1) (hb : b.ndim = 1) (hsa : a.stride 0 = g) (hsb : b.stride 0 = g)
    (hg : 1 < g) (hg32 : g < 2 ^ 31) (hmod : a.start % g ≠ b.start % g)
    (hx : x.operand 0 = a) (hy : y.operand 0 = b)
    (hxc : ∀ i, 1 ≤ i → bh_is_constant (x.operand i) = true)
    (hyc : ∀ i, 1 ≤ i → bh_is_constant (y.operand i) = true) :
    bh_view_disjoint a b = true ∧ bh_instr_dependency bh_operands x y = false := by
  have hab := bh_view_disjoint_of_start_mod a b g hbase ha hb hsa hsb hg hg32 hmod
  have hba := bh_view_disjoint_of_start_mod b a g hbase.symm hb ha hsb hsa hg hg32
    (fun h => hmod h.symm)
  refine ⟨hab, ?_⟩
  unfold bh_instr_dependency instr_dependency_on
  rw [Bool.or_eq_false_iff]
  constructor
  · rw [List.any_eq_false]
    intro i _
    cases i with
    | zero => rw [hx, hy]; simp [hba]
    | succ n => simp [bh_view_disjoint_constant_right _ _ (hxc (n + 1) (by omega))]
  · rw [List.any_eq_false]
    intro i _
    cases i with
    | zero => rw [hx, hy]; simp [hab]
    | succ n => simp [bh_view_disjoint_constant_right _ _ (hyc (n + 1) (by omega))]

theorem bh_view_disjoint_same_stride_witness :
    evens.base = odds.base ∧ evens.stride 0 = 2 ∧ odds.stride 0 = 2 ∧
    evens.start % 2 ≠ odds.start % 2 ∧
    bh_view_disjoint evens odds = true ∧
    bh_instr_dependency (fun _ => 2) (write_to evens) (write_to odds) = false :=
  ⟨rfl, rfl, rfl, by decide,
    bh_view_disjoint_same_stride evens odds 2 (write_to evens) (write_to odds) (fun _ => 2)
      rfl rfl rfl rfl rfl (by decide) (by decide) (by decide) rfl rfl
      (fun i hi => by cases i with
        | zero => omega
        | succ n => rfl)
      (fun i hi => by cases i with
        | zero => omega
        | succ n => rfl)⟩

/-- Claim C5 (counterexample). Two 1-D views on one base with the same stride `g = 2^32 + 1 > 1`
whose starts 0 and 1 differ modulo `g`: `bh_view_disjoint` narrows the strides to `int`,
computes with stride 1 and returns false. -/
theorem bh_view_disjoint_wide_stride :
    wide0.base = wide1.base ∧ wide0.ndim = 1 ∧ wide1.ndim = 1 ∧
    wide0.stride 0 = 2 ^ 32 + 1 ∧ wide1.stride 0 = 2 ^ 32 + 1 ∧ (1 : Int) < 2 ^ 32 + 1 ∧
    wide0.start % (2 ^ 32 + 1) ≠ wide1.start % (2 ^ 32 + 1) ∧
    bh_view_disjoint wide0 wide1 = false := by
  decide

/-- Claim C1 (failing input). The views `base[0:2, 0::2]` and `base[1:3, 0::2]` of a 3×3 base
share the base, are not constants, have every shape entry at least 1 and both address
element 3 (index `[1,0]` of the first, `[0,0]` of the second); `bh_view_disjoint` returns
true on them. -/
theorem bh_view_disjoint_true_on_overlap :
    rows01.base = rows12.base ∧ bh_is_constant rows01 = false ∧ bh_is_constant rows12 = false ∧
    (∀ k, k < rows01.ndim → 1 ≤ rows01.shape k) ∧ (∀ k, k < rows12.ndim → 1 ≤ rows12.shape k) ∧
    index_in_shape rows01 [1, 0] ∧ index_in_shape rows12 [0, 0] ∧
    index_offset rows01 [1, 0] = index_offset rows12 [0, 0] ∧
    bh_view_disjoint rows01 rows12 = true := by
  refine ⟨rfl, rfl, rfl, by decide, by decide, ⟨rfl, by decide⟩, ⟨rfl, by decide⟩, by decide,
    by decide⟩

/-- Claim C4. For all instructions `a` and `b`, `bh_instr_dependency(a, b)` equals
`bh_instr_dependency(b, a)`; the same holds with any function in the place of
`bh_view_disjoint`, so it does not depend on what `bh_view_disjoint` returns on the ordered
pairs of operand views. -/
theorem bh_instr_dependency_symmetric (bh_operands : Nat → Nat) (a b : bh_instruction) :
    bh_instr_dependency bh_operands a b = bh_instr_dependency bh_operands b a ∧
    ∀ disjoint : bh_view → bh_view → Bool,
      instr_dependency_on disjoint bh_operands a b
        = instr_dependency_on disjoint bh_operands b a := by
  refine ⟨?_, fun disjoint => ?_⟩
  · unfold bh_instr_dependency instr_dependency_on
    exact Bool.or_comm _ _
  · unfold instr_dependency_on
    exact Bool.or_comm _ _

/-! ## Concrete results of `bh_view_simplify` -/

/-- Claim C6 (counterexample). The contiguous view of shape `[1,4,1,3]` (strides `[12,3,3,1]`,
unit inner stride) simplifies to the 1-D view of shape `[12]`, not to `[4,3]`. -/
theorem bh_view_simplify_contiguous_1413 :
    (view1413 12 3 3 1).ndim = 4 ∧ (view1413 12 3 3 1).shape 0 = 1 ∧
    (view1413 12 3 3 1).shape 1 = 4 ∧ (view1413 12 3 3 1).shape 2 = 1 ∧
    (view1413 12 3 3 1).shape 3 = 3 ∧ (view1413 12 3 3 1).stride 3 = 1 ∧
    (bh_view_simplify (view1413 12 3 3 1)).ndim = 1 ∧
    (bh_view_simplify (view1413 12 3 3 1)).shape 0 = 12 ∧
    ¬ ((bh_view_simplify (view1413 12 3 3 1)).ndim = 2 ∧
       (bh_view_simplify (view1413 12 3 3 1)).shape 0 = 4 ∧
       (bh_view_simplify (view1413 12 3 3 1)).shape 1 = 3) := by
  decide

/-- Claim C6 (as amended). For every view `v` with shape `[1,4,1,3]` and unit inner stride
whose leading axis is absorbed by the merge rule (`stride[0] = 4*stride[1]`):
`bh_view_simplify(v)` has ndim 2 and shape `[4,3]` when `stride[1] ≠ 3`, and ndim 1 and
shape `[12]` when `stride[1] = 3` (the contiguous case). -/
theorem bh_view_simplify_1413 (v : bh_view) (hnd : v.ndim = 4) (h0 : v.shape 0 = 1)
    (h1 : v.shape 1 = 4) (h2 : v.shape 2 = 1) (h3 : v.shape 3 = 3) (hs3 : v.stride 3 = 1)
    (hs0 : v.stride 0 = 4 * v.stride 1) :
    (v.stride 1 ≠ 3 → (bh_view_simplify v).ndim = 2 ∧ (bh_view_simplify v).shape 0 = 4 ∧
      (bh_view_simplify v).shape 1 = 3) ∧
    (v.stride 1 = 3 → (bh_view_simplify v).ndim = 1 ∧ (bh_view_simplify v).shape 0 = 12) := by
  have hr : List.range' 1 (v.ndim - 1) = [1, 2, 3] := by rw [hnd]; rfl
  constructor
  · intro hne
    have hne' : ¬ (3 : Int) = v.stride 1 := fun h => hne h.symm
    simp [bh_view_simplify, hr, List.foldl, simplify_step, simplify_init, simplify_finish, upd,
      h0, h1, h2, h3, hs3, hs0, hne']
  · intro he
    simp [bh_view_simplify, hr, List.foldl, simplify_step, simplify_init, simplify_finish, upd,
      h0, h1, h2, h3, hs3, hs0, he]

theorem bh_view_simplify_1413_witness :
    (view1413 20 5 7 1).stride 1 ≠ 3 ∧ (bh_view_simplify (view1413 20 5 7 1)).ndim = 2 ∧
    (bh_view_simplify (view1413 20 5 7 1)).shape 0 = 4 ∧
    (bh_view_simplify (view1413 20 5 7 1)).shape 1 = 3 :=
  ⟨by decide, (bh_view_simplify_1413 (view1413 20 5 7 1) rfl rfl rfl rfl rfl rfl
    (by decide)).1 (by decide)⟩

/-- Claim C7 (failing input). The view `base[0:1, 0:2]` of a base with 4 columns has
`ndim = 2 ≥ 1` and every shape entry at least 1; `bh_view_simplify` returns it with
`ndim = 2` and the leading axis of shape 1 still in place. -/
theorem bh_view_simplify_keeps_leading_unit_axis :
    1 ≤ first_row.ndim ∧ (∀ k, k < first_row.ndim → 1 ≤ first_row.shape k) ∧
    (bh_view_simplify first_row).ndim = 2 ∧ (bh_view_simplify first_row).shape 0 = 1 ∧
    (bh_view_simplify first_row).shape 1 = 2 ∧
    ¬ (∀ j, j < (bh_view_simplify first_row).ndim → (bh_view_simplify first_row).shape j > 1) := by
  decide

/-- Claim C8 (failing input). For the contiguous 2×3 view and the target shape `[5]`,
`bh_view_simplify(view, shape)` returns without throwing, and the returned view has
shape `[6]`, which is not the target shape. -/
theorem bh_view_simplify_to_misses_target :
    ∃ res, bh_view_simplify_to contiguous23 [5] = .ok res ∧ res.ndim = 1 ∧ res.shape 0 = 6 ∧
      res.shape 0 ≠ ([5] : List Int).getD 0 0 :=
  ⟨_, rfl, by decide, by decide, by decide⟩

/-- Every view that `bh_view_simplify(view, shape)` returns has as many dimensions as the
target shape. -/
theorem bh_view_simplify_to_ndim (view : bh_view) (shape : List Int) (res : bh_view)
    (h : bh_view_simplify_to view shape = .ok res) : res.ndim = shape.length := by
  unfold bh_view_simplify_to at h
  split at h
  · cases h
  · split at h
    · cases h
    · rename_i r _
      by_cases hn : (simplify_finish r).ndim ≠ shape.length
      · simp [hn] at h
      · simp only [hn, if_false] at h
        cases h
        exact not_not.mp hn

/-! ## `bh_view_aligned` -/

/-- Claim C9 (counterexample). A constant and a non-constant view: `bh_view_aligned` returns
true although the two are not both constants and their simplified views are not equal. -/
theorem bh_view_aligned_one_constant :
    bh_view_aligned const_view evens = true ∧
    ¬ ((bh_is_constant const_view = true ∧ bh_is_constant evens = true) ∨
       bh_view_eq (bh_view_simplify const_view) (bh_view_simplify evens) = true) := by
  decide

/-- Claim C9 (as amended). For all views `a` and `b`, `bh_view_aligned(a, b)` returns true if
and only if at least one of `a`, `b` is a constant or
`bh_view_simplify(a) == bh_view_simplify(b)` (base identity included). -/
theorem bh_view_aligned_iff (a b : bh_view) :
    bh_view_aligned a b = true ↔
      (bh_is_constant a = true ∨ bh_is_constant b = true ∨
       bh_view_eq (bh_view_simplify a) (bh_view_simplify b) = true) := by
  unfold bh_view_aligned
  by_cases hc : (bh_is_constant a || bh_is_constant b) = true
  · rw [if_pos hc]
    rw [Bool.or_eq_true] at hc
    constructor
    · intro _
      rcases hc with h | h
      · exact Or.inl h
      · exact Or.inr (Or.inl h)
    · intro _; rfl
  · rw [if_neg hc]
    rw [Bool.or_eq_true, not_or] at hc
    constructor
    · intro h; exact Or.inr (Or.inr h)
    · rintro (h | h | h)
      · exact absurd h hc.1
      · exact absurd h hc.2
      · exact h

/-! ## `collapse_redundant_axes` -/

theorem set_operand_opcode (instr : bh_instruction) (i : Nat) (view : bh_view) :
    (set_operand instr i view).opcode = instr.opcode := rfl

theorem set_operand_other (instr : bh_instruction) {i k : Nat} (view : bh_view) (h : k ≠ i) :
    (set_operand instr i view).operand k = instr.operand k := by
  simp [set_operand, h]

/-- When every operand in `is` passes the consistency test, the operand loop returns the
instruction with exactly the non-constant operands of `is` merged. -/
theorem collapse_operands_ok (ext : Externals) (sa axis : Int) (is : List Nat)
    (instr : bh_instruction) (hnd : is.Nodup)
    (h : ∀ i, i ∈ is → bh_is_constant (instr.operand i) = true ∨
      (instr.operand i).shape (operand_axis ext instr.opcode sa axis i + 1).toNat *
        (instr.operand i).stride (operand_axis ext instr.opcode sa axis i + 1).toNat
      = (instr.operand i).stride (operand_axis ext instr.opcode sa axis i).toNat) :
    collapse_operands ext sa axis is instr =
      some { instr with
        operand := fun k =>
          if k ∈ is ∧ bh_is_constant (instr.operand k) = false then
            merge_axes (instr.operand k) (operand_axis ext instr.opcode sa axis k)
          else instr.operand k } := by
  induction is generalizing instr with
  | nil => simp [collapse_operands]
  | cons i is ih =>
    have hi_notin : i ∉ is := (List.nodup_cons.mp hnd).1
    have hnd' : is.Nodup := (List.nodup_cons.mp hnd).2
    unfold collapse_operands
    by_cases hc : bh_is_constant (instr.operand i) = true
    · rw [if_pos hc, ih instr hnd' (fun j hj => h j (List.mem_cons_of_mem _ hj))]
      congr 2
      funext k
      by_cases hk : k = i
      · subst hk
        simp [hc, hi_notin]
      · simp [hk]
    · rw [if_neg hc]
      have hpass := (h i (List.mem_cons_self _ _)).resolve_left hc
      simp only [ne_eq, hpass, not_true_eq_false, if_false]
      rw [ih _ hnd' ?_]
      · congr 1
        show bh_instruction.mk _ _ _ = bh_instruction.mk _ _ _
        congr 1
        funext k
        by_cases hk : k = i
        · subst hk
          simp [set_operand, hi_notin, hc]
        · have hk' : (set_operand instr i (merge_axes (instr.operand i)
              (operand_axis ext instr.opcode sa axis i))).operand k = instr.operand k :=
            set_operand_other _ _ hk
          rw [hk']
          simp [set_operand_opcode, hk]
      · intro j hj
        have hji : j ≠ i := fun e => hi_notin (e ▸ hj)
        rw [set_operand_other _ _ hji, set_operand_opcode]
        exact h j (List.mem_cons_of_mem _ hj)

theorem collapse_instr_ok (ext : Externals) (axis : Int) (instr : bh_instruction)
    (h : consistent_instr ext axis instr = true) :
    collapse_instr ext instr axis = some (merged_instr ext axis instr) := by
  unfold consistent_instr at h
  rw [Bool.and_eq_true, decide_eq_true_eq, List.all_eq_true] at h
  obtain ⟨hsa, hops⟩ := h
  have hno : ¬ (ext.sweep_axis instr = axis ∨ ext.sweep_axis instr = axis + 1) := by
    rintro (e | e)
    · exact hsa.1 e
    · exact hsa.2 e
  unfold collapse_instr
  simp only [hno, if_false]
  rw [collapse_operands_ok ext _ axis _ instr (List.nodup_range _)]
  · simp only [merged_instr, List.mem_range]
  · intro i hi
    have := hops i hi
    unfold consistent_operand at this
    rw [Bool.or_eq_true, decide_eq_true_eq] at this
    exact this

mutual
theorem collapse_instr_axes_block_ok (ext : Externals) (axis : Int) :
    ∀ b : Block, consistent_block ext axis b = true →
      collapse_instr_axes_block ext axis b = (true, merged_block ext axis b)
  | .instr i, h => by
    rw [consistent_block] at h
    rw [collapse_instr_axes_block, collapse_instr_ok ext axis i h, merged_block]
  | .loop l, h => by
    rw [consistent_block] at h
    rw [collapse_instr_axes_block, collapse_instr_axes_loop_ok ext axis l h, merged_block]
theorem collapse_instr_axes_loop_ok (ext : Externals) (axis : Int) :
    ∀ l : LoopB, consistent_loop ext axis l = true →
      collapse_instr_axes_loop ext axis l = (true, merged_loop ext axis l)
  | .mk rank size block_list sweeps, h => by
    rw [consistent_loop] at h
    rw [collapse_instr_axes_loop, collapse_instr_axes_list_ok ext axis block_list h, merged_loop]
    simp
theorem collapse_instr_axes_list_ok (ext : Externals) (axis : Int) :
    ∀ bs : List Block, consistent_list ext axis bs = true →
      collapse_instr_axes_list ext axis bs = (true, merged_list ext axis bs)
  | [], _ => by
    rw [collapse_instr_axes_list, merged_list]
  | b :: bs, h => by
    rw [consistent_list, Bool.and_eq_true] at h
    rw [collapse_instr_axes_list, collapse_instr_axes_block_ok ext axis b h.1,
      collapse_instr_axes_list_ok ext axis bs h.2, merged_list]
    simp
end

/-- The vector `ret` of `collapse_redundant_axes` holds, position by position, what the
second loop pushes for the blocks of the parameter `block_list`. -/
theorem collapse_redundant_axes_eq_map (ext : Externals) (block_list : List Block) :
    collapse_redundant_axes ext block_list = block_list.map (collapse_push ext) := by
  unfold collapse_redundant_axes
  induction block_list with
  | nil => rw [collapse_redundant_axes_lists]; rfl
  | cons b bs ih =>
    rw [collapse_redundant_axes_lists, List.map_cons]
    show (collapse_redundant_axes_block ext b).2 :: (collapse_redundant_axes_lists ext bs).2 = _
    rw [ih]
    cases b with
    | instr i => rw [collapse_redundant_axes_block]
    | loop l => rw [collapse_redundant_axes_block]

/-- Claim C10 (as amended). For every loop `L` at the top level of the input (at position `k`)
that has no sweeps and exactly one child `C`, where `C` is a sweep-free loop, no instruction
under `C` sweeps axis `r` or `r+1` (`r = L.rank`) and every non-constant operand view of
every instruction under `C` passes the consistency test of the code
(`shape[a+1]*stride[a+1] == stride[a]` at `a = r`, or `a = r-1` for the output of a reduction
that sweeps an axis below `r`), `collapse_redundant_axes` outputs in `L`'s place one loop with
rank `L.rank`, size `L.size * C.size` and, as its block list, `C`'s block list after the
collapse step: the two axes merged in every non-constant operand view, axis `r+1` removed
from every instruction and the rank of every nested loop lowered by one. -/
theorem collapse_redundant_axes_collapses (ext : Externals) (block_list : List Block) (k : Nat)
    (r size : Int) (C : LoopB)
    (hL : block_list[k]? = some (.loop (.mk r size [.loop C] [])))
    (hC : C.sweeps = [])
    (hcons : consistent_list ext r C.block_list = true) :
    (collapse_redundant_axes ext block_list).length = block_list.length ∧
    (collapse_redundant_axes ext block_list)[k]? =
      some (.loop (.mk r (size * C.size) (merged_list ext r C.block_list)
        (ext.sweeps_of r (merged_list ext r C.block_list)))) := by
  rw [collapse_redundant_axes_eq_map]
  refine ⟨List.length_map _ _, ?_⟩
  rw [List.getElem?_map, hL, Option.map_some']
  congr 1
  cases C with
  | mk crank csize cblocks csweeps =>
    have hC' : csweeps = [] := hC
    have hcons' : consistent_list ext r cblocks = true := hcons
    subst hC'
    simp [collapse_push, collapse_loop_with_child, LoopB.sweeps, LoopB.block_list,
      LoopB.rank, LoopB.size, collapse_instr_axes,
      collapse_instr_axes_list_ok ext r cblocks hcons']

theorem collapse_redundant_axes_collapses_witness :
    ([Block.loop outer23])[0]? = some (.loop (.mk 0 2 [.loop inner23] [])) ∧
    inner23.sweeps = [] ∧ consistent_list elementwise 0 inner23.block_list = true ∧
    (collapse_redundant_axes elementwise [.loop outer23]).length = 1 ∧
    (collapse_redundant_axes elementwise [.loop outer23])[0]? =
      some (.loop (.mk 0 (2 * inner23.size) (merged_list elementwise 0 inner23.block_list)
        (elementwise.sweeps_of 0 (merged_list elementwise 0 inner23.block_list)))) :=
  ⟨rfl, rfl, by decide,
    collapse_redundant_axes_collapses elementwise [.loop outer23] 0 0 2 inner23 rfl rfl
      (by decide)⟩

/-- Claim C10 (counterexample). The loop `outer23` (rank 0, size 2, no sweeps) has the single
child `inner23` (rank 1, size 3, no sweeps), whose only instruction has two contiguous 2×3
operand views, both with `shape[1]*stride[1] == stride[0]`.  `collapse_redundant_axes`
outputs one loop of rank 0 and size 6, but its block list is not the block list of
`inner23`: the instruction in it has the 1-D operand views of shape `[6]`. -/
theorem collapse_redundant_axes_rewrites_instructions :
    outer23 = .mk 0 2 [.loop inner23] [] ∧ outer23.sweeps = [] ∧ inner23.sweeps = [] ∧
    inner23.block_list = [.instr copy23] ∧
    (∀ i, i < 2 → bh_is_constant (copy23.operand i) = false ∧
      (copy23.operand i).shape 1 * (copy23.operand i).stride 1 = (copy23.operand i).stride 0) ∧
    ∃ out instr, collapse_redundant_axes elementwise [.loop outer23] = [.loop out] ∧
      out.rank = 0 ∧ out.size = 6 ∧ out.block_list = [.instr instr] ∧
      (instr.operand 0).ndim = 1 ∧ (instr.operand 0).shape 0 = 6 ∧
      (copy23.operand 0).ndim = 2 ∧ out.block_list ≠ inner23.block_list := by
  refine ⟨rfl, rfl, rfl, rfl, by decide, _, _, rfl, rfl, rfl, rfl, rfl, rfl, rfl, ?_⟩
  intro h
  exact absurd (congrArg (fun bl => match bl with
    | Block.instr i :: _ => (i.operand 0).ndim
    | _ => 0) h) (by decide)

/-! ## `collapse_redundant_axes`: failed and nested collapses -/

/-- When the operand loop returns an instruction, every operand in `is` is a constant or
passes the consistency test. -/
theorem collapse_operands_some (ext : Externals) (sa axis : Int) (is : List Nat)
    (instr res : bh_instruction) (hnd : is.Nodup)
    (h : collapse_operands ext sa axis is instr = some res) :
    ∀ i, i ∈ is → bh_is_constant (instr.operand i) = true ∨
      (instr.operand i).shape (operand_axis ext instr.opcode sa axis i + 1).toNat *
        (instr.operand i).stride (operand_axis ext instr.opcode sa axis i + 1).toNat
      = (instr.operand i).stride (operand_axis ext instr.opcode sa axis i).toNat := by
  induction is generalizing instr with
  | nil => intro i hi; cases hi
  | cons j is ih =>
    have hj_notin : j ∉ is := (List.nodup_cons.mp hnd).1
    have hnd' : is.Nodup := (List.nodup_cons.mp hnd).2
    unfold collapse_operands at h
    by_cases hc : bh_is_constant (instr.operand j) = true
    · rw [if_pos hc] at h
      intro i hi
      rcases List.mem_cons.mp hi with e | hi'
      · subst e; exact Or.inl hc
      · exact ih instr hnd' h i hi'
    · rw [if_neg hc] at h
      by_cases hp : (instr.operand j).shape (operand_axis ext instr.opcode sa axis j + 1).toNat *
          (instr.operand j).stride (operand_axis ext instr.opcode sa axis j + 1).toNat
          = (instr.operand j).stride (operand_axis ext instr.opcode sa axis j).toNat
      · simp only [ne_eq, hp, not_true_eq_false, if_false] at h
        intro i hi
        rcases List.mem_cons.mp hi with e | hi'
        · subst e; exact Or.inr hp
        · have hij : i ≠ j := fun e => hj_notin (e ▸ hi')
          have := ih _ hnd' h i hi'
          rw [set_operand_other _ _ hij, set_operand_opcode] at this
          exact this
      · simp only [ne_eq, hp, not_false_eq_true, if_true] at h
        cases h

theorem collapse_instr_some (ext : Externals) (axis : Int) (instr res : bh_instruction)
    (h : collapse_instr ext instr axis = some res) : consistent_instr ext axis instr = true := by
  unfold collapse_instr at h
  by_cases hsa : ext.sweep_axis instr = axis ∨ ext.sweep_axis instr = axis + 1
  · simp only [hsa, if_true] at h
    cases h
  · simp only [hsa, if_false] at h
    unfold consistent_instr
    rw [Bool.and_eq_true, decide_eq_true_eq, List.all_eq_true]
    refine ⟨⟨fun e => hsa (Or.inl e), fun e => hsa (Or.inr e)⟩, ?_⟩
    intro i hi
    cases hco : collapse_operands ext (ext.sweep_axis instr) axis
        (List.range (ext.bh_noperands instr.opcode)) instr with
    | none => rw [hco] at h; cases h
    | some r =>
      have := collapse_operands_some ext _ axis _ instr r (List.nodup_range _) hco i hi
      unfold consistent_operand
      rw [Bool.or_eq_true, decide_eq_true_eq]
      exact this

mutual
theorem collapse_instr_axes_block_true (ext : Externals) (axis : Int) :
    ∀ b : Block, (collapse_instr_axes_block ext axis b).1 = true →
      consistent_block ext axis b = true
  | .instr i, h => by
    rw [consistent_block]
    rw [collapse_instr_axes_block] at h
    cases hc : collapse_instr ext i axis with
    | none => rw [hc] at h; cases h
    | some r => exact collapse_instr_some ext axis i r hc
  | .loop l, h => by
    rw [consistent_block]
    rw [collapse_instr_axes_block] at h
    exact collapse_instr_axes_loop_true ext axis l h
theorem collapse_instr_axes_loop_true (ext : Externals) (axis : Int) :
    ∀ l : LoopB, (collapse_instr_axes_loop ext axis l).1 = true →
      consistent_loop ext axis l = true
  | .mk rank size block_list sweeps, h => by
    rw [consistent_loop]
    rw [collapse_instr_axes_loop] at h
    by_cases hl : (collapse_instr_axes_list ext axis block_list).1 = true
    · exact collapse_instr_axes_list_true ext axis block_list hl
    · simp [hl] at h
theorem collapse_instr_axes_list_true (ext : Externals) (axis : Int) :
    ∀ bs : List Block, (collapse_instr_axes_list ext axis bs).1 = true →
      consistent_list ext axis bs = true
  | [], _ => by rw [consistent_list]
  | b :: bs, h => by
    rw [consistent_list, Bool.and_eq_true]
    rw [collapse_instr_axes_list] at h
    by_cases hb : (collapse_instr_axes_block ext axis b).1 = true
    · simp only [hb, if_true] at h
      exact ⟨collapse_instr_axes_block_true ext axis b hb,
        collapse_instr_axes_list_true ext axis bs h⟩
    · simp [hb] at h
end

mutual
theorem consistent_block_all (ext : Externals) (axis : Int) :
    ∀ b : Block, consistent_block ext axis b = true →
      ∀ instr, instr ∈ Block.getAllInstr b → consistent_instr ext axis instr = true
  | .instr i, h, instr, hm => by
    rw [consistent_block] at h
    rw [Block.getAllInstr, List.mem_singleton] at hm
    rw [hm]; exact h
  | .loop l, h, instr, hm => by
    rw [consistent_block] at h
    rw [Block.getAllInstr] at hm
    exact consistent_loop_all ext axis l h instr hm
theorem consistent_loop_all (ext : Externals) (axis : Int) :
    ∀ l : LoopB, consistent_loop ext axis l = true →
      ∀ instr, instr ∈ LoopB.getAllInstr l → consistent_instr ext axis instr = true
  | .mk rank size block_list sweeps, h, instr, hm => by
    rw [consistent_loop] at h
    rw [LoopB.getAllInstr] at hm
    exact consistent_list_all ext axis block_list h instr hm
theorem consistent_list_all (ext : Externals) (axis : Int) :
    ∀ bs : List Block, consistent_list ext axis bs = true →
      ∀ instr, instr ∈ getAllInstr_list bs → consistent_instr ext axis instr = true
  | [], _, instr, hm => by
    rw [getAllInstr_list] at hm
    cases hm
  | b :: bs, h, instr, hm => by
    rw [consistent_list, Bool.and_eq_true] at h
    rw [getAllInstr_list, List.mem_append] at hm
    rcases hm with hm | hm
    · exact consistent_block_all ext axis b h.1 instr hm
    · exact consistent_list_all ext axis bs h.2 instr hm
end

/-- A block whose collapse does not succeed is pushed onto `ret` as it stands in the
parameter `block_list`. -/
theorem collapse_push_of_inconsistent (ext : Externals) (L C : LoopB)
    (hL : L.block_list = [.loop C]) (h : consistent_list ext L.rank C.block_list ≠ true) :
    collapse_push ext (.loop L) = .loop L := by
  cases L with
  | mk rank size block_list sweeps =>
    cases C with
    | mk crank csize cblocks csweeps =>
      have hL' : block_list = [.loop (.mk crank csize cblocks csweeps)] := hL
      subst hL'
      have hfalse : (collapse_instr_axes_list ext rank cblocks).1 ≠ true :=
        fun ht => h (collapse_instr_axes_list_true ext rank cblocks ht)
      simp only [collapse_push, collapse_loop_with_child, LoopB.sweeps, LoopB.block_list,
        LoopB.rank, LoopB.size, collapse_instr_axes]
      by_cases h1 : sweeps.isEmpty = true ∧ [Block.loop (LoopB.mk crank csize cblocks csweeps)].length = 1
      · rw [if_pos h1]
        by_cases h2 : csweeps.isEmpty = true
        · simp [h2, hfalse]
        · simp [h2]
      · rw [if_neg h1]
        simp

/-- Claim C11 (as amended). If any non-constant operand view of any instruction under a candidate loop
`L` (a loop whose only child is the loop `C`) fails the consistency test of
`collapse_instr_axes`, `shape[a+1] * stride[a+1] == stride[a]` at the axis `a` that the code
tests for that operand (the rank `r` of `L`; `r - 1` for the output of a reduction sweeping
an axis below `r`), then `collapse_redundant_axes` outputs in the place of `L` the block
exactly as it was in the input: size, rank, block list, nested loop ranks and every
operand view of every instruction, also of those processed before the failing one. -/
theorem collapse_redundant_axes_keeps_failed (ext : Externals) (block_list : List Block)
    (k : Nat) (L C : LoopB) (instr : bh_instruction) (i : Nat)
    (hk : block_list[k]? = some (.loop L)) (hL : L.block_list = [.loop C])
    (hinstr : instr ∈ LoopB.getAllInstr C) (hi : i < ext.bh_noperands instr.opcode)
    (hnc : bh_is_constant (instr.operand i) = false)
    (hfail : (instr.operand i).shape
          (operand_axis ext instr.opcode (ext.sweep_axis instr) L.rank i + 1).toNat *
        (instr.operand i).stride
          (operand_axis ext instr.opcode (ext.sweep_axis instr) L.rank i + 1).toNat
      ≠ (instr.operand i).stride
          (operand_axis ext instr.opcode (ext.sweep_axis instr) L.rank i).toNat) :
    (collapse_redundant_axes ext block_list).length = block_list.length ∧
    (collapse_redundant_axes ext block_list)[k]? = some (.loop L) := by
  rw [collapse_redundant_axes_eq_map]
  refine ⟨List.length_map _ _, ?_⟩
  rw [List.getElem?_map, hk, Option.map_some']
  congr 1
  apply collapse_push_of_inconsistent ext L C hL
  intro hcons
  have hall : consistent_instr ext L.rank instr = true := by
    cases C with
    | mk crank csize cblocks csweeps =>
      exact consistent_list_all ext L.rank cblocks hcons instr hinstr
  unfold consistent_instr at hall
  rw [Bool.and_eq_true, List.all_eq_true] at hall
  have hop := hall.2 i (List.mem_range.mpr hi)
  unfold consistent_operand at hop
  rw [Bool.or_eq_true, decide_eq_true_eq] at hop
  rcases hop with hop | hop
  · rw [hnc] at hop; cases hop
  · exact hfail hop

theorem collapse_redundant_axes_keeps_failed_witness :
    copy23_padded ∈ LoopB.getAllInstr (.mk 1 3 [.instr copy23, .instr copy23_padded] []) ∧
    bh_is_constant (copy23_padded.operand 0) = false ∧
    (copy23_padded.operand 0).shape 1 * (copy23_padded.operand 0).stride 1
      ≠ (copy23_padded.operand 0).stride 0 ∧
    (collapse_redundant_axes elementwise [.loop outer23_padded]).length = 1 ∧
    (collapse_redundant_axes elementwise [.loop outer23_padded])[0]?
      = some (.loop outer23_padded) :=
  ⟨by simp [LoopB.getAllInstr, getAllInstr_list, Block.getAllInstr], rfl, by decide,
    collapse_redundant_axes_keeps_failed elementwise [.loop outer23_padded] 0 outer23_padded
      (.mk 1 3 [.instr copy23, .instr copy23_padded] []) copy23_padded 0 rfl rfl
      (by simp [LoopB.getAllInstr, getAllInstr_list, Block.getAllInstr]) (by decide) rfl
      (by decide)⟩

/-- Claim C11 (counterexample). The loop `loop_red` of rank `r = 1` has one child, a loop
without sweeps, under which the reduction `red2345` along axis 0 sits.  Its output operand
is not a constant and fails the test `shape[r+1] * stride[r+1] == stride[r]` at `r = 1`
(`5 * 1 ≠ 10`).  The code tests the output of a reduction that sweeps an axis below `r` at
axis `r - 1`, where it passes (`4 * 10 = 40`), and the input at axis `r`, where it passes
(`4 * 5 = 20`): `collapse_redundant_axes` outputs the collapsed loop of rank 1 and size
12, not the block as it was. -/
theorem collapse_redundant_axes_collapses_reduction :
    loop_red.rank = 1 ∧
    red2345 ∈ LoopB.getAllInstr (.mk 2 4 [.loop (.mk 3 5 [.instr red2345] [])] []) ∧
    bh_is_constant (red2345.operand 0) = false ∧
    (red2345.operand 0).shape 2 * (red2345.operand 0).stride 2
      ≠ (red2345.operand 0).stride 1 ∧
    (red2345.operand 0).shape 1 * (red2345.operand 0).stride 1
      = (red2345.operand 0).stride 0 ∧
    (red2345.operand 1).shape 2 * (red2345.operand 1).stride 2
      = (red2345.operand 1).stride 1 ∧
    (∃ out, collapse_redundant_axes reducing [.loop loop_red] = [.loop out] ∧
      out.rank = 1 ∧ out.size = 12 ∧ loop_red.size = 3 ∧
      ∃ inner, out.block_list = [.loop inner] ∧ inner.rank = 2 ∧ inner.size = 5) := by
  refine ⟨rfl, by simp [LoopB.getAllInstr, getAllInstr_list, Block.getAllInstr], rfl,
    by decide, by decide, by decide, ⟨_, rfl, rfl, rfl, rfl, _, rfl, rfl, rfl⟩⟩

/-! ## The collapse step on one view -/

/-- Merging two adjacent axes whose inner extent fills the outer stride, and renumbering
the axes after them, leaves the row-major addressing unchanged. -/
theorem elem_offset_merge (sh st sh' st' : Nat → Int) (r : Nat)
    (hlo : ∀ k, k < r → sh' k = sh k ∧ st' k = st k)
    (hr : sh' r = sh r * sh (r + 1)) (hsr : st' r = st (r + 1))
    (hhi : ∀ k, r < k → sh' k = sh (k + 1) ∧ st' k = st (k + 1))
    (hcons : sh (r + 1) * st (r + 1) = st r) (h0 : 0 < sh r) (h1 : 0 < sh (r + 1))
    (m : Nat) (i : Int) :
    elem_offset sh' st' (r + 1 + m) i = elem_offset sh st (r + 2 + m) i := by
  induction m generalizing i with
  | zero =>
    obtain ⟨d1, d2⟩ := ediv_emod_mul i (sh (r + 1)) (sh r) h1 h0
    show elem_offset sh' st' (r + 1) i = elem_offset sh st (r + 1 + 1) i
    simp only [elem_offset]
    rw [hr, hsr, elem_offset_congr hlo, d1, d2, ← hcons]
    ring
  | succ n ih =>
    have e1 : r + 1 + (n + 1) = (r + 1 + n) + 1 := by omega
    have e2 : r + 2 + (n + 1) = (r + 2 + n) + 1 := by omega
    have e3 : r + 1 + n + 1 = r + 2 + n := by omega
    obtain ⟨hs, ht⟩ := hhi (r + 1 + n) (by omega)
    rw [e1, e2, elem_offset, elem_offset, hs, ht, e3, ih]

theorem nelements_shape_merge (sh sh' : Nat → Int) (r : Nat)
    (hlo : ∀ k, k < r → sh' k = sh k) (hr : sh' r = sh r * sh (r + 1))
    (hhi : ∀ k, r < k → sh' k = sh (k + 1)) (m : Nat) :
    bh_nelements_shape (r + 1 + m) sh' = bh_nelements_shape (r + 2 + m) sh := by
  induction m with
  | zero =>
    show bh_nelements_shape (r + 1) sh' = bh_nelements_shape (r + 1 + 1) sh
    simp only [bh_nelements_shape]
    rw [hr, nelements_shape_congr hlo]
    ring
  | succ n ih =>
    have e1 : r + 1 + (n + 1) = (r + 1 + n) + 1 := by omega
    have e2 : r + 2 + (n + 1) = (r + 2 + n) + 1 := by omega
    have e3 : r + 1 + n + 1 = r + 2 + n := by omega
    rw [e1, e2, bh_nelements_shape, bh_nelements_shape, hhi (r + 1 + n) (by omega), e3, ih]

/-- Claim C12. For every view with `ndim > r+1`, every shape entry at least 1 and
`shape[r+1]*stride[r+1] == stride[r]`, the view produced by the collapse step
(`shape[r] := shape[r]*shape[r+1]`, `stride[r] := stride[r+1]`, axis `r+1` removed) has the
same total element count and maps every row-major linear index to the same element offset
as the original view. -/
theorem collapse_step_preserves_offsets (v : bh_view) (r : Nat) (hnd : r + 1 < v.ndim)
    (hshape : ∀ k, k < v.ndim → 1 ≤ v.shape k)
    (hcons : v.shape (r + 1) * v.stride (r + 1) = v.stride r) :
    bh_nelements (remove_axis_view (merge_axes v r) (r + 1)) = bh_nelements v ∧
    ∀ i : Int, 0 ≤ i → i < bh_nelements v →
      view_offset (remove_axis_view (merge_axes v r) (r + 1)) i = view_offset v i := by
  have hnd' : v.ndim = r + 2 + (v.ndim - (r + 2)) := by omega
  have hnd1 : v.ndim - 1 = r + 1 + (v.ndim - (r + 2)) := by omega
  have hr0 : 0 < v.shape r := by have := hshape r (by omega); omega
  have hr1 : 0 < v.shape (r + 1) := by have := hshape (r + 1) (by omega); omega
  have hlo : ∀ k, k < r →
      (remove_axis_view (merge_axes v r) (r + 1)).shape k = v.shape k ∧
      (remove_axis_view (merge_axes v r) (r + 1)).stride k = v.stride k := by
    intro k hk
    have h1 : k < r + 1 := by omega
    have h2 : k ≠ r := by omega
    simp [remove_axis_view, merge_axes, upd, h1, h2]
  have hrs : (remove_axis_view (merge_axes v r) (r + 1)).shape r = v.shape r * v.shape (r + 1) ∧
      (remove_axis_view (merge_axes v r) (r + 1)).stride r = v.stride (r + 1) := by
    simp [remove_axis_view, merge_axes, upd]
  have hhi : ∀ k, r < k →
      (remove_axis_view (merge_axes v r) (r + 1)).shape k = v.shape (k + 1) ∧
      (remove_axis_view (merge_axes v r) (r + 1)).stride k = v.stride (k + 1) := by
    intro k hk
    have h1 : ¬ k < r + 1 := by omega
    have h2 : k + 1 ≠ r := by omega
    simp [remove_axis_view, merge_axes, upd, h1, h2]
  constructor
  · show bh_nelements_shape (v.ndim - 1) _ = bh_nelements_shape v.ndim _
    rw [hnd1]
    conv_rhs => rw [hnd']
    exact nelements_shape_merge v.shape _ r (fun k hk => (hlo k hk).1) hrs.1
      (fun k hk => (hhi k hk).1) _
  · intro i _ _
    show v.start + elem_offset _ _ (v.ndim - 1) i = v.start + elem_offset _ _ v.ndim i
    rw [hnd1]
    conv_rhs => rw [hnd']
    rw [elem_offset_merge v.shape v.stride _ _ r hlo hrs.1 hrs.2 hhi hcons hr0 hr1]

theorem collapse_step_preserves_offsets_witness :
    0 + 1 < contiguous23.ndim ∧ (∀ k, k < contiguous23.ndim → 1 ≤ contiguous23.shape k) ∧
    contiguous23.shape 1 * contiguous23.stride 1 = contiguous23.stride 0 ∧
    bh_nelements (remove_axis_view (merge_axes contiguous23 (0 : Nat)) (0 + 1))
      = bh_nelements contiguous23 ∧
    ∀ i : Int, 0 ≤ i → i < bh_nelements contiguous23 →
      view_offset (remove_axis_view (merge_axes contiguous23 (0 : Nat)) (0 + 1)) i
        = view_offset contiguous23 i :=
  ⟨by decide, by decide, by decide,
    collapse_step_preserves_offsets contiguous23 0 (by decide) (by decide) (by decide)⟩

/-- Claim C13 (failing input). The loop `middle234` (rank 1, no sweeps) has exactly one
child, a sweep-free loop whose instruction passes the consistency test, and sits under the
loop `outer_two`, which has two children.  The recursive call does collapse it in the copy
`block_list2` (to a loop of rank 1 and size 12), but `collapse_redundant_axes` returns the
input unchanged, with `middle234` not collapsed. -/
theorem collapse_redundant_axes_skips_nested :
    outer_two.block_list = [.loop middle234, .loop inner23] ∧
    middle234 = .mk 1 3 [.loop (.mk 2 4 [.instr copy234] [])] [] ∧
    consistent_list elementwise 1 [.instr copy234] = true ∧
    (∃ c rest, (collapse_redundant_axes_lists elementwise [.loop outer_two]).1
        = [.loop (.mk 0 2 (.loop c :: rest) [])] ∧ c.rank = 1 ∧ c.size = 12) ∧
    collapse_redundant_axes elementwise [.loop outer_two] = [.loop outer_two] := by
  refine ⟨rfl, rfl, by decide, ⟨_, _, rfl, rfl, rfl⟩, rfl⟩

/-! ## `split_for_threading` -/

theorem split_newloop_children (ext : Externals) (rank size : Int) (block_list : List Block) :
    (split_newloop ext rank size block_list).children = block_list := rfl

theorem split_flush_children (ext : Externals) (rank size : Int) (newloop : List Block) :
    (split_flush ext rank size newloop).flatMap Block.children = newloop := by
  unfold split_flush
  cases newloop with
  | nil => rfl
  | cons a l => simp [split_newloop_children]

/-- What `split_loop` builds, for a `newloop` that holds unthreadable blocks only. -/
theorem split_loop_groups (ext : Externals) (rank size : Int) (rest newloop : List Block)
    (hacc : ∀ c, c ∈ newloop → c.unthreadable = true) :
    (∀ b, b ∈ split_loop ext rank size rest newloop →
      ∃ l, b = .loop l ∧ l.rank = rank ∧ l.size = size) ∧
    (split_loop ext rank size rest newloop).flatMap Block.children = newloop ++ rest ∧
    (∀ b, b ∈ split_loop ext rank size rest newloop → b.children ≠ [] ∧
      ((∀ c, c ∈ b.children → c.unthreadable = true) ∨
        ∃ c, b.children = [c] ∧ c.unthreadable = false)) ∧
    (split_loop ext rank size rest newloop).Chain'
      (fun x y => ¬ ((∀ c, c ∈ x.children → c.unthreadable = true) ∧
        (∀ c, c ∈ y.children → c.unthreadable = true))) := by
  induction rest generalizing newloop with
  | nil =>
    unfold split_loop split_flush
    cases newloop with
    | nil => simp
    | cons a l =>
      simp only [List.isEmpty_cons, Bool.false_eq_true, if_false, List.mem_singleton,
        List.append_nil]
      refine ⟨?_, ?_, ?_, List.chain'_singleton _⟩
      · intro b hb; subst hb
        exact ⟨_, rfl, rfl, rfl⟩
      · simp [split_newloop_children]
      · intro b hb; subst hb
        exact ⟨by simp [split_newloop_children], Or.inl hacc⟩
  | cons b rest ih =>
    unfold split_loop
    by_cases hb : b.unthreadable = true
    · rw [if_pos hb]
      have hacc' : ∀ c, c ∈ newloop ++ [b] → c.unthreadable = true := by
        intro c hc
        rcases List.mem_append.mp hc with h | h
        · exact hacc c h
        · rw [List.mem_singleton.mp h]; exact hb
      obtain ⟨h1, h2, h3, h4⟩ := ih (newloop ++ [b]) hacc'
      refine ⟨h1, ?_, h3, h4⟩
      rw [h2]; simp
    · rw [if_neg hb]
      have hbf : b.unthreadable = false := by simpa using hb
      obtain ⟨h1, h2, h3, h4⟩ := ih [] (by intro c hc; cases hc)
      have hsingle : ¬ ∀ c, c ∈ (split_newloop ext rank size [b]).children →
          c.unthreadable = true := by
        intro hall
        have := hall b (by simp [split_newloop_children])
        exact hb this
      have htail : (split_newloop ext rank size [b] :: split_loop ext rank size rest []).Chain'
          (fun x y => ¬ ((∀ c, c ∈ x.children → c.unthreadable = true) ∧
            (∀ c, c ∈ y.children → c.unthreadable = true))) :=
        List.Chain'.cons' h4 (fun y _ hxy => hsingle hxy.1)
      refine ⟨?_, ?_, ?_, ?_⟩
      · intro x hx
        rcases List.mem_append.mp hx with hx | hx
        · unfold split_flush at hx
          cases newloop with
          | nil => simp at hx
          | cons a l =>
            simp only [List.isEmpty_cons, Bool.false_eq_true, if_false,
              List.mem_singleton] at hx
            subst hx
            exact ⟨_, rfl, rfl, rfl⟩
        · rcases List.mem_cons.mp hx with hx | hx
          · subst hx; exact ⟨_, rfl, rfl, rfl⟩
          · exact h1 x hx
      · rw [List.flatMap_append, split_flush_children, List.flatMap_cons, h2]
        simp [split_newloop_children]
      · intro x hx
        rcases List.mem_append.mp hx with hx | hx
        · unfold split_flush at hx
          cases newloop with
          | nil => simp at hx
          | cons a l =>
            simp only [List.isEmpty_cons, Bool.false_eq_true, if_false,
              List.mem_singleton] at hx
            subst hx
            exact ⟨by simp [split_newloop_children], Or.inl hacc⟩
        · rcases List.mem_cons.mp hx with hx | hx
          · subst hx
            exact ⟨by simp [split_newloop_children],
              Or.inr ⟨b, by simp [split_newloop_children], hbf⟩⟩
          · exact h3 x hx
      · unfold split_flush
        cases newloop with
        | nil => simpa using htail
        | cons a l =>
          simp only [List.isEmpty_cons, Bool.false_eq_true, if_false, List.singleton_append]
          exact List.Chain'.cons' htail (fun y hy hxy => by
            simp only [List.head?_cons, Option.mem_def, Option.some.injEq] at hy
            subst hy
            exact hsingle hxy.2)

/-- Claim C15. Whenever `split_for_threading` splits a loop, every output loop has the
original loop's rank and size, the concatenation of the output loops' block lists in
output order equals the original block list, each threadable child (a sweep-free loop) is
the only block of its output loop, and each maximal run of consecutive non-threadable
children is gathered into one output loop: an output loop holds either one threadable
child or a non-empty run of non-threadable ones, and no two output loops that hold such
runs are adjacent. -/
theorem split_for_threading_groups (ext : Externals) (threaded_size : LoopB → Nat)
    (min_threading cur_threading : Nat) (loop : LoopB) (hsw : loop.sweeps = [])
    (hsplit : split_wanted ext threaded_size min_threading cur_threading loop = true) :
    (∀ b, b ∈ split_for_threading ext threaded_size min_threading cur_threading [.loop loop] →
      ∃ l, b = .loop l ∧ l.rank = loop.rank ∧ l.size = loop.size) ∧
    (split_for_threading ext threaded_size min_threading cur_threading [.loop loop]).flatMap
      Block.children = loop.block_list ∧
    (∀ b, b ∈ split_for_threading ext threaded_size min_threading cur_threading [.loop loop] →
      ∀ c, c ∈ b.children → c.unthreadable = false → b.children = [c]) ∧
    (∀ b, b ∈ split_for_threading ext threaded_size min_threading cur_threading [.loop loop] →
      b.children ≠ [] ∧ ((∀ c, c ∈ b.children → c.unthreadable = true) ∨
        ∃ c, b.children = [c] ∧ c.unthreadable = false)) ∧
    (split_for_threading ext threaded_size min_threading cur_threading [.loop loop]).Chain'
      (fun x y => ¬ ((∀ c, c ∈ x.children → c.unthreadable = true) ∧
        (∀ c, c ∈ y.children → c.unthreadable = true))) := by
  have hout : split_for_threading ext threaded_size min_threading cur_threading [.loop loop]
      = split_loop ext loop.rank loop.size loop.block_list [] := by
    simp [split_for_threading, hsw, hsplit]
  rw [hout]
  obtain ⟨h1, h2, h3, h4⟩ :=
    split_loop_groups ext loop.rank loop.size loop.block_list [] (by intro c hc; cases hc)
  refine ⟨h1, by simpa using h2, ?_, h3, h4⟩
  intro b hb c hc hcf
  rcases (h3 b hb).2 with hall | ⟨d, hd, _⟩
  · rw [hall c hc] at hcf; cases hcf
  · rw [hd] at hc ⊢
    rw [List.mem_singleton.mp hc]

theorem split_for_threading_groups_witness :
    outer_two.sweeps = [] ∧ split_wanted elementwise loop_size_threaded 4 0 outer_two = true ∧
    (split_for_threading elementwise loop_size_threaded 4 0 [.loop outer_two]).flatMap
      Block.children = outer_two.block_list ∧
    (split_for_threading elementwise loop_size_threaded 4 0 [.loop outer_two]).length = 2 :=
  ⟨rfl, by decide,
    (split_for_threading_groups elementwise loop_size_threaded 4 0 outer_two rfl (by decide)).2.1,
    by decide⟩

/-- Claim C16 (failing input). With `min_threading = 1` and `cur_threading = 2` the target
is already exceeded, yet `min_threading - cur_threading` wraps around to `2^64 - 1`, the
test `find_threaded_blocks(loop).second < min_threading - cur_threading` succeeds, and the
unsweeped loop `outer_two` is split into two loops: the returned block list is not the
input. -/
theorem split_for_threading_wraps :
    (2 : Nat) ≥ 1 ∧ outer_two.sweeps = [] ∧ sub_uint64 1 2 = 2 ^ 64 - 1 ∧
    loop_size_threaded outer_two = 2 ∧ ¬ (2 + loop_size_threaded outer_two < 1) ∧
    split_wanted elementwise loop_size_threaded 1 2 outer_two = true ∧
    (split_for_threading elementwise loop_size_threaded 1 2 [.loop outer_two]).length = 2 ∧
    split_for_threading elementwise loop_size_threaded 1 2 [.loop outer_two]
      = [.loop (.mk 0 2 [.loop middle234] []), .loop (.mk 0 2 [.loop inner23] [])] := by
  refine ⟨by decide, rfl, by decide, by decide, by decide, by decide, by decide, rfl⟩

/-- Whatever `find_threaded_blocks` returns (below `2^64 - 1`), a loop with more than one
block and an operand of more than `min_threading` elements is split as soon as
`cur_threading` exceeds `min_threading` by one. -/
theorem split_wanted_of_wrap (ext : Externals) (threaded_size : LoopB → Nat)
    (min_threading : Nat) (loop : LoopB)
    (hlen : loop.block_list.length > 1) (hmax : max_nelem ext loop > min_threading)
    (hthr : threaded_size loop < 2 ^ 64 - 1) :
    split_wanted ext threaded_size min_threading (min_threading + 1) loop = true := by
  have hsub : sub_uint64 min_threading (min_threading + 1) = 2 ^ 64 - 1 := by
    unfold sub_uint64
    have e : min_threading + 2 ^ 64 - (min_threading + 1) = 2 ^ 64 - 1 := by omega
    rw [e]
    exact Nat.mod_eq_of_lt (by omega)
  simpa [split_wanted, hlen, hmax, hsub] using hthr

/-! ## `push_reductions_inwards` -/

theorem holds_sweep_iff (sx : SwapExternals) (s : bh_instruction) (c : Block) :
    holds_sweep sx s c = true ↔ directly_contains sx c s := by
  cases c with
  | instr i =>
    constructor
    · intro h; cases h
    · rintro ⟨l, hl, _⟩; cases hl
  | loop l =>
    simp only [holds_sweep, List.any_eq_true]
    constructor
    · rintro ⟨ib, hib, hq⟩
      cases ib with
      | instr i => exact ⟨l, rfl, i, hib, hq⟩
      | loop _ => cases hq
    · rintro ⟨l', hl', i, hi, hq⟩
      cases hl'
      exact ⟨.instr i, hi, hq⟩

theorem first_holding_none (sx : SwapExternals) (s : bh_instruction) (j : Nat)
    (bs : List Block) :
    first_holding sx s j bs = none ↔ ∀ c, c ∈ bs → holds_sweep sx s c = false := by
  induction bs generalizing j with
  | nil => simp [first_holding]
  | cons b rest ih =>
    unfold first_holding
    by_cases hb : holds_sweep sx s b = true
    · simp [hb]
    · have hbf : holds_sweep sx s b = false := by simpa using hb
      rw [if_neg hb, ih]
      simp [hbf]

theorem first_holding_some (sx : SwapExternals) (s : bh_instruction) (j k : Nat)
    (bs : List Block) (h : first_holding sx s j bs = some k) :
    j ≤ k ∧ (∃ c, bs[k - j]? = some c ∧ holds_sweep sx s c = true) ∧
    ∀ i c, i < k - j → bs[i]? = some c → holds_sweep sx s c = false := by
  induction bs generalizing j with
  | nil => simp [first_holding] at h
  | cons b rest ih =>
    unfold first_holding at h
    by_cases hb : holds_sweep sx s b = true
    · rw [if_pos hb] at h
      cases h
      refine ⟨Nat.le_refl _, ⟨b, by simp, hb⟩, ?_⟩
      intro i c hi
      omega
    · rw [if_neg hb] at h
      obtain ⟨hjk, ⟨c, hc, hcs⟩, hbefore⟩ := ih (j + 1) h
      have e : k - j = (k - (j + 1)) + 1 := by omega
      refine ⟨by omega, ⟨c, by rw [e]; simpa using hc, hcs⟩, ?_⟩
      intro i c' hi hc'
      cases i with
      | zero =>
        simp only [List.getElem?_cons_zero, Option.some.injEq] at hc'
        subst hc'
        simpa using hb
      | succ n =>
        simp only [List.getElem?_cons_succ] at hc'
        exact hbefore n c' (by omega) hc'

theorem find_swappable_loop_none (sx : SwapExternals) (bs : List Block)
    (sweeps : List bh_instruction) :
    find_swappable_loop sx bs sweeps = none ↔
      ∀ s, s ∈ sweeps → ∀ c, c ∈ bs → holds_sweep sx s c = false := by
  induction sweeps with
  | nil => simp [find_swappable_loop]
  | cons s rest ih =>
    unfold find_swappable_loop
    cases hf : first_holding sx s 0 bs with
    | some j =>
      simp only [false_iff, reduceCtorEq]
      intro hall
      have := (first_holding_none sx s 0 bs).mpr (hall s (List.mem_cons_self _ _))
      rw [hf] at this
      cases this
    | none =>
      have hs := (first_holding_none sx s 0 bs).mp hf
      simp only [ih, List.mem_cons, forall_eq_or_imp]
      exact ⟨fun h => ⟨hs, h⟩, fun h => h.2⟩

theorem find_swappable_loop_some (sx : SwapExternals) (bs : List Block)
    (sweeps : List bh_instruction) (k : Nat) (h : find_swappable_loop sx bs sweeps = some k) :
    ∃ pre s post, sweeps = pre ++ s :: post ∧
      (∀ s', s' ∈ pre → ∀ c, c ∈ bs → holds_sweep sx s' c = false) ∧
      first_holding sx s 0 bs = some k := by
  induction sweeps with
  | nil => simp [find_swappable_loop] at h
  | cons s rest ih =>
    unfold find_swappable_loop at h
    cases hf : first_holding sx s 0 bs with
    | some j =>
      rw [hf] at h
      cases h
      exact ⟨[], s, rest, rfl, (by intro s' hs'; cases hs'), hf⟩
    | none =>
      rw [hf] at h
      obtain ⟨pre, t, post, hsw, hpre, hk⟩ := ih h
      refine ⟨s :: pre, t, post, by rw [hsw]; rfl, ?_, hk⟩
      intro s' hs'
      rcases List.mem_cons.mp hs' with e | hs''
      · subst e; exact (first_holding_none sx s' 0 bs).mp hf
      · exact hpre s' hs''

mutual
theorem push_copy_block_fixed (ext : Externals) (sx : SwapExternals) :
    ∀ b : Block, swap_free_block sx b = true → push_copy_block ext sx b = b
  | .instr i, _ => by rw [push_copy_block]
  | .loop l, h => by
    rw [swap_free_block] at h
    rw [push_copy_block, push_copy_loop_fixed ext sx l h]
theorem push_copy_loop_fixed (ext : Externals) (sx : SwapExternals) :
    ∀ l : LoopB, swap_free_loop sx l = true → push_copy_loop ext sx l = l
  | .mk rank size block_list sweeps, h => by
    rw [swap_free_loop, Bool.and_eq_true] at h
    rw [push_copy_loop, push_reductions_inwards_fixed ext sx block_list h.2]
theorem push_reductions_inwards_fixed (ext : Externals) (sx : SwapExternals) :
    ∀ bs : List Block, swap_free_list sx bs = true → push_reductions_inwards ext sx bs = bs
  | [], _ => by rw [push_reductions_inwards]
  | b :: rest, h => by
    rw [swap_free_list, Bool.and_eq_true] at h
    rw [push_reductions_inwards, push_copy_block_fixed ext sx b h.1,
      push_reductions_inwards_fixed ext sx rest h.2]
    cases b with
    | instr i => rfl
    | loop l =>
      have hl := h.1
      rw [swap_free_block] at hl
      cases l with
      | mk rank size block_list sweeps =>
        rw [swap_free_loop, Bool.and_eq_true, Option.isNone_iff_eq_none] at hl
        simp [push_swap, find_swappable_sub_block, LoopB.block_list, LoopB.sweeps, hl.1]
end

/-- The blocks that `swap_blocks` returns, position by position: the block of the parent
at that position, as one iteration of the loop turns it. -/
theorem swap_blocks_loop_get (ext : Externals) (sx : SwapExternals) (parent : LoopB)
    (child : Nat) (bl : List Block) (j0 i : Nat) :
    (swap_blocks_loop ext sx parent child j0 bl).length = bl.length ∧
    (swap_blocks_loop ext sx parent child j0 bl)[i]?
      = (bl[i]?).map (swap_blocks_step ext sx parent child (j0 + i)) := by
  induction bl generalizing j0 i with
  | nil => exact ⟨rfl, rfl⟩
  | cons b rest ih =>
    refine ⟨by simp [swap_blocks_loop, (ih (j0 + 1) 0).1], ?_⟩
    cases i with
    | zero => simp [swap_blocks_loop]
    | succ i =>
      simp only [swap_blocks_loop, List.getElem?_cons_succ]
      rw [(ih (j0 + 1) i).2, show j0 + (i + 1) = j0 + 1 + i by omega]

/-- Claim C17. With `L` the loop as the second loop of `push_reductions_inwards` finds it
(the input loop whose block list the recursive call has already processed): the pass
swaps `L` with one of its children if and only if some child loop of `L` directly
contains, as an instruction leaf, an instruction equal to one of the sweeps of `L`.  The
sweep matched is the first that has such a child and the child `C` chosen is the first
loop in the block-list order of `L` that contains it.  The swap puts, in the place of
`C`, a loop of the rank of `L` and the size of `C` around the nested block that
`create_nested_block` builds, with the rank of `C` and the size of `L`, from the
instructions under `C` with the two axes transposed; every other block of `L` is
returned alone in a loop of the rank and size of `L`.  When no child matches, the loop is
returned unchanged. -/
theorem push_reductions_inwards_swaps (ext : Externals) (sx : SwapExternals) (L0 : LoopB) :
    let L := push_copy_loop ext sx L0
    ((∃ k, find_swappable_sub_block sx L = some k) ↔
      ∃ s, s ∈ L.sweeps ∧ ∃ c, c ∈ L.block_list ∧ directly_contains sx c s) ∧
    (∀ k, find_swappable_sub_block sx L = some k →
      (∃ pre s post, L.sweeps = pre ++ s :: post ∧
        (∀ s', s' ∈ pre → ∀ c, c ∈ L.block_list → ¬ directly_contains sx c s') ∧
        (∃ c, L.block_list[k]? = some c ∧ directly_contains sx c s) ∧
        (∀ j c, j < k → L.block_list[j]? = some c → ¬ directly_contains sx c s)) ∧
      ∃ C, L.block_list[k]? = some (.loop C) ∧
        (push_reductions_inwards ext sx [.loop L0]).length = L.block_list.length ∧
        (push_reductions_inwards ext sx [.loop L0])[k]? = some
          (.loop (.mk L.rank C.size
            [sx.create_nested_block
              ((LoopB.getAllInstr C).map (fun instr => sx.transpose instr L.rank C.rank))
              C.rank L.size]
            (ext.sweeps_of L.rank
              [sx.create_nested_block
                ((LoopB.getAllInstr C).map (fun instr => sx.transpose instr L.rank C.rank))
                C.rank L.size]))) ∧
        ∀ j b, j ≠ k → L.block_list[j]? = some b →
          (push_reductions_inwards ext sx [.loop L0])[j]? = some
            (.loop (.mk L.rank L.size [b] (ext.sweeps_of L.rank [b])))) ∧
    (find_swappable_sub_block sx L = none →
      push_reductions_inwards ext sx [.loop L0] = [.loop L]) ∧
    (swap_free_loop sx L0 = true → push_reductions_inwards ext sx [.loop L0] = [.loop L0]) := by
  intro L
  have hout : push_reductions_inwards ext sx [.loop L0] = push_swap ext sx (.loop L) := by
    rw [push_reductions_inwards, push_reductions_inwards, push_copy_block, List.append_nil]
  refine ⟨?_, ?_, ?_, ?_⟩
  · constructor
    · rintro ⟨k, hk⟩
      obtain ⟨pre, s, post, hsw, _, hfirst⟩ :=
        find_swappable_loop_some sx L.block_list L.sweeps k hk
      obtain ⟨_, ⟨c, hc, hcs⟩, _⟩ := first_holding_some sx s 0 k L.block_list hfirst
      exact ⟨s, by rw [hsw]; simp, c, List.getElem?_mem hc, (holds_sweep_iff sx s c).mp hcs⟩
    · rintro ⟨s, hs, c, hc, hcs⟩
      cases hf : find_swappable_sub_block sx L with
      | some k => exact ⟨k, rfl⟩
      | none =>
        have := (find_swappable_loop_none sx L.block_list L.sweeps).mp hf s hs c hc
        rw [(holds_sweep_iff sx s c).mpr hcs] at this
        cases this
  · intro k hk
    obtain ⟨pre, s, post, hsw, hpre, hfirst⟩ :=
      find_swappable_loop_some sx L.block_list L.sweeps k hk
    obtain ⟨_, ⟨c, hc, hcs⟩, hbefore⟩ := first_holding_some sx s 0 k L.block_list hfirst
    have hc' : L.block_list[k]? = some c := hc
    refine ⟨⟨pre, s, post, hsw, ?_, ⟨c, hc, (holds_sweep_iff sx s c).mp hcs⟩, ?_⟩, ?_⟩
    · intro s' hs' c' hc' hd
      have := hpre s' hs' c' hc'
      rw [(holds_sweep_iff sx s' c').mpr hd] at this
      cases this
    · intro j c' hj hc' hd
      have := hbefore j c' hj hc'
      rw [(holds_sweep_iff sx s c').mpr hd] at this
      cases this
    · obtain ⟨C, hC, _⟩ := (holds_sweep_iff sx s c).mp hcs
      subst hC
      have hswap : push_reductions_inwards ext sx [.loop L0] = swap_blocks ext sx L k := by
        rw [hout]
        simp [push_swap, hk]
      refine ⟨C, hc', ?_, ?_, ?_⟩
      · rw [hswap]
        exact (swap_blocks_loop_get ext sx L k L.block_list 0 k).1
      · rw [hswap]
        have := (swap_blocks_loop_get ext sx L k L.block_list 0 k).2
        rw [hc', Nat.zero_add, Option.map_some'] at this
        rw [swap_blocks, this]
        simp [swap_blocks_step, swap_axis]
      · intro j b hj hb
        rw [hswap]
        have := (swap_blocks_loop_get ext sx L k L.block_list 0 j).2
        rw [hb, Nat.zero_add, Option.map_some'] at this
        rw [swap_blocks, this]
        cases b with
        | instr i => simp [swap_blocks_step]
        | loop c => simp [swap_blocks_step, hj]
  · intro hnone
    rw [hout]
    simp [push_swap, hnone]
  · intro hfree
    exact push_reductions_inwards_fixed ext sx [.loop L0]
      (by rw [swap_free_list, swap_free_block, hfree]; rfl)

theorem push_reductions_inwards_swaps_witness :
    find_swappable_sub_block plain_swap (push_copy_loop reducing plain_swap sweep_two) = some 1 ∧
    (∃ C, (push_copy_loop reducing plain_swap sweep_two).block_list[1]? = some (.loop C) ∧
      (push_reductions_inwards reducing plain_swap [.loop sweep_two]).length
        = (push_copy_loop reducing plain_swap sweep_two).block_list.length ∧
      (push_reductions_inwards reducing plain_swap [.loop sweep_two])[1]? = some
        (.loop (.mk (push_copy_loop reducing plain_swap sweep_two).rank C.size
          [plain_swap.create_nested_block
            ((LoopB.getAllInstr C).map (fun instr =>
              plain_swap.transpose instr (push_copy_loop reducing plain_swap sweep_two).rank
                C.rank))
            C.rank (push_copy_loop reducing plain_swap sweep_two).size]
          (reducing.sweeps_of (push_copy_loop reducing plain_swap sweep_two).rank
            [plain_swap.create_nested_block
              ((LoopB.getAllInstr C).map (fun instr =>
                plain_swap.transpose instr (push_copy_loop reducing plain_swap sweep_two).rank
                  C.rank))
              C.rank (push_copy_loop reducing plain_swap sweep_two).size]))) ∧
      ∀ j b, j ≠ 1 → (push_copy_loop reducing plain_swap sweep_two).block_list[j]? = some b →
        (push_reductions_inwards reducing plain_swap [.loop sweep_two])[j]? = some
          (.loop (.mk (push_copy_loop reducing plain_swap sweep_two).rank
            (push_copy_loop reducing plain_swap sweep_two).size [b]
            (reducing.sweeps_of (push_copy_loop reducing plain_swap sweep_two).rank [b])))) ∧
    (∃ a b nested, push_reductions_inwards reducing plain_swap [.loop sweep_two]
        = [.loop a, .loop b] ∧
      a.rank = 0 ∧ a.size = 2 ∧ a.block_list = [.loop inner23] ∧
      b.rank = 0 ∧ b.size = 3 ∧ b.block_list = [.loop nested] ∧
      nested.rank = 1 ∧ nested.size = 2 ∧ nested.block_list.length = 1) :=
  ⟨by decide,
    ((push_reductions_inwards_swaps reducing plain_swap sweep_two).2.1 1 (by decide)).2,
    ⟨_, _, _, rfl, rfl, rfl, rfl, rfl, rfl, rfl, rfl, rfl, rfl⟩⟩

/-! ## `Engine::execute` -/

/-- A call of `execute_block` that is left by an exception has no returned code: `res` is
`BH_ERROR`. -/
theorem execute_block_thrown_res {β σ μ : Type} (e : CpuEngine β σ μ) (block : β)
    (symbols : Symbols) (storage : σ) (heap : μ) (krnl : bh_ir_kernel)
    (failure : WalkerFailure)
    (h : (execute_block e block symbols storage heap krnl).thrown = some failure) :
    (execute_block e block symbols storage heap krnl).res = BH_ERROR := by
  have hfin : ∀ blk sym st eff,
      (execute_block_finish e blk sym st heap eff).thrown = none := by
    intro blk sym st eff
    unfold execute_block_finish
    dsimp only
    repeat' split
    all_goals rfl
  revert h
  unfold execute_block execute_block_load
  dsimp only
  repeat' split
  all_goals first
    | (intro _; rfl)
    | (intro h; rw [hfin] at h; cases h)

/-- The loop over the instruction indexes of a kernel makes, for an initial part `done` of
the indexes and in their order, one call of `execute_block` each; it stops at the first
call that fails and otherwise covers every index. -/
theorem execute_sij_calls {β σ μ : Type} (e : CpuEngine β σ μ) (bhir : bh_ir)
    (krnl : bh_ir_kernel) (k : Nat) (idxs : List Nat) (res : bh_error) (symbols : Symbols)
    (storage : σ) (heap : μ) :
    ∃ done : List Nat, done <+: idxs ∧
      List.Forall₂ (sij_call e bhir k krnl) done
        (execute_sij e bhir krnl k idxs res symbols storage heap).calls ∧
      (((execute_sij e bhir krnl k idxs res symbols storage heap).returned = none ∧
          (execute_sij e bhir krnl k idxs res symbols storage heap).thrown = none ∧
          done = idxs ∧
          ((execute_sij e bhir krnl k idxs res symbols storage heap).res = res ∨
            (execute_sij e bhir krnl k idxs res symbols storage heap).res = BH_SUCCESS) ∧
          ∀ c, c ∈ (execute_sij e bhir krnl k idxs res symbols storage heap).calls →
            c.res = BH_SUCCESS) ∨
        ∃ init c, (execute_sij e bhir krnl k idxs res symbols storage heap).calls
            = init ++ [c] ∧
          (∀ d, d ∈ init → d.res = BH_SUCCESS) ∧ c.res ≠ BH_SUCCESS ∧ c.extension = false ∧
          (((execute_sij e bhir krnl k idxs res symbols storage heap).returned = some c.res ∧
              (execute_sij e bhir krnl k idxs res symbols storage heap).thrown = none) ∨
            ((execute_sij e bhir krnl k idxs res symbols storage heap).returned = none ∧
              ∃ failure, (execute_sij e bhir krnl k idxs res symbols storage heap).thrown
                = some failure))) := by
  induction idxs generalizing res symbols storage heap with
  | nil =>
    exact ⟨[], List.prefix_refl _, List.Forall₂.nil,
      Or.inl ⟨rfl, rfl, rfl, Or.inl rfl, fun c hc => by cases hc⟩⟩
  | cons idx idxs ih =>
    have hcall : sij_call e bhir k krnl idx
        ⟨k, some idx, false,
          (execute_block e (e.compose_instr bhir symbols idx) symbols storage heap krnl).res,
          (execute_block e (e.compose_instr bhir symbols idx) symbols storage heap
            krnl).effects⟩ := ⟨symbols, storage, heap, rfl⟩
    unfold execute_sij
    dsimp only
    cases hth : (execute_block e (e.compose_instr bhir symbols idx) symbols storage heap
        krnl).thrown with
    | some failure =>
      dsimp only
      have hres := execute_block_thrown_res e _ symbols storage heap krnl failure hth
      refine ⟨[idx], by simp, List.Forall₂.cons hcall List.Forall₂.nil, Or.inr ⟨[], _, rfl,
        (by intro d hd; cases hd), ?_, rfl, Or.inr ⟨rfl, failure, rfl⟩⟩⟩
      show (execute_block e (e.compose_instr bhir symbols idx) symbols storage heap krnl).res
        ≠ BH_SUCCESS
      rw [hres]
      decide
    | none =>
      dsimp only
      by_cases hr : (execute_block e (e.compose_instr bhir symbols idx) symbols storage heap
          krnl).res ≠ BH_SUCCESS
      · rw [if_pos hr]
        exact ⟨[idx], by simp, List.Forall₂.cons hcall List.Forall₂.nil, Or.inr ⟨[], _, rfl,
          (by intro d hd; cases hd), hr, rfl, Or.inl ⟨rfl, rfl⟩⟩⟩
      · rw [if_neg hr]
        have hs : (execute_block e (e.compose_instr bhir symbols idx) symbols storage heap
            krnl).res = BH_SUCCESS := not_not.mp hr
        obtain ⟨done, hpre, hall, hstat⟩ := ih
          (execute_block e (e.compose_instr bhir symbols idx) symbols storage heap krnl).res
          (execute_block e (e.compose_instr bhir symbols idx) symbols storage heap krnl).symbols
          (execute_block e (e.compose_instr bhir symbols idx) symbols storage heap krnl).storage
          (execute_block e (e.compose_instr bhir symbols idx) symbols storage heap krnl).heap
        refine ⟨idx :: done, (List.prefix_cons_inj idx).mpr hpre, List.Forall₂.cons hcall hall,
          ?_⟩
        rcases hstat with ⟨h1, h2, h3, h4, h5⟩ | ⟨init, c, hc1, hc2, hc3, hc4, hc5⟩
        · left
          refine ⟨h1, h2, by rw [h3], ?_, ?_⟩
          · rcases h4 with h4 | h4
            · exact Or.inr (h4.trans hs)
            · exact Or.inr h4
          · intro c hc
            rcases List.mem_cons.mp hc with hc | hc
            · rw [hc]; exact hs
            · exact h5 c hc
        · right
          refine ⟨_ :: init, c, by rw [hc1]; rfl, ?_, hc3, hc4, hc5⟩
          intro d hd
          rcases List.mem_cons.mp hd with hd | hd
          · rw [hd]; exact hs
          · exact hc2 d hd

/-- The run stops in the first of the kernels at hand: its calls are the only segment. -/
theorem processed_stop {β σ μ : Type} (e : CpuEngine β σ μ) (bhir : bh_ir) (k : Nat)
    (krnl : bh_ir_kernel) (rest : List bh_ir_kernel) (returned : Option bh_error)
    (thrown : Option WalkerFailure) (init : List Call) (c : Call)
    (hk : kernel_calls e bhir k krnl (init ++ [c]))
    (hinit : ∀ d, d ∈ init → d.res = BH_SUCCESS) (hc : c.res ≠ BH_SUCCESS)
    (hstat : (returned = some c.res ∧ thrown = none) ∨
      (returned = none ∧ c.extension = false ∧ ∃ failure, thrown = some failure)) :
    processed_in_order e bhir k (krnl :: rest) returned thrown (init ++ [c]) [init ++ [c]] := by
  refine ⟨by simp, by simp, ?_, Or.inr ⟨[], init, c, rfl, ?_, hc, hstat⟩⟩
  · intro j seg hj
    cases j with
    | zero =>
      simp only [List.getElem?_cons_zero, Option.some.injEq] at hj
      subst hj
      exact ⟨krnl, List.getElem?_cons_zero, hk⟩
    | succ j => simp at hj
  · intro d hd
    exact hinit d (by simpa using hd)

/-- The run goes on after the first of the kernels at hand: its calls come first. -/
theorem processed_continue {β σ μ : Type} (e : CpuEngine β σ μ) (bhir : bh_ir) (k : Nat)
    (krnl : bh_ir_kernel) (rest : List bh_ir_kernel) (returned : Option bh_error)
    (thrown : Option WalkerFailure) (seg0 calls : List Call) (segs : List (List Call))
    (hk : kernel_calls e bhir k krnl seg0) (hseg : ∀ d, d ∈ seg0 → d.res = BH_SUCCESS)
    (h : processed_in_order e bhir (k + 1) rest returned thrown calls segs) :
    processed_in_order e bhir k (krnl :: rest) returned thrown (seg0 ++ calls)
      (seg0 :: segs) := by
  obtain ⟨hflat, hlen, htie, hstat⟩ := h
  refine ⟨by rw [hflat]; simp, by simpa using hlen, ?_, ?_⟩
  · intro j seg hj
    cases j with
    | zero =>
      simp only [List.getElem?_cons_zero, Option.some.injEq] at hj
      subst hj
      exact ⟨krnl, List.getElem?_cons_zero, hk⟩
    | succ j =>
      simp only [List.getElem?_cons_succ] at hj
      obtain ⟨krnl', hk1, hk2⟩ := htie j seg hj
      refine ⟨krnl', by simpa using hk1, ?_⟩
      rw [show k + (j + 1) = k + 1 + j by omega]
      exact hk2
  · rcases hstat with ⟨h1, h2, h3, h4⟩ | ⟨segs', init, c, h1, h2, h3, h4⟩
    · left
      refine ⟨h1, h2, by simp [h3], ?_⟩
      intro d hd
      rcases List.mem_append.mp hd with hd | hd
      · exact hseg d hd
      · exact h4 d hd
    · right
      refine ⟨seg0 :: segs', init, c, by rw [h1]; rfl, ?_, h3, h4⟩
      intro d hd
      simp only [List.flatten_cons, List.append_assoc, List.mem_append] at hd
      rcases hd with hd | hd | hd
      · exact hseg d hd
      · exact h2 d (List.mem_append.mpr (Or.inl hd))
      · exact h2 d (List.mem_append.mpr (Or.inr hd))

/-- The loop over the kernels processes them in order and stops at the first call that
fails; without a `return` or an exception the local `res` is the incoming one or
`BH_SUCCESS`. -/
theorem execute_kernels_processed {β σ μ : Type} (e : CpuEngine β σ μ) (bhir : bh_ir)
    (k : Nat) (kernels : List bh_ir_kernel) (res : bh_error) (symbols : Symbols) (storage : σ)
    (heap : μ) :
    (∃ segs, processed_in_order e bhir k kernels
      (execute_kernels e bhir k kernels res symbols storage heap).returned
      (execute_kernels e bhir k kernels res symbols storage heap).thrown
      (execute_kernels e bhir k kernels res symbols storage heap).calls segs) ∧
    ((execute_kernels e bhir k kernels res symbols storage heap).returned = none →
      (execute_kernels e bhir k kernels res symbols storage heap).thrown = none →
      (execute_kernels e bhir k kernels res symbols storage heap).res = res ∨
      (execute_kernels e bhir k kernels res symbols storage heap).res = BH_SUCCESS) := by
  induction kernels generalizing k res symbols storage heap with
  | nil =>
    refine ⟨⟨[], rfl, Nat.le_refl _, ?_, Or.inl ⟨rfl, rfl, rfl, ?_⟩⟩, fun _ _ => Or.inl rfl⟩
    · intro j seg hj; simp at hj
    · intro c hc; cases hc
  | cons krnl rest ih =>
    unfold execute_kernels
    dsimp only
    by_cases hext : e.omask_extension (e.compose bhir symbols krnl) = true
    · rw [if_pos hext]
      cases hfind : e.extensions (e.ext_opcode (e.compose bhir symbols krnl)) with
      | none =>
        dsimp only
        obtain ⟨⟨segs, hp⟩, hres⟩ := ih (k + 1) res symbols storage heap
        have hk : kernel_calls e bhir k krnl [] :=
          ⟨symbols, Or.inl ⟨hext, Or.inl ⟨hfind, rfl⟩⟩⟩
        exact ⟨⟨[] :: segs, by
          simpa using processed_continue e bhir k krnl rest _ _ [] _ segs hk
            (by intro d hd; cases hd) hp⟩, hres⟩
      | some extmethod =>
        dsimp only
        have hk : kernel_calls e bhir k krnl [⟨k, none, true, (extmethod heap).1, []⟩] :=
          ⟨symbols, Or.inl ⟨hext, Or.inr ⟨extmethod, heap, hfind, rfl⟩⟩⟩
        by_cases hr : (extmethod heap).1 ≠ BH_SUCCESS
        · rw [if_pos hr]
          refine ⟨⟨_, processed_stop e bhir k krnl rest _ _ [] _ hk
            (by intro d hd; cases hd) hr (Or.inl ⟨rfl, rfl⟩)⟩, ?_⟩
          intro h; cases h
        · rw [if_neg hr]
          have hs : (extmethod heap).1 = BH_SUCCESS := not_not.mp hr
          obtain ⟨⟨segs, hp⟩, hres⟩ := ih (k + 1) (extmethod heap).1 symbols storage
            (extmethod heap).2
          refine ⟨⟨_, processed_continue e bhir k krnl rest _ _ [_] _ segs hk
            (by intro d hd; rw [List.mem_singleton.mp hd]; exact hs) hp⟩, ?_⟩
          intro hnone hnt
          rcases hres hnone hnt with h | h
          · exact Or.inr (h.trans hs)
          · exact Or.inr h
    · have hextf : e.omask_extension (e.compose bhir symbols krnl) = false := by
        simpa using hext
      rw [if_neg hext]
      by_cases hfuse : (e.jit_fusion && decide (e.narray_tacs (e.compose bhir symbols krnl) > 1))
          = true
      · rw [if_pos hfuse]
        have hk : kernel_calls e bhir k krnl [⟨k, none, false,
            (execute_block e (e.compose bhir symbols krnl) symbols storage heap krnl).res,
            (execute_block e (e.compose bhir symbols krnl) symbols storage heap
              krnl).effects⟩] :=
          ⟨symbols, Or.inr (Or.inl ⟨hextf, hfuse, storage, heap, rfl⟩)⟩
        cases hth : (execute_block e (e.compose bhir symbols krnl) symbols storage heap
            krnl).thrown with
        | some failure =>
          dsimp only
          have hres := execute_block_thrown_res e _ symbols storage heap krnl failure hth
          refine ⟨⟨_, processed_stop e bhir k krnl rest _ _ [] _ hk
            (by intro d hd; cases hd) (by
              show (execute_block e (e.compose bhir symbols krnl) symbols storage heap
                krnl).res ≠ BH_SUCCESS
              rw [hres]
              decide) (Or.inr ⟨rfl, rfl, failure, rfl⟩)⟩, fun _ h => by cases h⟩
        | none =>
          dsimp only
          by_cases hr : (execute_block e (e.compose bhir symbols krnl) symbols storage heap
              krnl).res ≠ BH_SUCCESS
          · rw [if_pos hr]
            refine ⟨⟨_, processed_stop e bhir k krnl rest _ _ [] _ hk
              (by intro d hd; cases hd) hr (Or.inl ⟨rfl, rfl⟩)⟩, ?_⟩
            intro h; cases h
          · rw [if_neg hr]
            have hs : (execute_block e (e.compose bhir symbols krnl) symbols storage heap
                krnl).res = BH_SUCCESS := not_not.mp hr
            obtain ⟨⟨segs, hp⟩, hres⟩ := ih (k + 1)
              (execute_block e (e.compose bhir symbols krnl) symbols storage heap krnl).res
              (execute_block e (e.compose bhir symbols krnl) symbols storage heap krnl).symbols
              (execute_block e (e.compose bhir symbols krnl) symbols storage heap krnl).storage
              (execute_block e (e.compose bhir symbols krnl) symbols storage heap krnl).heap
            refine ⟨⟨_, processed_continue e bhir k krnl rest _ _ [_] _ segs hk
              (by intro d hd; rw [List.mem_singleton.mp hd]; exact hs) hp⟩, ?_⟩
            intro hnone hnt
            rcases hres hnone hnt with h | h
            · exact Or.inr (h.trans hs)
            · exact Or.inr h
      · have hfusef : (e.jit_fusion &&
            decide (e.narray_tacs (e.compose bhir symbols krnl) > 1)) = false := by
          simpa using hfuse
        rw [if_neg hfuse]
        obtain ⟨done, hpre, hall, hstat⟩ :=
          execute_sij_calls e bhir krnl k krnl.instr_indexes res symbols storage heap
        split
        · rename_i h1 h2
          rcases hstat with ⟨_, _, h3, h4, h5⟩ | ⟨init, c, _, _, _, _, hc5⟩
          · have hk : kernel_calls e bhir k krnl
                (execute_sij e bhir krnl k krnl.instr_indexes res symbols storage heap).calls :=
              ⟨symbols, Or.inr (Or.inr ⟨hextf, hfusef, done, hpre, hall, fun _ => h3⟩)⟩
            obtain ⟨⟨segs, hp⟩, hres⟩ := ih (k + 1)
              (execute_sij e bhir krnl k krnl.instr_indexes res symbols storage heap).res
              (execute_sij e bhir krnl k krnl.instr_indexes res symbols storage heap).symbols
              (execute_sij e bhir krnl k krnl.instr_indexes res symbols storage heap).storage
              (execute_sij e bhir krnl k krnl.instr_indexes res symbols storage heap).heap
            refine ⟨⟨_, processed_continue e bhir k krnl rest _ _ _ _ segs hk h5 hp⟩, ?_⟩
            intro hnone hnt
            rcases hres hnone hnt with h | h
            · rcases h4 with h' | h'
              · exact Or.inl (h.trans h')
              · exact Or.inr (h.trans h')
            · exact Or.inr h
          · exfalso
            rcases hc5 with ⟨hr1, _⟩ | ⟨_, failure, hr2⟩
            · rw [h1] at hr1; cases hr1
            · rw [h2] at hr2; cases hr2
        · rename_i hnot
          rcases hstat with ⟨h1, h2, _, _, _⟩ | ⟨init, c, hc1, hc2, hc3, hc4, hc5⟩
          · exact absurd h2 (hnot h1)
          · have hk : kernel_calls e bhir k krnl (init ++ [c]) := by
              refine ⟨symbols, Or.inr (Or.inr ⟨hextf, hfusef, done, hpre, ?_, ?_⟩)⟩
              · rw [← hc1]; exact hall
              · intro hsucc
                exact absurd (hsucc c (by simp)) hc3
            refine ⟨⟨[init ++ [c]], ?_⟩, ?_⟩
            · rw [hc1]
              exact processed_stop e bhir k krnl rest _ _ init c hk hc2 hc3
                (hc5.imp id (fun h => ⟨h.1, hc4, h.2⟩))
            · intro hnone hnt
              rcases hc5 with ⟨hr1, _⟩ | ⟨_, failure, hr2⟩
              · rw [hnone] at hr1; cases hr1
              · rw [hnt] at hr2; cases hr2

/-- Claim C18 (as amended). `Engine::execute` processes the kernels of a batch in order:
its calls are, kernel after kernel from the first on, the calls of processing that kernel
(`kernel_calls`: one call of the registered extension method, one call of `execute_block`
on the fused block, or one call of `execute_block` per instruction index).  Either every
kernel is processed, no call fails and `BH_SUCCESS` is returned; or the last call made is
the first that fails, it belongs to the last kernel processed, nothing after it is
executed, and `execute` returns the code of that call unchanged or, when that call of
`execute_block` threw, is left by the exception and returns no code. -/
theorem execute_stops_at_first_failure {β σ μ : Type} (e : CpuEngine β σ μ) (bhir : bh_ir)
    (storage : σ) (heap : μ) :
    ∃ segs : List (List Call),
      (execute_run e bhir storage heap).calls = segs.flatten ∧
      segs.length ≤ bhir.kernel_list.length ∧
      (∀ j seg, segs[j]? = some seg →
        ∃ krnl, bhir.kernel_list[j]? = some krnl ∧ kernel_calls e bhir j krnl seg) ∧
      ((execute_outcome e bhir storage heap = .ok BH_SUCCESS ∧
          segs.length = bhir.kernel_list.length ∧
          ∀ c, c ∈ (execute_run e bhir storage heap).calls → c.res = BH_SUCCESS) ∨
        ∃ segs' init c, segs = segs' ++ [init ++ [c]] ∧
          (∀ d, d ∈ segs'.flatten ++ init → d.res = BH_SUCCESS) ∧ c.res ≠ BH_SUCCESS ∧
          (execute_outcome e bhir storage heap = .ok c.res ∨
            (c.extension = false ∧
              ∃ failure, execute_outcome e bhir storage heap = .error failure))) := by
  obtain ⟨⟨segs, hflat, hlen, htie, hstat⟩, hres⟩ :=
    execute_kernels_processed e bhir 0 bhir.kernel_list BH_SUCCESS (e.instrs_to_tacs bhir)
      storage heap
  refine ⟨segs, hflat, hlen, ?_, ?_⟩
  · intro j seg hj
    obtain ⟨krnl, h1, h2⟩ := htie j seg hj
    rw [Nat.zero_add] at h2
    exact ⟨krnl, h1, h2⟩
  · rcases hstat with ⟨h1, h2, h3, h4⟩ | ⟨segs', init, c, h1, h2, h3, h4⟩
    · left
      refine ⟨?_, h3, h4⟩
      have hr : (execute_run e bhir storage heap).returned = none := h1
      have ht : (execute_run e bhir storage heap).thrown = none := h2
      have hs : (execute_run e bhir storage heap).res = BH_SUCCESS := by
        rcases hres h1 h2 with h | h <;> exact h
      unfold execute_outcome execute
      rw [ht, hr, hs]
    · right
      refine ⟨segs', init, c, h1, h2, h3, ?_⟩
      rcases h4 with ⟨hr, ht⟩ | ⟨hr, hce, failure, ht⟩
      · left
        have hr' : (execute_run e bhir storage heap).returned = some c.res := hr
        have ht' : (execute_run e bhir storage heap).thrown = none := ht
        unfold execute_outcome execute
        rw [ht', hr']
      · right
        refine ⟨hce, failure, ?_⟩
        have ht' : (execute_run e bhir storage heap).thrown = some failure := ht
        unfold execute_outcome
        rw [ht']

/-- Claim C18 (counterexample). A batch of two kernels with one instruction each, on the
engine whose blocks hold an accumulating operation over a scalar iteration space: the
block of the first kernel has to be compiled, `Walker::generate_source` throws
`runtime_error("Accumulation in SCALAR kernel.")`, nothing in `execute_block` or
`execute` catches it, and `execute` is left by the exception: the one call made has
failed, and no error code is returned. -/
theorem execute_left_by_exception :
    generate_source demo_masks demo_text ⟨5, LAYOUT.SCALAR.bits, 1, [⟨5, 0, 0, 0⟩]⟩
      = .error (.runtime_error "Accumulation in SCALAR kernel.") ∧
    (execute_run scalar_engine ⟨2, [⟨[0], []⟩, ⟨[1], []⟩]⟩ () []).calls
      = [⟨0, some 0, false, BH_ERROR, []⟩] ∧
    execute_outcome scalar_engine ⟨2, [⟨[0], []⟩, ⟨[1], []⟩]⟩ () []
      = .error (.runtime_error "Accumulation in SCALAR kernel.") ∧
    ∀ code, execute_outcome scalar_engine ⟨2, [⟨[0], []⟩, ⟨[1], []⟩]⟩ () [] ≠ .ok code := by
  refine ⟨rfl, by decide, rfl, ?_⟩
  intro code h
  have h' : (Except.error (WalkerFailure.runtime_error "Accumulation in SCALAR kernel.") :
      Except WalkerFailure bh_error) = .ok code := h
  cases h'

theorem execute_kernels_unregistered {β σ μ : Type} (e : CpuEngine β σ μ) (bhir : bh_ir)
    (k : Nat) (krnl : bh_ir_kernel) (rest : List bh_ir_kernel) (res : bh_error)
    (symbols : Symbols) (storage : σ) (heap : μ)
    (hext : e.omask_extension (e.compose bhir symbols krnl) = true)
    (hnone : (e.extensions (e.ext_opcode (e.compose bhir symbols krnl))).isNone = true) :
    execute_kernels e bhir k (krnl :: rest) res symbols storage heap
      = execute_kernels e bhir (k + 1) rest res symbols storage heap := by
  rw [Option.isNone_iff_eq_none] at hnone
  rw [execute_kernels]
  simp only [hext, if_true, hnone]

/-- Claim C19 (failing input). A batch of one kernel whose only instruction is an
extension instruction with opcode 100, on an engine that has no implementation registered
for any opcode: the operation mask of the block includes the extension bit, the lookup in
the extension map finds nothing, no call is made, and `Engine::execute` returns
`BH_SUCCESS`, not `BH_EXTMETHOD_NOT_SUPPORTED`. -/
theorem execute_ignores_unregistered_extension :
    (demo_engine (fun _ => false) (fun _ => false)).omask_extension
      ((demo_engine (fun _ => false) (fun _ => false)).compose ⟨1, [⟨[100], []⟩]⟩
        ((demo_engine (fun _ => false) (fun _ => false)).instrs_to_tacs ⟨1, [⟨[100], []⟩]⟩)
        ⟨[100], []⟩) = true ∧
    ((demo_engine (fun _ => false) (fun _ => false)).extensions 100).isNone = true ∧
    (execute_run (demo_engine (fun _ => false) (fun _ => false)) ⟨1, [⟨[100], []⟩]⟩ () []).calls
      = [] ∧
    execute (demo_engine (fun _ => false) (fun _ => false)) ⟨1, [⟨[100], []⟩]⟩ () []
      = BH_SUCCESS ∧
    BH_SUCCESS ≠ BH_EXTMETHOD_NOT_SUPPORTED := by
  refine ⟨by decide, by decide, by decide, by decide, by decide⟩

/-! ## `Engine::execute_block`: the allocation loop -/

theorem malloc_bases_append (l₁ l₂ : List Effect) :
    malloc_bases (l₁ ++ l₂) = malloc_bases l₁ ++ malloc_bases l₂ := by
  induction l₁ with
  | nil => rfl
  | cons x l ih =>
    cases x <;> simp [malloc_bases, ih]

theorem contract_operands_no_malloc {β σ μ : Type} (e : CpuEngine β σ μ) (block : β)
    (tmp : Nat) (is : List Nat) (symbols : Symbols) :
    malloc_bases (contract_operands e block tmp is symbols).2 = [] := by
  induction is generalizing symbols with
  | nil => rfl
  | cons i is ih =>
    unfold contract_operands
    split
    · simp [malloc_bases, ih]
    · exact ih symbols

theorem contract_temps_no_malloc {β σ μ : Type} (e : CpuEngine β σ μ) (block : β)
    (temps : List Nat) (symbols : Symbols) :
    malloc_bases (contract_temps e block temps symbols).2 = [] := by
  induction temps generalizing symbols with
  | nil => rfl
  | cons tmp temps ih =>
    unfold contract_temps
    simp only [malloc_bases_append, contract_operands_no_malloc, ih, List.append_nil]

theorem free_outputs_no_malloc {β σ μ : Type} (e : CpuEngine β σ μ) (symbols : Symbols)
    (tacs : List tac_t) (heap : μ) :
    malloc_bases (free_outputs e symbols tacs heap).2.2 = [] := by
  induction tacs generalizing heap with
  | nil => rfl
  | cons tac rest ih =>
    unfold free_outputs
    split
    · simp only []
      split
      · rfl
      · simp [malloc_bases, ih]
    · exact ih heap

/-- The allocation loop passes to the allocator the bases of the output operands of the
tacs that pass its test, in tac order, up to the first allocation that fails; all of them
when it returns `BH_SUCCESS`. -/
theorem allocate_outputs_spec {β σ μ : Type} (e : CpuEngine β σ μ) (symbols : Symbols)
    (tacs : List tac_t) (heap : μ) :
    malloc_bases (allocate_outputs e symbols tacs heap).2.2 <+:
      ((tacs.filter (allocates e symbols)).map (fun tac => (symbols tac.out).base)) ∧
    ((allocate_outputs e symbols tacs heap).1 = BH_SUCCESS →
      malloc_bases (allocate_outputs e symbols tacs heap).2.2
        = (tacs.filter (allocates e symbols)).map (fun tac => (symbols tac.out).base)) := by
  induction tacs generalizing heap with
  | nil => exact ⟨List.prefix_refl _, fun _ => rfl⟩
  | cons tac rest ih =>
    unfold allocate_outputs
    by_cases ha : allocates e symbols tac = true
    · rw [if_pos ha, List.filter_cons_of_pos ha, List.map_cons]
      simp only []
      by_cases hr : (e.malloc heap (symbols tac.out).base).1 ≠ BH_SUCCESS
      · rw [if_pos hr]
        refine ⟨?_, fun h => absurd h hr⟩
        simp [malloc_bases]
      · rw [if_neg hr]
        obtain ⟨h1, h2⟩ := ih (e.malloc heap (symbols tac.out).base).2
        refine ⟨?_, ?_⟩
        · simp only [malloc_bases]
          exact (List.prefix_cons_inj _).mpr h1
        · intro hs
          simp only [malloc_bases]
          rw [h2 hs]
    · rw [if_neg ha, List.filter_cons_of_neg ha]
      exact ih heap

/-- The test of the allocation loop, in the words of the specification: the tac is an
array operation and the layout of its output operand is none of `SCALAR_CONST`,
`SCALAR_TEMP` and `CONTRACTABLE`. -/
theorem allocates_iff {β σ μ : Type} (e : CpuEngine β σ μ) (symbols : Symbols) (tac : tac_t) :
    allocates e symbols tac = true ↔
      ((tac.op &&& e.ARRAY_OPS) > 0 ∧ (symbols tac.out).layout ≠ LAYOUT.SCALAR_CONST ∧
        (symbols tac.out).layout ≠ LAYOUT.SCALAR_TEMP ∧
        (symbols tac.out).layout ≠ LAYOUT.CONTRACTABLE) := by
  unfold allocates
  rw [Bool.and_eq_true, decide_eq_true_eq, decide_eq_true_eq]
  have hl : ∀ l : LAYOUT,
      (l.bits &&& (LAYOUT.SCALAR_CONST.bits ||| LAYOUT.SCALAR_TEMP.bits |||
        LAYOUT.CONTRACTABLE.bits) = 0) ↔
      (l ≠ LAYOUT.SCALAR_CONST ∧ l ≠ LAYOUT.SCALAR_TEMP ∧ l ≠ LAYOUT.CONTRACTABLE) := by
    intro l
    cases l <;> decide
  rw [hl]

/-- The second half of `execute_block` keeps the block and the symbol table, adds to the
effects the allocator calls of the allocation loop and no other allocator call, and
returns `BH_SUCCESS` only if the allocation loop did. -/
theorem execute_block_finish_spec {β σ μ : Type} (e : CpuEngine β σ μ) (block : β)
    (symbols : Symbols) (storage : σ) (heap : μ) (done : List Effect) :
    (execute_block_finish e block symbols storage heap done).block = block ∧
    (execute_block_finish e block symbols storage heap done).symbols = symbols ∧
    malloc_bases (execute_block_finish e block symbols storage heap done).effects
      = malloc_bases done ++ malloc_bases (allocate_outputs e symbols (e.tacs block) heap).2.2 ∧
    ((execute_block_finish e block symbols storage heap done).res = BH_SUCCESS →
      (allocate_outputs e symbols (e.tacs block) heap).1 = BH_SUCCESS) := by
  unfold execute_block_finish
  simp only []
  by_cases ha : (allocate_outputs e symbols (e.tacs block) heap).1 ≠ BH_SUCCESS
  · rw [if_pos ha]
    exact ⟨rfl, rfl, malloc_bases_append _ _, fun h => absurd h ha⟩
  · rw [if_neg ha]
    have hs := not_not.mp ha
    have hran : ∀ (c : Prop) [Decidable c] (h1 h2 : μ),
        malloc_bases (if c then (h1, [Effect.run]) else (h2, ([] : List Effect))).2 = [] := by
      intro c _ h1 h2
      split <;> rfl
    refine ⟨?_, ?_, ?_, fun _ => hs⟩
    · simp only [apply_ite BlockRun.block, ite_self]
    · simp only [apply_ite BlockRun.symbols, ite_self]
    · simp only [apply_ite BlockRun.effects, ite_self, malloc_bases_append,
        free_outputs_no_malloc, hran, List.append_nil]

/-- The two ways `execute_block` ends: with `BH_ERROR` or an exception before any
allocation, or through its last part, entered with no allocation made. -/
theorem execute_block_ind {β σ μ : Type} (e : CpuEngine β σ μ) (block : β)
    (symbols : Symbols) (storage : σ) (heap : μ) (krnl : bh_ir_kernel)
    (P : BlockRun β σ μ → Prop)
    (h1 : ∀ blk sym st eff thrown, malloc_bases eff = [] →
      P ⟨BH_ERROR, blk, sym, st, heap, eff, thrown⟩)
    (h2 : ∀ blk sym st eff, malloc_bases eff = [] →
      P (execute_block_finish e blk sym st heap eff)) :
    P (execute_block e block symbols storage heap krnl) := by
  unfold execute_block execute_block_load
  dsimp only
  repeat' split
  all_goals first
    | exact h1 _ _ _ _ _ (contract_temps_no_malloc e block _ symbols)
    | exact h1 _ _ _ _ _ rfl
    | exact h2 _ _ _ _ (contract_temps_no_malloc e block _ symbols)
    | exact h2 _ _ _ _ rfl

/-- Claim C20 (as amended). In `Engine::execute_block` the bases passed to the allocator
are, in tac order, bases of output operands of tacs that are array operations and whose
output operand has a layout that is none of `SCALAR_CONST`, `SCALAR_TEMP`, `CONTRACTABLE`:
all of those tacs when `execute_block` returns `BH_SUCCESS`, an initial part of them when it
returns an error.  Hence no base is allocated for an output operand that was turned
`CONTRACTABLE`. -/
theorem execute_block_allocations {β σ μ : Type} (e : CpuEngine β σ μ) (block : β)
    (symbols : Symbols) (storage : σ) (heap : μ) (krnl : bh_ir_kernel) :
    malloc_bases (execute_block e block symbols storage heap krnl).effects <+:
      (((e.tacs (execute_block e block symbols storage heap krnl).block).filter
        (allocates e (execute_block e block symbols storage heap krnl).symbols)).map
        (fun tac => ((execute_block e block symbols storage heap krnl).symbols tac.out).base)) ∧
    ((execute_block e block symbols storage heap krnl).res = BH_SUCCESS →
      malloc_bases (execute_block e block symbols storage heap krnl).effects =
        (((e.tacs (execute_block e block symbols storage heap krnl).block).filter
          (allocates e (execute_block e block symbols storage heap krnl).symbols)).map
          (fun tac =>
            ((execute_block e block symbols storage heap krnl).symbols tac.out).base))) ∧
    (∀ tac, allocates e (execute_block e block symbols storage heap krnl).symbols tac = true ↔
      ((tac.op &&& e.ARRAY_OPS) > 0 ∧
        ((execute_block e block symbols storage heap krnl).symbols tac.out).layout
          ≠ LAYOUT.SCALAR_CONST ∧
        ((execute_block e block symbols storage heap krnl).symbols tac.out).layout
          ≠ LAYOUT.SCALAR_TEMP ∧
        ((execute_block e block symbols storage heap krnl).symbols tac.out).layout
          ≠ LAYOUT.CONTRACTABLE)) := by
  refine execute_block_ind e block symbols storage heap krnl
    (fun r => malloc_bases r.effects <+:
        (((e.tacs r.block).filter (allocates e r.symbols)).map
          (fun tac => (r.symbols tac.out).base)) ∧
      (r.res = BH_SUCCESS → malloc_bases r.effects =
        (((e.tacs r.block).filter (allocates e r.symbols)).map
          (fun tac => (r.symbols tac.out).base))) ∧
      (∀ tac, allocates e r.symbols tac = true ↔
        ((tac.op &&& e.ARRAY_OPS) > 0 ∧ (r.symbols tac.out).layout ≠ LAYOUT.SCALAR_CONST ∧
          (r.symbols tac.out).layout ≠ LAYOUT.SCALAR_TEMP ∧
          (r.symbols tac.out).layout ≠ LAYOUT.CONTRACTABLE))) ?_ ?_
  · intro blk sym st eff thrown heff
    refine ⟨?_, ?_, fun tac => allocates_iff e _ tac⟩
    · show malloc_bases eff <+: _
      rw [heff]
      exact List.nil_prefix
    · intro h
      exact absurd (show BH_ERROR = BH_SUCCESS from h) (by decide)
  · intro blk sym st eff heff
    obtain ⟨hb, hs, hm, hres⟩ := execute_block_finish_spec e blk sym st heap eff
    refine ⟨?_, ?_, fun tac => allocates_iff e _ tac⟩
    · rw [hb, hs, hm, heff, List.nil_append]
      exact (allocate_outputs_spec e sym (e.tacs blk) heap).1
    · intro h
      rw [hb, hs, hm, heff, List.nil_append]
      exact (allocate_outputs_spec e sym (e.tacs blk) heap).2 (hres h)

theorem execute_block_allocations_witness :
    (execute_block (demo_engine (fun _ => false) (fun _ => false)) [demo_tac 0, demo_tac 1]
      ((demo_engine (fun _ => false) (fun _ => false)).instrs_to_tacs ⟨2, []⟩) () []
      ⟨[0, 1], [1]⟩).res = BH_SUCCESS ∧
    ((execute_block (demo_engine (fun _ => false) (fun _ => false)) [demo_tac 0, demo_tac 1]
      ((demo_engine (fun _ => false) (fun _ => false)).instrs_to_tacs ⟨2, []⟩) () []
      ⟨[0, 1], [1]⟩).symbols 1).layout = LAYOUT.CONTRACTABLE ∧
    malloc_bases (execute_block (demo_engine (fun _ => false) (fun _ => false))
      [demo_tac 0, demo_tac 1]
      ((demo_engine (fun _ => false) (fun _ => false)).instrs_to_tacs ⟨2, []⟩) () []
      ⟨[0, 1], [1]⟩).effects = [0] :=
  ⟨by decide, by decide,
    ((execute_block_allocations (demo_engine (fun _ => false) (fun _ => false))
      [demo_tac 0, demo_tac 1]
      ((demo_engine (fun _ => false) (fun _ => false)).instrs_to_tacs ⟨2, []⟩) () []
      ⟨[0, 1], [1]⟩).2.1 (by decide)).trans (by decide)⟩

/-- Claim C20 (counterexample). A block of two array operations with contiguous output
operands on the bases 0 and 1, on an engine whose allocator fails for base 0:
`execute_block` returns `BH_OUT_OF_MEMORY` after the first allocator call, and the base of
the second tac is never passed to the allocator although that tac is an array operation
whose output layout is none of `SCALAR_CONST`, `SCALAR_TEMP`, `CONTRACTABLE`. -/
theorem execute_block_stops_allocating :
    (execute_block (demo_engine (fun _ => false) (fun b => b == 0)) [demo_tac 0, demo_tac 1]
      ((demo_engine (fun _ => false) (fun b => b == 0)).instrs_to_tacs ⟨2, []⟩) () []
      ⟨[0, 1], []⟩).res = BH_OUT_OF_MEMORY ∧
    (demo_engine (fun _ => false) (fun b => b == 0)).tacs
      (execute_block (demo_engine (fun _ => false) (fun b => b == 0)) [demo_tac 0, demo_tac 1]
        ((demo_engine (fun _ => false) (fun b => b == 0)).instrs_to_tacs ⟨2, []⟩) () []
        ⟨[0, 1], []⟩).block = [demo_tac 0, demo_tac 1] ∧
    ((demo_tac 1).op &&& (demo_engine (fun _ => false) (fun b => b == 0)).ARRAY_OPS) > 0 ∧
    (execute_block (demo_engine (fun _ => false) (fun b => b == 0)) [demo_tac 0, demo_tac 1]
      ((demo_engine (fun _ => false) (fun b => b == 0)).instrs_to_tacs ⟨2, []⟩) () []
      ⟨[0, 1], []⟩).symbols (demo_tac 1).out = ⟨LAYOUT.CONTIGUOUS, 1⟩ ∧
    malloc_bases (execute_block (demo_engine (fun _ => false) (fun b => b == 0))
      [demo_tac 0, demo_tac 1]
      ((demo_engine (fun _ => false) (fun b => b == 0)).instrs_to_tacs ⟨2, []⟩) () []
      ⟨[0, 1], []⟩).effects = [0] ∧
    1 ∉ malloc_bases (execute_block (demo_engine (fun _ => false) (fun b => b == 0))
      [demo_tac 0, demo_tac 1]
      ((demo_engine (fun _ => false) (fun b => b == 0)).instrs_to_tacs ⟨2, []⟩) () []
      ⟨[0, 1], []⟩).effects := by
  refine ⟨by decide, by decide, by decide, by decide, by decide, by decide⟩

/-! ## `bh_view_disjoint`: narrowing and argument order -/

/-- Claim C24 (failing input). The views `base[2^31 : 2^31+4]` and `base[2^31-2 : 2^31+2]`
of one base have starts, strides and shapes that fit in 64-bit signed integers and both
address the elements `2^31` and `2^31 + 1`.  The algorithm over exact integers answers
false (not disjoint); `bh_view_disjoint` stores the starts and the interval ends in `int`
locals, where `2^31` becomes `-2^31`, and answers true. -/
theorem bh_view_disjoint_narrows :
    high0.base = high1.base ∧ bh_is_constant high0 = false ∧ bh_is_constant high1 = false ∧
    (0 ≤ high0.start ∧ high0.start < 2 ^ 63) ∧ (0 ≤ high1.start ∧ high1.start < 2 ^ 63) ∧
    index_in_shape high0 [0] ∧ index_in_shape high1 [2] ∧
    index_offset high0 [0] = index_offset high1 [2] ∧
    bh_view_disjoint_exact high0 high1 = false ∧
    bh_view_disjoint high0 high1 = true := by
  refine ⟨rfl, rfl, rfl, by decide, by decide, ⟨rfl, by decide⟩, ⟨rfl, by decide⟩,
    by decide, by decide, by decide⟩

/-- Claim C26 (failing input). The view `base[2^31-2 : 2^31+2]` is not a constant and has
shape `[4]`; the end of its interval, `2^31 + 2`, is stored in an `int` and becomes
negative, so `bh_view_disjoint` of the view and itself returns true, and
`bh_instr_dependency(x, x)` is false for an instruction `x` that writes the view. -/
theorem bh_view_disjoint_self_true :
    bh_is_constant high1 = false ∧ (∀ k, k < high1.ndim → 1 ≤ high1.shape k) ∧
    bh_view_disjoint high1 high1 = true ∧
    bh_is_constant ((write_to high1).operand 0) = false ∧
    bh_instr_dependency (fun _ => 2) (write_to high1) (write_to high1) = false := by
  decide

/-- Claim C27 (failing input). The views `base[0:3]` and `base[2:0:-1]` of one base both
address element 1.  `gcd(1, -1)` is `-1` and `gcd(-1, 1)` is `1`, so the two orders of the
arguments compute with strides of opposite sign: `bh_view_disjoint(a, b)` returns true and
`bh_view_disjoint(b, a)` returns false. -/
theorem bh_view_disjoint_order :
    forward3.base = backward2.base ∧
    index_in_shape forward3 [1] ∧ index_in_shape backward2 [1] ∧
    index_offset forward3 [1] = index_offset backward2 [1] ∧
    gcd (toInt32 (forward3.stride 0)) (toInt32 (backward2.stride 0)) = -1 ∧
    gcd (toInt32 (backward2.stride 0)) (toInt32 (forward3.stride 0)) = 1 ∧
    bh_view_disjoint forward3 backward2 = true ∧
    bh_view_disjoint backward2 forward3 = false := by
  refine ⟨rfl, ⟨rfl, by decide⟩, ⟨rfl, by decide⟩, by decide, by decide, by decide,
    by decide, by decide⟩

/-! ## `bh_view_simplify(view, shape)`: reads of the target shape -/

/-- Claim C28 (failing input). For the contiguous 2×3×4 view and the target shape `[2]`
(one entry, the view has three axes) the first iteration finds `view.shape[0] == shape[0]`
and advances `res.ndim` to 1; the second iteration reads `shape[1]`, past the end of the
target shape, before any `throw` is reached. -/
theorem bh_view_simplify_to_reads_past_end :
    ([2] : List Int).length ≤ contiguous234.ndim ∧
    bh_view_simplify_to contiguous234 [2] = .error (.read_past_end 1) ∧
    ¬ (1 < ([2] : List Int).length) :=
  ⟨by decide, rfl, by decide⟩

/-! ## `bh_view_disjoint` of a view and itself, within the range of `int` -/

theorem toInt32_of_signed_range {x : Int} (h0 : -2 ^ 31 ≤ x) (h1 : x < 2 ^ 31) :
    toInt32 x = x := by
  unfold toInt32
  rw [Int.emod_eq_of_lt (by omega) (by omega)]
  omega

theorem natAbs_tmod_le (b c : Int) : (b.tmod c).natAbs ≤ b.natAbs := by
  rcases b with m | m <;> rcases c with n | n
  · simpa [Int.tmod] using Nat.mod_le m n
  · simpa [Int.tmod] using Nat.mod_le m (n + 1)
  · simpa [Int.tmod] using Nat.mod_le (m + 1) n
  · simpa [Int.tmod] using Nat.mod_le (m + 1) (n + 1)

theorem natAbs_tdiv_le (b c : Int) : (b.tdiv c).natAbs ≤ b.natAbs := by
  rw [Int.natAbs_tdiv]
  exact Nat.div_le_self _ _

/-- The loop of `bh_view_disjoint` on a view and itself, entered with equal starts that
are no larger than the view's start: when strides fit in an `int` and `|start| + shape[i]`
stays below `2^31`, no store narrows and the loop answers false. -/
theorem disjoint_loop_self (a : bh_view) (n i : Nat) (astart stride : Int)
    (hstart : astart.natAbs ≤ a.start.natAbs)
    (hrange : ∀ k, i ≤ k → k < i + n → 1 ≤ a.shape k ∧
      -2 ^ 31 ≤ a.stride k ∧ a.stride k < 2 ^ 31 ∧ a.start.natAbs + a.shape k < 2 ^ 31) :
    disjoint_loop a a n i astart astart stride = false := by
  induction n generalizing i astart stride with
  | zero => simp [disjoint_loop]
  | succ n ih =>
    obtain ⟨hsh, hs0, hs1, hext⟩ := hrange i (le_refl _) (by omega)
    have hrest : ∀ k, i + 1 ≤ k → k < i + 1 + n → 1 ≤ a.shape k ∧
        -2 ^ 31 ≤ a.stride k ∧ a.stride k < 2 ^ 31 ∧ a.start.natAbs + a.shape k < 2 ^ 31 :=
      fun k h1 h2 => hrange k (by omega) (by omega)
    unfold disjoint_loop
    simp only [toInt32_of_signed_range hs0 hs1]
    by_cases hz : a.stride i = 0
    · have hg : gcd (a.stride i) (a.stride i) = 0 := by
        rw [hz]
        rfl
      rw [if_pos hg]
      exact ih (i + 1) astart _ hstart hrest
    · have hg : gcd (a.stride i) (a.stride i) = a.stride i := gcd_self hz
      rw [hg, if_neg hz, Int.tdiv_self hz, mul_one]
      have hdiv := natAbs_tdiv_le astart (a.stride i)
      have has : toInt32 (astart.tdiv (a.stride i)) = astart.tdiv (a.stride i) :=
        toInt32_of_signed_range (by omega) (by omega)
      rw [has]
      have hae : toInt32 (astart.tdiv (a.stride i) + a.shape i)
          = astart.tdiv (a.stride i) + a.shape i :=
        toInt32_of_signed_range (by omega) (by omega)
      rw [hae, if_neg (by omega)]
      exact ih (i + 1) (astart.tmod (a.stride i)) _
        (le_trans (natAbs_tmod_le _ _) hstart) hrest

/-- For every view that is not a constant, has every shape entry at least 1, strides that
fit in an `int` and `|start| + shape[i]` below `2^31` on every axis,
`bh_view_disjoint(a, a)` returns false, for positive, zero and negative strides alike. -/
theorem bh_view_disjoint_self_in_range (a : bh_view) (hc : bh_is_constant a = false)
    (hrange : ∀ k, k < a.ndim → 1 ≤ a.shape k ∧
      -2 ^ 31 ≤ a.stride k ∧ a.stride k < 2 ^ 31 ∧ a.start.natAbs + a.shape k < 2 ^ 31) :
    bh_view_disjoint a a = false := by
  unfold bh_view_disjoint
  simp only [hc, Bool.or_self, Bool.false_eq_true, if_false, ne_eq, not_true_eq_false]
  by_cases hnd : a.ndim = 0
  · rw [hnd]
    simp [disjoint_loop]
  · obtain ⟨_, _, _, hext⟩ := hrange 0 (by omega)
    have hst : -2 ^ 31 ≤ a.start ∧ a.start < 2 ^ 31 := by omega
    rw [toInt32_of_signed_range hst.1 hst.2]
    exact disjoint_loop_self a a.ndim 0 a.start 1 (le_refl _)
      (fun k _ hk => hrange k (by omega))

theorem bh_view_disjoint_self_in_range_witness :
    bh_is_constant backward2 = false ∧ backward2.stride 0 = -1 ∧
    bh_view_disjoint backward2 backward2 = false :=
  ⟨rfl, by decide, bh_view_disjoint_self_in_range backward2 rfl (by
    intro k hk
    have hk0 : k = 0 := by
      have : backward2.ndim = 1 := rfl
      omega
    subst hk0
    decide)⟩

/-! ## `bh_view_disjoint` and the order of its arguments, for non-negative strides -/

theorem gcd_loop_natCast (fuel : Nat) (b c : Nat) (h : c < fuel) :
    gcd_loop fuel (b : Int) (c : Int) = ((Nat.gcd b c : Nat) : Int) := by
  induction fuel generalizing b c with
  | zero => omega
  | succ fuel ih =>
    unfold gcd_loop
    by_cases hc : c = 0
    · simp [hc]
    · have hc' : ¬ (c : Int) = 0 := by exact_mod_cast hc
      rw [if_neg hc']
      have hmod : (b : Int).tmod (c : Int) = ((b % c : Nat) : Int) := by
        rw [Int.tmod_eq_emod (by omega) (by omega)]
        norm_cast
      rw [hmod, ih c (b % c) (by
        have := Nat.mod_lt b (Nat.pos_of_ne_zero hc)
        omega)]
      rw [Nat.gcd_comm c (b % c), ← Nat.gcd_rec, Nat.gcd_comm]

/-- On non-negative arguments `gcd` computes the greatest common divisor. -/
theorem gcd_natCast (a b : Nat) : gcd (a : Int) (b : Int) = ((Nat.gcd a b : Nat) : Int) := by
  unfold gcd
  by_cases hb : b = 0
  · simp [hb]
  · have hb' : ¬ (b : Int) = 0 := by exact_mod_cast hb
    rw [if_neg hb']
    have hmod : (a : Int).tmod (b : Int) = ((a % b : Nat) : Int) := by
      rw [Int.tmod_eq_emod (by omega) (by omega)]
      norm_cast
    rw [hmod, Int.natAbs_ofNat, gcd_loop_natCast b b (a % b) (Nat.mod_lt a (Nat.pos_of_ne_zero hb))]
    rw [Nat.gcd_comm b (a % b), ← Nat.gcd_rec, Nat.gcd_comm]

theorem gcd_comm_of_nonneg {a b : Int} (ha : 0 ≤ a) (hb : 0 ≤ b) : gcd a b = gcd b a := by
  obtain ⟨m, rfl⟩ := Int.eq_ofNat_of_zero_le ha
  obtain ⟨n, rfl⟩ := Int.eq_ofNat_of_zero_le hb
  rw [gcd_natCast, gcd_natCast, Nat.gcd_comm]

theorem disjoint_loop_comm (a b : bh_view) (n i : Nat) (astart bstart stride : Int)
    (hpos : ∀ k, i ≤ k → k < i + n →
      0 ≤ toInt32 (a.stride k) ∧ 0 ≤ toInt32 (b.stride k)) :
    disjoint_loop a b n i astart bstart stride = disjoint_loop b a n i bstart astart stride := by
  induction n generalizing i astart bstart stride with
  | zero =>
    unfold disjoint_loop
    exact decide_eq_decide.mpr (and_congr Iff.rfl ne_comm)
  | succ n ih =>
    obtain ⟨ha, hb⟩ := hpos i (le_refl _) (by omega)
    have hrest : ∀ k, i + 1 ≤ k → k < i + 1 + n →
        0 ≤ toInt32 (a.stride k) ∧ 0 ≤ toInt32 (b.stride k) :=
      fun k h1 h2 => hpos k (by omega) (by omega)
    rw [disjoint_loop, disjoint_loop]
    simp only [gcd_comm_of_nonneg hb ha]
    split
    · exact ih (i + 1) _ _ _ hrest
    · rw [ih (i + 1) _ _ _ hrest]
      simp only [or_comm]

/-- For all views `a` and `b` whose strides, as the `int`s that `bh_view_disjoint` computes
with, are not negative, `bh_view_disjoint(a, b)` equals `bh_view_disjoint(b, a)`. -/
theorem bh_view_disjoint_comm_of_nonneg (a b : bh_view)
    (hpos : ∀ k, k < a.ndim → 0 ≤ toInt32 (a.stride k) ∧ 0 ≤ toInt32 (b.stride k)) :
    bh_view_disjoint a b = bh_view_disjoint b a := by
  unfold bh_view_disjoint
  rw [Bool.or_comm (bh_is_constant a) (bh_is_constant b)]
  split
  · rfl
  · by_cases hbase : a.base = b.base
    · by_cases hnd : a.ndim = b.ndim
      · simp only [hbase, hnd, ne_eq, not_true_eq_false, if_false]
        rw [← hnd]
        rw [disjoint_loop_comm a b a.ndim 0 _ _ 1 (fun k _ hk => hpos k (by omega))]
      · have hnd' : ¬ b.ndim = a.ndim := fun h => hnd h.symm
        simp [hbase, hnd, hnd']
    · have hbase' : ¬ b.base = a.base := fun h => hbase h.symm
      simp [hbase, hbase']

theorem bh_view_disjoint_comm_of_nonneg_witness :
    (∀ k, k < evens.ndim → 0 ≤ toInt32 (evens.stride k) ∧ 0 ≤ toInt32 (odds.stride k)) ∧
    bh_view_disjoint evens odds = bh_view_disjoint odds evens :=
  ⟨by decide, bh_view_disjoint_comm_of_nonneg evens odds (by decide)⟩

/-! ## `Reduce::bh_reduce`: the reduced view -/

/-- The loop of `Reduce::bh_reduce` from a state in which `a` is `i` before the axis and
`i + 1` from the axis on: it ends within the bound, writes exactly the remaining entries
below `ndim - 1`, each with the entry of the input that the removal of the axis puts
there, and leaves every other entry as it was. -/
theorem reduce_loop_spec (inp : bh_view) (axis : Int) (h1 : axis < inp.ndim) :
    ∀ (fuel : Nat) (s : ReduceState),
      s.a = (if (s.i : Int) < axis then s.i else s.i + 1) → inp.ndim ≤ s.a + fuel →
      ∃ r, reduce_loop inp axis fuel s = some r ∧
        r.inn.ndim = s.inn.ndim ∧ r.inn.base = s.inn.base ∧ r.inn.start = s.inn.start ∧
        (∀ j : Nat, s.i ≤ j → j < inp.ndim - 1 →
          r.inn.shape j = inp.shape (if (j : Int) < axis then j else j + 1) ∧
          r.inn.stride j = inp.stride (if (j : Int) < axis then j else j + 1)) ∧
        (∀ j : Nat, j < s.i ∨ inp.ndim - 1 ≤ j →
          r.inn.shape j = s.inn.shape j ∧ r.inn.stride j = s.inn.stride j) ∧
        (∀ j, j ∈ r.written → j ∈ s.written ∨ (s.i ≤ j ∧ j < inp.ndim - 1)) := by
  intro fuel
  induction fuel with
  | zero =>
    intro s ha hf
    have hna : ¬ s.a < inp.ndim := by omega
    refine ⟨s, by simp [reduce_loop, hna], rfl, rfl, rfl, ?_, fun j _ => ⟨rfl, rfl⟩,
      fun j hj => Or.inl hj⟩
    intro j hj1 hj2
    exfalso
    split at ha <;> omega
  | succ fuel ih =>
    intro s ha hf
    by_cases hlt : s.a < inp.ndim
    · have hi : s.i < inp.ndim - 1 := by
        split at ha <;> omega
      obtain ⟨r, hr, hnd, hb, hs, hnew, hold, hw⟩ := ih
        { i := s.i + 1
          a := if ((s.i + 1 : Nat) : Int) = axis then s.a + 1 + 1 else s.a + 1
          inn :=
            { s.inn with
              shape := upd s.inn.shape s.i (inp.shape s.a)
              stride := upd s.inn.stride s.i (inp.stride s.a) }
          written := s.written ++ [s.i] }
        (by
          show (if ((s.i + 1 : Nat) : Int) = axis then s.a + 1 + 1 else s.a + 1)
            = (if ((s.i + 1 : Nat) : Int) < axis then s.i + 1 else s.i + 1 + 1)
          split at ha <;> split <;> split <;> omega)
        (by
          show inp.ndim ≤ (if ((s.i + 1 : Nat) : Int) = axis then s.a + 1 + 1 else s.a + 1) + fuel
          split <;> omega)
      refine ⟨r, by rw [reduce_loop, if_pos hlt]; exact hr, hnd, hb, hs, ?_, ?_, ?_⟩
      · intro j hj1 hj2
        by_cases hji : j = s.i
        · subst hji
          have h := hold s.i (Or.inl (Nat.lt_succ_self _))
          have hsa : s.a = (if (s.i : Int) < axis then s.i else s.i + 1) := ha
          rw [← hsa]
          exact ⟨h.1.trans (upd_same _ _ _), h.2.trans (upd_same _ _ _)⟩
        · exact hnew j (by show s.i + 1 ≤ j; omega) hj2
      · intro j hj
        have hne : j ≠ s.i := by omega
        have h := hold j (by
          rcases hj with hj | hj
          · exact Or.inl (by show j < s.i + 1; omega)
          · exact Or.inr hj)
        exact ⟨h.1.trans (upd_other _ _ hne), h.2.trans (upd_other _ _ hne)⟩
      · intro j hj
        rcases hw j hj with h | h
        · rcases List.mem_append.mp h with h | h
          · exact Or.inl h
          · right
            have : j = s.i := by simpa using h
            omega
        · right
          have : s.i + 1 ≤ j := h.1
          omega
    · refine ⟨s, by rw [reduce_loop, if_neg hlt], rfl, rfl, rfl, ?_, fun j _ => ⟨rfl, rfl⟩,
        fun j hj => Or.inl hj⟩
      intro j hj1 hj2
      exfalso
      split at ha <;> omega

/-- Claim C30. For every input view and every reduction axis with `0 ≤ axis < ndim` (so
`ndim ≥ 1`), the block of `Reduce::bh_reduce` that builds `inn` ends, `inn` has
`ndim - 1` axes (base and start are those of the input), its shape and stride at every
index below `ndim - 1` are those of the input with axis `axis` removed and the remaining
axes kept in order, and no entry at an index `ndim - 1` or above is written. -/
theorem bh_reduce_removes_axis (inp : bh_view) (axis : Int)
    (h0 : 0 ≤ axis) (h1 : axis < inp.ndim) :
    ∃ r, bh_reduce_inn inp axis = some r ∧
      r.inn.ndim = inp.ndim - 1 ∧ r.inn.base = inp.base ∧ r.inn.start = inp.start ∧
      (∀ j : Nat, j < inp.ndim - 1 →
        r.inn.shape j = inp.shape (if (j : Int) < axis then j else j + 1) ∧
        r.inn.stride j = inp.stride (if (j : Int) < axis then j else j + 1)) ∧
      (∀ j, j ∈ r.written → j < inp.ndim - 1) := by
  obtain ⟨r, hr, hndim, hb, hs, hnew, _, hw⟩ := reduce_loop_spec inp axis h1 inp.ndim
    ⟨0, if axis ≠ 0 then 0 else 1, { inp with ndim := inp.ndim - 1 }, []⟩
    (by
      show (if axis ≠ 0 then 0 else 1) = (if ((0 : Nat) : Int) < axis then 0 else 0 + 1)
      split <;> split <;> omega)
    (by omega)
  refine ⟨r, hr, hndim, hb, hs, fun j hj => hnew j (Nat.zero_le _) hj, ?_⟩
  intro j hj
  rcases hw j hj with h | h
  · cases h
  · exact h.2

theorem bh_reduce_removes_axis_witness :
    ((0 : Int) ≤ 1 ∧ (1 : Int) < contiguous234.ndim) ∧
    ∃ r, bh_reduce_inn contiguous234 1 = some r ∧
      r.inn.ndim = contiguous234.ndim - 1 ∧ r.inn.base = contiguous234.base ∧
      r.inn.start = contiguous234.start ∧
      (∀ j : Nat, j < contiguous234.ndim - 1 →
        r.inn.shape j = contiguous234.shape (if (j : Int) < 1 then j else j + 1) ∧
        r.inn.stride j = contiguous234.stride (if (j : Int) < 1 then j else j + 1)) ∧
      (∀ j, j ∈ r.written → j < contiguous234.ndim - 1) :=
  ⟨by decide, bh_reduce_removes_axis contiguous234 1 (by decide) (by decide)⟩

/-! ## `work_ranges` -/

/-- Claim C29 (failing input). `work_ranges` accepts the work group size 256 and the block
size `2^32 - 2` (both are below `2^32 - 1`).  The least multiple of 256 that is at least
the block size is `2^32`; the sum `block_size + (lsize - rem)` is computed in `uint32_t`
and wraps around: the returned global size is 0, which is less than the block size. -/
theorem work_ranges_wraps :
    (1 ≤ 256 ∧ 256 < uint32_max) ∧ ((0 : Int) ≤ 2 ^ 32 - 2 ∧ (2 ^ 32 - 2 : Int) < uint32_max) ∧
    work_ranges 256 (2 ^ 32 - 2) = .ok (0, 256) ∧
    ¬ ((2 ^ 32 - 2 : Int) ≤ ((0 : Nat) : Int)) ∧
    (256 ∣ 2 ^ 32 ∧ ∀ g : Nat, 256 ∣ g → (2 ^ 32 - 2 : Int) ≤ g → 2 ^ 32 ≤ g) := by
  refine ⟨by decide, by decide, rfl, by decide, by decide, ?_⟩
  intro g hg hle
  obtain ⟨q, rfl⟩ := hg
  omega

/-- On the inputs that `work_ranges` accepts and for which some multiple of the work group
size below `2^32` is at least the block size, the returned local size is the work group
size and the returned global size is the least multiple of it that is at least the block
size. -/
theorem work_ranges_rounds_up (work_group_size : Nat) (block_size : Int)
    (hw : 1 ≤ work_group_size) (hwa : work_group_size < uint32_max)
    (hb : 0 ≤ block_size) (hba : block_size < uint32_max)
    (hfit : ∃ g : Nat, work_group_size ∣ g ∧ block_size ≤ g ∧ g < 2 ^ 32) :
    ∃ gsize, work_ranges work_group_size block_size = .ok (gsize, work_group_size) ∧
      gsize < 2 ^ 32 ∧ work_group_size ∣ gsize ∧ block_size ≤ gsize ∧
      ∀ g : Nat, work_group_size ∣ g → block_size ≤ g → gsize ≤ g := by
  obtain ⟨b, rfl⟩ := Int.eq_ofNat_of_zero_le hb
  unfold uint32_max at hwa hba
  have hb32 : b < 2 ^ 32 - 1 := by exact_mod_cast hba
  have hguard : ¬ (uint32_max ≤ work_group_size ∨ (uint32_max : Int) ≤ (b : Int) ∨
      (b : Int) < 0) := by
    unfold uint32_max
    omega
  have hl : work_group_size % 2 ^ 32 = work_group_size := Nat.mod_eq_of_lt (by omega)
  have hcast : to_uint32 (b : Int) = b := by
    unfold to_uint32
    have : ((b : Int) % 2 ^ 32) = b := Int.emod_eq_of_lt (by omega) (by omega)
    rw [this]
    rfl
  have hrem : b % work_group_size < work_group_size := Nat.mod_lt _ (by omega)
  have hdm := Nat.div_add_mod b work_group_size
  unfold work_ranges
  rw [if_neg hguard]
  simp only [hl, hcast]
  rw [if_neg (by omega)]
  by_cases h0 : b % work_group_size = 0
  · rw [if_pos h0, Nat.add_zero, Nat.mod_eq_of_lt (show b < 2 ^ 32 by omega)]
    refine ⟨b, rfl, by omega, Nat.dvd_of_mod_eq_zero h0, le_refl _, ?_⟩
    intro g _ hg
    exact_mod_cast hg
  · have h1 : (work_group_size + 2 ^ 32 - b % work_group_size) % 2 ^ 32
        = work_group_size - b % work_group_size := by
      rw [show work_group_size + 2 ^ 32 - b % work_group_size
        = (work_group_size - b % work_group_size) + 2 ^ 32 by omega, Nat.add_mod_right]
      exact Nat.mod_eq_of_lt (by omega)
    have hsum : b + (work_group_size - b % work_group_size)
        = work_group_size * (b / work_group_size + 1) := by
      rw [Nat.mul_add, Nat.mul_one]
      omega
    have hleast : ∀ g : Nat, work_group_size ∣ g → (b : Int) ≤ g →
        b + (work_group_size - b % work_group_size) ≤ g := by
      intro g hg hle
      obtain ⟨q, rfl⟩ := hg
      have hle' : b ≤ work_group_size * q := by exact_mod_cast hle
      have hne : b ≠ work_group_size * q := by
        intro h
        apply h0
        rw [h]
        exact Nat.mul_mod_right _ _
      have hq : b / work_group_size < q := by
        rw [Nat.div_lt_iff_lt_mul (by omega), Nat.mul_comm]
        omega
      rw [hsum]
      exact Nat.mul_le_mul_left _ hq
    have hlt : b + (work_group_size - b % work_group_size) < 2 ^ 32 := by
      obtain ⟨g, hg1, hg2, hg3⟩ := hfit
      exact lt_of_le_of_lt (hleast g hg1 hg2) hg3
    rw [if_neg h0, h1, Nat.mod_eq_of_lt hlt]
    refine ⟨_, rfl, hlt, ⟨_, hsum⟩, ?_, hleast⟩
    push_cast
    omega

theorem work_ranges_rounds_up_witness :
    (1 ≤ 256 ∧ 256 < uint32_max) ∧ ((0 : Int) ≤ 1000 ∧ (1000 : Int) < uint32_max) ∧
    ∃ gsize, work_ranges 256 1000 = .ok (gsize, 256) ∧
      gsize < 2 ^ 32 ∧ 256 ∣ gsize ∧ (1000 : Int) ≤ gsize ∧
      ∀ g : Nat, 256 ∣ g → (1000 : Int) ≤ g → gsize ≤ g :=
  ⟨by decide, by decide,
    work_ranges_rounds_up 256 1000 (by decide) (by decide) (by decide) (by decide)
      ⟨1024, by decide, by decide, by decide⟩⟩

/-! ## Configuration lookup -/

/-- The typed lookups never read the environment: whatever the environment holds, they
return what the `iniparser` accessor gives for the config file. -/
theorem config_lookup_typed_ignores_env {δ ρ : Type} (x : ConfigExternals δ ρ)
    (env env' : Environment) (component : bh_component δ) (key : String) :
    (∀ notfound, bh_component_config_lookup_bool x env component key notfound
      = bh_component_config_lookup_bool x env' component key notfound) ∧
    (∀ notfound, bh_component_config_lookup_int x env component key notfound
      = bh_component_config_lookup_int x env' component key notfound) ∧
    (∀ notfound, bh_component_config_lookup_double x env component key notfound
      = bh_component_config_lookup_double x env' component key notfound) :=
  ⟨fun _ => rfl, fun _ => rfl, fun _ => rfl⟩

/-- Claim C22 (failing input). The component `cpu` with `jit_level = 1` and
`jit_fusion = false` in the config file, and the environment variables
`BH_CPU_JIT_LEVEL=3` and `BH_CPU_JIT_FUSION=true`: the string lookup returns the values of
the environment, `3` and `true`; the `int` lookup returns 1 and the `bool` lookup 0, the
values of the config file. -/
theorem config_lookup_int_ignores_env :
    lookup_env demo_env demo_component "jit_level" = some "3" ∧
    bh_component_config_lookup demo_ini demo_env demo_component "jit_level" = some "3" ∧
    bh_component_config_lookup_int demo_ini demo_env demo_component "jit_level" 0 = 1 ∧
    digits_value "3" = 3 ∧
    lookup_env demo_env demo_component "jit_fusion" = some "true" ∧
    bh_component_config_lookup demo_ini demo_env demo_component "jit_fusion" = some "true" ∧
    bh_component_config_lookup_bool demo_ini demo_env demo_component "jit_fusion" 0 = 0 := by
  refine ⟨by decide, by decide, by decide, by decide, by decide, by decide, by decide⟩

/-! ## The cache limit of `EngineOpenCL::EngineOpenCL` -/

/-- A text in which the pattern does not occur is searched to its end: `find` returns
`npos`. -/
theorem find_from_absent (pat : List Char) (s : List Char) (k : Nat)
    (h : ∀ pre post, s ≠ pre ++ pat ++ post) : find_from pat s k = npos := by
  induction s generalizing k with
  | nil =>
    have hne : pat ≠ [] := by
      intro hp
      exact h [] [] (by simp [hp])
    simp [find_from, hne]
  | cons c s ih =>
    unfold find_from
    have hnp : ¬ pat.isPrefixOf (c :: s) = true := by
      intro hp
      obtain ⟨post, hpost⟩ := List.isPrefixOf_iff_prefix.mp hp
      exact h [] post (by simp [hpost])
    rw [if_neg hnp]
    apply ih
    intro pre post hs
    exact h (c :: pre) post (by simp [hs])

/-- For every device whose name does not contain the text `CPU`, and every configured
percentage between 0 and 100, the limit that the constructor sets is the floor of a tenth
of the device memory: the configured percentage has no part in it. -/
theorem malloc_cache_limit_without_cpu (malloc_cache_limit : Option Int) (gpu_mem : Nat)
    (device_name : String)
    (hpct : 0 ≤ malloc_cache_limit.getD 90 ∧ malloc_cache_limit.getD 90 ≤ 100)
    (hname : ∀ pre post, device_name.data ≠ pre ++ "CPU".data ++ post) :
    malloc_cache_limit_in_bytes malloc_cache_limit gpu_mem device_name
      = some (to_uint64 (Dbl.floor (Dbl.mul (Dbl.of_nat gpu_mem) Dbl.tenth))) := by
  have hfind : string_find device_name "CPU" = npos := find_from_absent _ _ 0 hname
  have hne : string_find device_name "CPU" ≠ 0 := by
    rw [hfind]
    decide
  unfold malloc_cache_limit_in_bytes
  simp only []
  rw [if_neg (by omega), if_pos hne]

theorem malloc_cache_limit_without_cpu_witness :
    ((0 : Int) ≤ (some 50 : Option Int).getD 90 ∧ (some 50 : Option Int).getD 90 ≤ 100) ∧
    malloc_cache_limit_in_bytes (some 50) 1000 "GPU"
      = some (to_uint64 (Dbl.floor (Dbl.mul (Dbl.of_nat 1000) Dbl.tenth))) :=
  ⟨by decide, malloc_cache_limit_without_cpu (some 50) 1000 "GPU" (by decide) (by
    intro pre post h
    have hl := congrArg List.length h
    simp at hl
    have h3 : pre = [] ∧ post = [] := by
      constructor
      · exact List.length_eq_zero.mp (by omega)
      · exact List.length_eq_zero.mp (by omega)
    rw [h3.1, h3.2] at h
    exact absurd h (by decide))⟩

set_option maxRecDepth 4000 in
/-- Claim C25 (failing input). The device `GeForce GTX 1080` (the name does not contain
`CPU`, `find` returns `npos`) with `2^33` bytes of global memory and the default
percentage 90: the claim asks for the limit `floor(2^33 * 90 / 100) = 7730941132`; the
constructor sets `floor(2^33 * 0.10) = 858993459`, and sets the same with the percentage
50.  A device whose name starts with `CPU` gets the limit 7730941132. -/
theorem malloc_cache_limit_ignores_percent :
    string_find "GeForce GTX 1080" "CPU" = npos ∧
    malloc_cache_limit_in_bytes none (2 ^ 33) "GeForce GTX 1080" = some 858993459 ∧
    (2 ^ 33 * 90 / 100 : Nat) = 7730941132 ∧
    malloc_cache_limit_in_bytes (some 50) (2 ^ 33) "GeForce GTX 1080" = some 858993459 ∧
    (2 ^ 33 * 50 / 100 : Nat) = 4294967296 ∧
    malloc_cache_limit_in_bytes none (2 ^ 33) "CPU" = some 7730941132 := by
  refine ⟨by decide, by decide, by decide, by decide, by decide, by decide⟩

/-! ## `Walker::generate_source`: the refusals -/

/-- Claim C21. `Walker::generate_source` throws for every kernel whose operation mask
contains no array operation and for every kernel whose mask contains an `EXTENSION`
operation: the first two tests of the function throw a `runtime_error` before any text is
made, and in neither case is a source text returned. -/
theorem generate_source_refuses (m : TacMasks) (w : WalkerText) (kernel : WalkerKernel)
    (h : (kernel.omask &&& m.ARRAY_OPS) = 0 ∨ (kernel.omask &&& m.EXTENSION) ≠ 0) :
    (generate_source m w kernel = .error (.runtime_error "No array operations!") ∨
      generate_source m w kernel = .error (.runtime_error "EXTENSION in kernel")) ∧
    ((kernel.omask &&& m.ARRAY_OPS) = 0 →
      generate_source m w kernel = .error (.runtime_error "No array operations!")) ∧
    ∀ text, generate_source m w kernel ≠ .ok text := by
  have hthrow : generate_source m w kernel = .error (.runtime_error "No array operations!") ∨
      generate_source m w kernel = .error (.runtime_error "EXTENSION in kernel") := by
    unfold generate_source
    by_cases ha : (kernel.omask &&& m.ARRAY_OPS) = 0
    · left
      rw [if_pos ha]
    · right
      have he : (kernel.omask &&& m.EXTENSION) ≠ 0 := h.resolve_left ha
      rw [if_neg ha, if_pos he]
  refine ⟨hthrow, ?_, ?_⟩
  · intro ha
    unfold generate_source
    rw [if_pos ha]
  · intro text htext
    rcases hthrow with h1 | h1 <;> rw [h1] at htext <;> cases htext

theorem generate_source_refuses_witness :
    (((⟨3, 16, 1, [⟨1, 0, 0, 0⟩, ⟨2, 0, 1, 100⟩]⟩ : WalkerKernel).omask
        &&& demo_masks.ARRAY_OPS) = 0 ∨
      ((⟨3, 16, 1, [⟨1, 0, 0, 0⟩, ⟨2, 0, 1, 100⟩]⟩ : WalkerKernel).omask
        &&& demo_masks.EXTENSION) ≠ 0) ∧
    generate_source demo_masks demo_text ⟨3, 16, 1, [⟨1, 0, 0, 0⟩, ⟨2, 0, 1, 100⟩]⟩
      = .error (.runtime_error "EXTENSION in kernel") ∧
    generate_source demo_masks demo_text ⟨0, 16, 1, []⟩
      = .error (.runtime_error "No array operations!") ∧
    generate_source demo_masks demo_text ⟨1, 16, 1, [⟨1, 0, 0, 0⟩]⟩
      = .ok "walker.collapsed:WALKER_DECLARATION,OPERATIONS,WRITE_EXPANDED_SCALARS,WALKER_INNER_DIM" ∧
    ∀ text, generate_source demo_masks demo_text ⟨3, 16, 1, [⟨1, 0, 0, 0⟩, ⟨2, 0, 1, 100⟩]⟩
      ≠ .ok text :=
  ⟨Or.inr (by decide), rfl, rfl, rfl,
    (generate_source_refuses demo_masks demo_text ⟨3, 16, 1, [⟨1, 0, 0, 0⟩, ⟨2, 0, 1, 100⟩]⟩
      (Or.inr (by decide))).2.2⟩

/-! ## `Engine::execute`: array contraction on the single-instruction path -/

end Bohrium
